import Mathlib

/-!
# jsondsl: the recursive-descent parser of `parse.go`

A shallow embedding of `parse.go` and `token_string.go`, and theorems about
the parser's behaviour on token streams.

The tokenizer and the lookahead reader (`bufiog.Reader`) are not part of the
given sources.  The reader is modelled by its contract: the state of a parser
is the list of tokens not yet consumed, `Peek(1)` looks at the head of that
list, `Discard(1)` drops it and `ReadElem` does both.  When the list is empty
the reader reports the terminal signal `fin` of the tokenizer: `io.EOF` for a
stream that ended cleanly, any other error for a lexical error.
-/

namespace Jsondsl

/-! ## Tokens (`token_string.go`) -/

/-- The token kinds, in the order fixed by the index checks of
`token_string.go` (`TokenInvalid` is 0, `TokenString` is 15). -/
inductive Token
  | TokenInvalid | TokenColon | TokenComma | TokenDot
  | TokenLParen | TokenRParen | TokenLBrace | TokenRBrace
  | TokenLBrack | TokenRBrack
  | TokenNull | TokenFalse | TokenTrue | TokenNumber | TokenIdent | TokenString
  deriving DecidableEq, Repr

open Token

/-- The numeric value of a token kind. -/
def Token.toNat : Token → Nat
  | TokenInvalid => 0 | TokenColon => 1 | TokenComma => 2 | TokenDot => 3
  | TokenLParen => 4 | TokenRParen => 5 | TokenLBrace => 6 | TokenRBrace => 7
  | TokenLBrack => 8 | TokenRBrack => 9
  | TokenNull => 10 | TokenFalse => 11 | TokenTrue => 12 | TokenNumber => 13
  | TokenIdent => 14 | TokenString => 15

/-- The constant `_Token_name`. -/
def _Token_name : String :=
  "InvalidColonCommaDotLParenRParenLBraceRBraceLBrackRBrackNullFalseTrueNumberIdentString"

/-- The table `_Token_index`. -/
def _Token_index : List Nat :=
  [0, 7, 12, 17, 20, 26, 32, 38, 44, 50, 56, 60, 65, 69, 75, 80, 86]

/-- The method `Token.String`: the slice of `_Token_name` between two
consecutive entries of `_Token_index`.  Every value of `Token` is in range, so
the `Token(n)` branch of the source is not reachable. -/
def Token.String (i : Token) : String :=
  let lo := _Token_index.getD i.toNat 0
  let hi := _Token_index.getD (i.toNat + 1) 0
  String.mk ((_Token_name.data.drop lo).take (hi - lo))

/-! ## Positions and token elements -/

/-- Modelled from the spec: the type `Pos` is declared outside the given
sources.  A position is an opaque comparable marker; it is taken to be a
number, as in `go/token`. -/
abbrev Pos := Nat

/-- Modelled from the spec: the "no position" sentinel `NoPos`, declared
outside the given sources.  It is the zero value of `Pos`, which is also what
`var comma Pos` in `parseList` holds. -/
def NoPos : Pos := 0

/-- The token element `tokenPos` read by the parser: kind, position, raw text. -/
structure tokenPos where
  Token : Token
  Pos : Pos
  Text : String
  deriving DecidableEq, Repr

/-! ## Errors -/

/-- The error values the parser handles.  `EOF` and `ErrUnexpectedEOF` are the
sentinels `io.EOF` and `io.ErrUnexpectedEOF`; `scan` is an error reported by
the tokenizer; `errorString` is the value built by `fmt.Errorf` from a format
without `%w`: it carries a message and wraps nothing. -/
inductive GoError
  | EOF
  | ErrUnexpectedEOF
  | scan (msg : String)
  | errorString (msg : String)
  deriving DecidableEq, Repr

/-- The method `Error()`, which is what the verb `%v` prints. -/
def GoError.Error : GoError → String
  | .EOF => "EOF"
  | .ErrUnexpectedEOF => "unexpected EOF"
  | .scan msg => msg
  | .errorString msg => msg

/-- The function `errors.Is`: none of the error values has an `Unwrap` method,
so an error matches a target only when it is that very value. -/
def errorsIs (e target : GoError) : Bool := decide (e = target)

/-- The result of running a parse function with a bound on the number of
nested calls and loop iterations: a value, an error, or the bound was hit. -/
inductive Res (α : Type)
  | ok (v : α)
  | err (e : GoError)
  | timeout
  deriving Repr

/-! ## The concrete syntax tree -/

/-- The node `Ident`. -/
structure Ident where
  NamePos : Pos
  Name : String
  deriving DecidableEq, Repr

/-- The generic `ListElem[E]`: an element and the position of the comma that
followed it (the zero position when none did). -/
structure ListElem (E : Type) where
  Value : E
  Comma : Pos
  deriving Repr

mutual
/-- The nodes that can stand where a value is expected.  `Ident` is among
them as a node of its own; the parser builds it only inside an `Operator`. -/
inductive Value
  | Ident (Id : Ident)
  | Null (NullPos : Pos)
  | Bool (LitPos : Pos) (Literal : Bool)
  | Number (LitPos : Pos) (Literal : String)
  | String (Quote : Pos) (QuotedContent : String)
  | Array (LBrack : Pos) (Elements : List (ListElem Value)) (RBrack : Pos)
  | Object (LBrace : Pos) (Members : List (ListElem Member)) (RBrace : Pos)
  | Operator (Id : Ident) (Args : List OperatorArgs)
/-- The node `Member` of an object. -/
inductive Member
  | mk (Key : Value) (Colon : Pos) (Value : Value)
/-- The node `OperatorArgs`: one parenthesized argument list. -/
inductive OperatorArgs
  | mk (LParen : Pos) (ValueList : List (ListElem Value)) (RParen : Pos)
end

/-! ## The parser (`parse.go`) -/

/-- The method `parser.consumeToken`: read one element and require its kind to
be `t`. -/
def consumeToken (fin : GoError) (t : Token) (s : List tokenPos) :
    Res (Pos × List tokenPos) :=
  match s with
  | [] => .err fin
  | e :: rest =>
    if e.Token ≠ t then
      .err (.errorString ("expected token " ++ t.String ++ " (found " ++ e.Token.String ++ ")"))
    else .ok (e.Pos, rest)

/-- The generic function `parseList`, as a loop over the accumulated slice
`out`: one call is one iteration.  The delimiter is looked at, never
consumed. -/
def parseList {E : Type} (fin : GoError) (delim : Token)
    (parseFn : List tokenPos → Res (E × List tokenPos)) :
    Nat → List (ListElem E) → List tokenPos → Res (List (ListElem E) × List tokenPos)
  | 0, _, _ => .timeout
  | k + 1, out, s =>
    match s with
    | [] => if fin = .EOF then .err .ErrUnexpectedEOF else .err fin
    | e0 :: _ =>
      if e0.Token = delim then .ok (out, s)
      else
        match parseFn s with
        | .timeout => .timeout
        | .err e => .err e
        | .ok (v, s1) =>
          match s1 with
          | [] => if fin = .EOF then .err .ErrUnexpectedEOF else .err fin
          | e1 :: rest1 =>
            if e1.Token = TokenComma then
              parseList fin delim parseFn k (out ++ [⟨v, e1.Pos⟩]) rest1
            else if e1.Token = delim then .ok (out ++ [⟨v, (0 : Pos)⟩], s1)
            else
              .err (.errorString
                ("expected token " ++ TokenComma.String ++ " (found " ++ e1.Token.String ++ ")"))

/-- The method `parser.parseString`. -/
def parseString (fin : GoError) (s : List tokenPos) : Res (Value × List tokenPos) :=
  match s with
  | [] => .err fin
  | e :: rest =>
    if e.Token ≠ TokenString then
      .err (.errorString
        ("expected token " ++ TokenString.String ++ " (found " ++ e.Token.String ++ ")"))
    else .ok (.String e.Pos e.Text, rest)

/-- The method `parser.parseIdent`. -/
def parseIdent (fin : GoError) (s : List tokenPos) : Res (Ident × List tokenPos) :=
  match s with
  | [] => .err fin
  | e :: rest =>
    if e.Token ≠ TokenIdent then
      .err (.errorString
        ("expected token " ++ TokenIdent.String ++ " (found " ++ e.Token.String ++ ")"))
    else .ok (⟨e.Pos, e.Text⟩, rest)

/-- The method `parser.parseArray`; `pv` is `p.parseValue` and `k` bounds the
iterations of the list loop. -/
def parseArray (fin : GoError) (k : Nat) (pv : List tokenPos → Res (Value × List tokenPos))
    (s : List tokenPos) : Res (Value × List tokenPos) :=
  match consumeToken fin TokenLBrack s with
  | .timeout => .timeout
  | .err e => .err (.errorString (e.Error ++ " at start of array"))
  | .ok (lb, s1) =>
    match parseList fin TokenRBrack pv k [] s1 with
    | .timeout => .timeout
    | .err e => .err (.errorString (e.Error ++ " in array"))
    | .ok (elems, s2) =>
      match consumeToken fin TokenRBrack s2 with
      | .timeout => .timeout
      | .err e => .err (.errorString (e.Error ++ " at end of array"))
      | .ok (rb, s3) => .ok (.Array lb elems rb, s3)

/-- The method `parser.parseMember`. -/
def parseMember (fin : GoError) (pv : List tokenPos → Res (Value × List tokenPos))
    (s : List tokenPos) : Res (Member × List tokenPos) :=
  match pv s with
  | .timeout => .timeout
  | .err e => .err (.errorString (e.Error ++ " at member key"))
  | .ok (key, s1) =>
    match consumeToken fin TokenColon s1 with
    | .timeout => .timeout
    | .err e => .err (.errorString (e.Error ++ " in object member"))
    | .ok (colon, s2) =>
      match pv s2 with
      | .timeout => .timeout
      | .err e => .err (.errorString (e.Error ++ " at member Value"))
      | .ok (value, s3) => .ok (.mk key colon value, s3)

/-- The method `parser.parseObject`. -/
def parseObject (fin : GoError) (k : Nat) (pv : List tokenPos → Res (Value × List tokenPos))
    (s : List tokenPos) : Res (Value × List tokenPos) :=
  match consumeToken fin TokenLBrace s with
  | .timeout => .timeout
  | .err e => .err (.errorString (e.Error ++ " at beginning of object"))
  | .ok (lb, s1) =>
    match parseList fin TokenRBrace (parseMember fin pv) k [] s1 with
    | .timeout => .timeout
    | .err e => .err (.errorString (e.Error ++ " in object"))
    | .ok (members, s2) =>
      match consumeToken fin TokenRBrace s2 with
      | .timeout => .timeout
      | .err e => .err (.errorString (e.Error ++ " at end of object"))
      | .ok (rb, s3) => .ok (.Object lb members rb, s3)

/-- The method `parser.parseOperatorArgs`. -/
def parseOperatorArgs (fin : GoError) (k : Nat)
    (pv : List tokenPos → Res (Value × List tokenPos))
    (s : List tokenPos) : Res (OperatorArgs × List tokenPos) :=
  match consumeToken fin TokenLParen s with
  | .timeout => .timeout
  | .err e => .err (.errorString (e.Error ++ " at start of operator arguments"))
  | .ok (lp, s1) =>
    match parseList fin TokenRParen pv k [] s1 with
    | .timeout => .timeout
    | .err e => .err (.errorString (e.Error ++ " at operator arguments"))
    | .ok (args, s2) =>
      match consumeToken fin TokenRParen s2 with
      | .timeout => .timeout
      | .err e => .err (.errorString (e.Error ++ " at end of operator"))
      | .ok (rp, s3) => .ok (.mk lp args rp, s3)

/-- The `for` loop of `parser.parseOperator` over the slice `opArgs`; `pa` is
`p.parseOperatorArgs`.  One call is one iteration. -/
def parseOperatorLoop (fin : GoError)
    (pa : List tokenPos → Res (OperatorArgs × List tokenPos)) :
    Nat → List OperatorArgs → List tokenPos → Res (List OperatorArgs × List tokenPos)
  | 0, _, _ => .timeout
  | k + 1, opArgs, s =>
    match s with
    | [] => if fin ≠ .EOF then .err fin else .ok (opArgs, s)
    | e :: _ =>
      if e.Token ≠ TokenLParen then .ok (opArgs, s)
      else
        match pa s with
        | .timeout => .timeout
        | .err e => .err e
        | .ok (args, s1) => parseOperatorLoop fin pa k (opArgs ++ [args]) s1

/-- The method `parser.parseOperator`. -/
def parseOperator (fin : GoError) (k : Nat)
    (pv : List tokenPos → Res (Value × List tokenPos))
    (s : List tokenPos) : Res (Value × List tokenPos) :=
  match parseIdent fin s with
  | .timeout => .timeout
  | .err e => .err (.errorString (e.Error ++ " at start of operator"))
  | .ok (id, s1) =>
    match parseOperatorLoop fin (parseOperatorArgs fin k pv) k [] s1 with
    | .timeout => .timeout
    | .err e => .err e
    | .ok (opArgs, s2) => .ok (.Operator id opArgs, s2)

/-- The method `parser.parseValue`.  The first argument bounds the depth of
nested calls and the iterations of the loops below it. -/
def parseValue (fin : GoError) : Nat → List tokenPos → Res (Value × List tokenPos)
  | 0, _ => .timeout
  | n + 1, s =>
    match s with
    | [] => if fin = .EOF then .err .ErrUnexpectedEOF else .err fin
    | e :: rest =>
      match e.Token with
      | TokenInvalid => .err (.errorString "invalid token returned during scan")
      | TokenColon | TokenComma | TokenLParen | TokenRParen | TokenRBrace | TokenRBrack =>
        .err (.errorString ("unexpected token " ++ e.Token.String ++ " at beginning of Value"))
      | TokenLBrace => parseObject fin n (parseValue fin n) s
      | TokenLBrack => parseArray fin n (parseValue fin n) s
      | TokenNull => .ok (.Null e.Pos, rest)
      | TokenFalse => .ok (.Bool e.Pos false, rest)
      | TokenTrue => .ok (.Bool e.Pos true, rest)
      | TokenNumber => .ok (.Number e.Pos e.Text, rest)
      | TokenIdent => parseOperator fin n (parseValue fin n) s
      | TokenString => parseString fin s
      | TokenDot =>
        .err (.errorString ("unknown token " ++ e.Token.String ++ " returned during scan"))

/-- The `for` loop of `Parse` over the slice `out`; `pv` is `p.parseValue`. -/
def ParseLoop (fin : GoError) (pv : List tokenPos → Res (Value × List tokenPos)) :
    Nat → List Value → List tokenPos → Res (List Value)
  | 0, _, _ => .timeout
  | k + 1, out, s =>
    match s with
    | [] => if fin = .EOF then .ok out else .err fin
    | _ :: _ =>
      match pv s with
      | .timeout => .timeout
      | .err e => if e = .EOF then .ok out else .err e
      | .ok (val, s1) => ParseLoop fin pv k (out ++ [val]) s1

/-- The function `Parse` on the tokens `ts` that the tokenizer delivers before
it reports `fin`.  The bound given to the loops and to `parseValue` is one
more than the number of tokens. -/
def Parse (fin : GoError) (ts : List tokenPos) : Res (List Value) :=
  ParseLoop fin (parseValue fin (ts.length + 1)) (ts.length + 1) [] ts

/-! ## The token sequence of a node

`Shape node w` says that `w` is the sequence of token elements from which the
parser builds `node`.  It is the relational description of a successful run;
the lemmas below show that the functions above realise exactly this relation.
-/

/-- The syntactic categories a run of the parser can build. -/
inductive Node
  | value (v : Value)
  | member (m : Member)
  | args (a : OperatorArgs)
  | values (l : List (ListElem Value))
  | members (l : List (ListElem Member))
  | groups (l : List OperatorArgs)
  | top (l : List Value)

/-- The next unread token has kind `t`. -/
def NextIs (t : Token) : List tokenPos → Prop
  | [] => False
  | e :: _ => e.Token = t

instance (t : Token) (r : List tokenPos) : Decidable (NextIs t r) := by
  cases r <;> simp only [NextIs] <;> infer_instance

/-- The node is an `Operator`. -/
def isOperator : Value → Bool
  | .Operator _ _ => true
  | _ => false

/-- The relation between a node and the token elements it is built from. -/
inductive Shape : Node → List tokenPos → Prop
  | null (e : tokenPos) : e.Token = TokenNull → Shape (.value (.Null e.Pos)) [e]
  | boolFalse (e : tokenPos) : e.Token = TokenFalse → Shape (.value (.Bool e.Pos false)) [e]
  | boolTrue (e : tokenPos) : e.Token = TokenTrue → Shape (.value (.Bool e.Pos true)) [e]
  | number (e : tokenPos) : e.Token = TokenNumber → Shape (.value (.Number e.Pos e.Text)) [e]
  | string (e : tokenPos) : e.Token = TokenString → Shape (.value (.String e.Pos e.Text)) [e]
  | array (lb rb : tokenPos) (l : List (ListElem Value)) (w : List tokenPos) :
      lb.Token = TokenLBrack → rb.Token = TokenRBrack → Shape (.values l) w →
      Shape (.value (.Array lb.Pos l rb.Pos)) (lb :: (w ++ [rb]))
  | object (lb rb : tokenPos) (l : List (ListElem Member)) (w : List tokenPos) :
      lb.Token = TokenLBrace → rb.Token = TokenRBrace → Shape (.members l) w →
      Shape (.value (.Object lb.Pos l rb.Pos)) (lb :: (w ++ [rb]))
  | operator (id : tokenPos) (gs : List OperatorArgs) (w : List tokenPos) :
      id.Token = TokenIdent → Shape (.groups gs) w →
      Shape (.value (.Operator ⟨id.Pos, id.Text⟩ gs)) (id :: w)
  | member (c : tokenPos) (k v : Value) (wk wv : List tokenPos) :
      c.Token = TokenColon → Shape (.value k) wk → Shape (.value v) wv →
      Shape (.member (.mk k c.Pos v)) (wk ++ c :: wv)
  | args (lp rp : tokenPos) (l : List (ListElem Value)) (w : List tokenPos) :
      lp.Token = TokenLParen → rp.Token = TokenRParen → Shape (.values l) w →
      Shape (.args (.mk lp.Pos l rp.Pos)) (lp :: (w ++ [rp]))
  | groupsNil : Shape (.groups []) []
  | groupsCons (a : OperatorArgs) (gs : List OperatorArgs) (w w1 : List tokenPos) :
      Shape (.args a) w → Shape (.groups gs) w1 → Shape (.groups (a :: gs)) (w ++ w1)
  | valuesNil : Shape (.values []) []
  | valuesLast (v : Value) (w : List tokenPos) :
      Shape (.value v) w → Shape (.values [⟨v, 0⟩]) w
  | valuesCons (c : tokenPos) (v : Value) (l : List (ListElem Value)) (w w1 : List tokenPos) :
      c.Token = TokenComma → Shape (.value v) w → Shape (.values l) w1 →
      Shape (.values (⟨v, c.Pos⟩ :: l)) (w ++ c :: w1)
  | membersNil : Shape (.members []) []
  | membersLast (m : Member) (w : List tokenPos) :
      Shape (.member m) w → Shape (.members [⟨m, 0⟩]) w
  | membersCons (c : tokenPos) (m : Member) (l : List (ListElem Member))
      (w w1 : List tokenPos) :
      c.Token = TokenComma → Shape (.member m) w → Shape (.members l) w1 →
      Shape (.members (⟨m, c.Pos⟩ :: l)) (w ++ c :: w1)
  | topNil : Shape (.top []) []
  | topCons (v : Value) (vs : List Value) (w w1 : List tokenPos) :
      Shape (.value v) w → Shape (.top vs) w1 → Shape (.top (v :: vs)) (w ++ w1)

/-! ## Predicates used in the proofs -/

/-- A value parser builds shapes: what it consumed is the token sequence of
the value returned, and an operator is never followed by an opening paren. -/
def SoundV (pv : List tokenPos → Res (Value × List tokenPos)) : Prop :=
  ∀ s v r, pv s = .ok (v, r) →
    ∃ w, s = w ++ r ∧ Shape (.value v) w ∧ (isOperator v = true → ¬ NextIs TokenLParen r)

/-- The token kinds on which `parseValue` selects a production. -/
def startsValue : Token → Bool
  | TokenLBrace | TokenLBrack | TokenNull | TokenFalse | TokenTrue
  | TokenNumber | TokenIdent | TokenString => true
  | _ => false

/-- The three closing delimiters `parseList` is called with. -/
def closer : Token → Bool
  | TokenRBrack | TokenRBrace | TokenRParen => true
  | _ => false

/-- What an operator needs of the tokens after it: no opening paren next, and
at the end of the stream a clean end. -/
def OpGuard (fin : GoError) (r : List tokenPos) : Prop :=
  ¬ NextIs TokenLParen r ∧ (r = [] → fin = .EOF)

/-- What it means for the parser to accept the token sequence of a node,
category by category. -/
def Complete (fin : GoError) : Node → List tokenPos → Prop
  | .value v, w => ∀ n r, w.length < n → (isOperator v = true → OpGuard fin r) →
      parseValue fin n (w ++ r) = .ok (v, r)
  | .member m, w => ∀ n r, w.length < n → OpGuard fin r →
      parseMember fin (parseValue fin n) (w ++ r) = .ok (m, r)
  | .args a, w => ∀ n k r, w.length ≤ n → w.length ≤ k →
      parseOperatorArgs fin k (parseValue fin n) (w ++ r) = .ok (a, r)
  | .values l, w => ∀ n k out delim d r, w.length < n → w.length < k → d.Token = delim →
      closer delim = true →
      parseList fin delim (parseValue fin n) k out (w ++ d :: r) = .ok (out ++ l, d :: r)
  | .members l, w => ∀ n k out delim d r, w.length < n → w.length < k → d.Token = delim →
      closer delim = true →
      parseList fin delim (parseMember fin (parseValue fin n)) k out (w ++ d :: r) =
        .ok (out ++ l, d :: r)
  | .groups gs, w => ∀ n k j out r, w.length ≤ n → w.length ≤ k → w.length < j →
      OpGuard fin r →
      parseOperatorLoop fin (parseOperatorArgs fin k (parseValue fin n)) j out (w ++ r) =
        .ok (out ++ gs, r)
  | .top vs, w => ∀ n k out, fin = .EOF → w.length < n → w.length < k →
      ParseLoop fin (parseValue fin n) k out w = .ok (out ++ vs)

/-! ## The grammar of the specification -/

/-- The nonterminals of the grammar; `List E` is the parametrised production
`List(E)`. -/
inductive NT
  | Value | Array | Object | Member | Operator
  | List (E : NT)

/-- The right-hand sides of the grammar: terminals (a token kind),
nonterminals, sequence, alternative `|`, repetition `*` and option `?`. -/
inductive G
  | tok (t : Token)
  | nt (n : NT)
  | seq (a b : G)
  | alt (a b : G)
  | star (a : G)
  | opt (a : G)

/-- The productions as the specification writes them:
```
Value    := Null | Bool | Number | String | Array | Object | Operator
Array    := '[' List(Value) ']'
Object   := '{' List(Member) '}'
Member   := Value ':' Value
Operator := Ident ('(' List(Value) ')')*
List(E)  := (E (',' E)*)? ','?
```
-/
def specProd : NT → G
  | .Value =>
    .alt (.tok TokenNull) (.alt (.alt (.tok TokenFalse) (.tok TokenTrue))
      (.alt (.tok TokenNumber) (.alt (.tok TokenString)
        (.alt (.nt .Array) (.alt (.nt .Object) (.nt .Operator))))))
  | .Array => .seq (.tok TokenLBrack) (.seq (.nt (.List .Value)) (.tok TokenRBrack))
  | .Object => .seq (.tok TokenLBrace) (.seq (.nt (.List .Member)) (.tok TokenRBrace))
  | .Member => .seq (.nt .Value) (.seq (.tok TokenColon) (.nt .Value))
  | .Operator =>
    .seq (.tok TokenIdent)
      (.star (.seq (.tok TokenLParen) (.seq (.nt (.List .Value)) (.tok TokenRParen))))
  | .List E =>
    .seq (.opt (.seq (.nt E) (.star (.seq (.tok TokenComma) (.nt E))))) (.opt (.tok TokenComma))

/-- The productions with the list production amended so that the optional
trailing comma belongs to a non-empty list:
`List(E) := (E (',' E)* ','?)?`. -/
def codeProd : NT → G
  | .List E =>
    .opt (.seq (.nt E) (.seq (.star (.seq (.tok TokenComma) (.nt E))) (.opt (.tok TokenComma))))
  | n => specProd n

/-- Derivation: the token elements `w` match the right-hand side `g` under the
productions `prod`.  A terminal matches one token element of its kind. -/
inductive Matches (prod : NT → G) : G → List tokenPos → Prop
  | tok (t : Token) (e : tokenPos) : e.Token = t → Matches prod (.tok t) [e]
  | nt (n : NT) (w : List tokenPos) : Matches prod (prod n) w → Matches prod (.nt n) w
  | seq (a b : G) (w1 w2 : List tokenPos) :
      Matches prod a w1 → Matches prod b w2 → Matches prod (.seq a b) (w1 ++ w2)
  | altL (a b : G) (w : List tokenPos) : Matches prod a w → Matches prod (.alt a b) w
  | altR (a b : G) (w : List tokenPos) : Matches prod b w → Matches prod (.alt a b) w
  | starNil (a : G) : Matches prod (.star a) []
  | starCons (a : G) (w1 w2 : List tokenPos) :
      Matches prod a w1 → Matches prod (.star a) w2 → Matches prod (.star a) (w1 ++ w2)
  | optNone (a : G) : Matches prod (.opt a) []
  | optSome (a : G) (w : List tokenPos) : Matches prod a w → Matches prod (.opt a) w

/-- The stream is derivable from `Value*`. -/
def Derivable (prod : NT → G) (ts : List tokenPos) : Prop :=
  Matches prod (.star (.nt .Value)) ts

/-- Concatenations of sequences satisfying `P`. -/
inductive Star (P : List tokenPos → Prop) : List tokenPos → Prop
  | nil : Star P []
  | cons (w1 w2 : List tokenPos) : P w1 → Star P w2 → Star P (w1 ++ w2)

/-- Comma-separated sequences of `P` with an optional trailing comma after a
last element. -/
inductive Seq (P : List tokenPos → Prop) : List tokenPos → Prop
  | nil : Seq P []
  | last (w : List tokenPos) : P w → Seq P w
  | cons (c : tokenPos) (w w1 : List tokenPos) :
      c.Token = TokenComma → P w → Seq P w1 → Seq P (w ++ c :: w1)

/-- The token sequences the parser accepts for a nonterminal. -/
def Lang : NT → List tokenPos → Prop
  | .Value, w => ∃ v, Shape (.value v) w
  | .Array, w => ∃ lb l rb, Shape (.value (.Array lb l rb)) w
  | .Object, w => ∃ lb l rb, Shape (.value (.Object lb l rb)) w
  | .Member, w => ∃ m, Shape (.member m) w
  | .Operator, w => ∃ id gs, Shape (.value (.Operator id gs)) w
  | .List E, w => Seq (Lang E) w

/-- The meaning of a right-hand side when each nonterminal stands for the
sequences the parser accepts for it. -/
def Sem : G → List tokenPos → Prop
  | .tok t, w => ∃ e, w = [e] ∧ e.Token = t
  | .nt n, w => Lang n w
  | .seq a b, w => ∃ w1 w2, w = w1 ++ w2 ∧ Sem a w1 ∧ Sem b w2
  | .alt a b, w => Sem a w ∨ Sem b w
  | .star a, w => Star (Sem a) w
  | .opt a, w => w = [] ∨ Sem a w

/-- The derivation that corresponds to a node of each category. -/
def Gram : Node → List tokenPos → Prop
  | .value _, w => Matches codeProd (.nt .Value) w
  | .member _, w => Matches codeProd (.nt .Member) w
  | .args _, w =>
    Matches codeProd (.seq (.tok TokenLParen) (.seq (.nt (.List .Value)) (.tok TokenRParen))) w
  | .values _, w => w = [] ∨
    Matches codeProd (.seq (.nt .Value)
      (.seq (.star (.seq (.tok TokenComma) (.nt .Value))) (.opt (.tok TokenComma)))) w
  | .members _, w => w = [] ∨
    Matches codeProd (.seq (.nt .Member)
      (.seq (.star (.seq (.tok TokenComma) (.nt .Member))) (.opt (.tok TokenComma)))) w
  | .groups _, w =>
    Matches codeProd
      (.star (.seq (.tok TokenLParen) (.seq (.nt (.List .Value)) (.tok TokenRParen)))) w
  | .top _, w => Matches codeProd (.star (.nt .Value)) w

/-! ## Reading a tree back -/

/-- The part of a token element the tree keeps: kind and position, and the
raw text of a number, a string or an identifier. -/
def tokenPos.kept (t : tokenPos) : tokenPos :=
  match t.Token with
  | TokenNumber | TokenString | TokenIdent => t
  | _ => { t with Text := "" }

mutual
/-- Reading a value back: its literals with kind, position and raw text, and
the position of each bracket, brace, paren, colon and comma, in order. -/
def Value.tokens : Value → List tokenPos
  | .Ident id => [⟨TokenIdent, id.NamePos, id.Name⟩]
  | .Null p => [⟨TokenNull, p, ""⟩]
  | .Bool p false => [⟨TokenFalse, p, ""⟩]
  | .Bool p true => [⟨TokenTrue, p, ""⟩]
  | .Number p t => [⟨TokenNumber, p, t⟩]
  | .String p t => [⟨TokenString, p, t⟩]
  | .Array lb es rb => ⟨TokenLBrack, lb, ""⟩ :: (valuesTokens es ++ [⟨TokenRBrack, rb, ""⟩])
  | .Object lb ms rb => ⟨TokenLBrace, lb, ""⟩ :: (membersTokens ms ++ [⟨TokenRBrace, rb, ""⟩])
  | .Operator id gs => ⟨TokenIdent, id.NamePos, id.Name⟩ :: groupsTokens gs
/-- Reading back a list of values; a comma is read where a `ListElem` holds a
position other than `NoPos`. -/
def valuesTokens : List (ListElem Value) → List tokenPos
  | [] => []
  | ⟨v, c⟩ :: rest =>
    v.tokens ++ ((if c = NoPos then [] else [⟨TokenComma, c, ""⟩]) ++ valuesTokens rest)
/-- Reading back a member: key, colon, value. -/
def Member.tokens : Member → List tokenPos
  | .mk k c v => k.tokens ++ (⟨TokenColon, c, ""⟩ :: v.tokens)
/-- Reading back a list of members. -/
def membersTokens : List (ListElem Member) → List tokenPos
  | [] => []
  | ⟨m, c⟩ :: rest =>
    m.tokens ++ ((if c = NoPos then [] else [⟨TokenComma, c, ""⟩]) ++ membersTokens rest)
/-- Reading back one argument list. -/
def OperatorArgs.tokens : OperatorArgs → List tokenPos
  | .mk lp es rp => ⟨TokenLParen, lp, ""⟩ :: (valuesTokens es ++ [⟨TokenRParen, rp, ""⟩])
/-- Reading back the argument lists of an operator. -/
def groupsTokens : List OperatorArgs → List tokenPos
  | [] => []
  | g :: rest => g.tokens ++ groupsTokens rest
end

/-- Reading back the nodes returned by `Parse`, in order. -/
def readBack : List Value → List tokenPos
  | [] => []
  | v :: rest => v.tokens ++ readBack rest

/-- Reading back a node of any category. -/
def Node.tokens : Node → List tokenPos
  | .value v => v.tokens
  | .member m => m.tokens
  | .args a => a.tokens
  | .values l => valuesTokens l
  | .members l => membersTokens l
  | .groups l => groupsTokens l
  | .top l => readBack l

/-! ## Truncated streams -/

/-- The number of opening brackets, braces and parens of a token sequence
minus the number of closing ones. -/
def openDepth : List tokenPos → Int
  | [] => 0
  | e :: rest =>
    (match e.Token with
      | TokenLBrack | TokenLBrace | TokenLParen => 1
      | TokenRBrack | TokenRBrace | TokenRParen => -1
      | _ => 0) + openDepth rest

/-- The message of the error starts with the text of `io.ErrUnexpectedEOF`. -/
def UnexpectedEofErr (e : GoError) : Prop :=
  ∃ ctx, e.Error = "unexpected EOF" ++ ctx

/-- The message of the error starts with the text of `io.EOF` as `parseMember`
wraps it when the colon is missing. -/
def ColonEofErr (e : GoError) : Prop :=
  ∃ ctx, e.Error = "EOF in object member" ++ ctx

/-- The error of a parse function on a stream that was cut short before the
tokens `b`: its message starts with `unexpected EOF`, or with
`EOF in object member`, and then the cut is before a colon or an opening
paren. -/
def EofErr (b : List tokenPos) (e : GoError) : Prop :=
  UnexpectedEofErr e ∨ (ColonEofErr e ∧ (NextIs TokenColon b ∨ NextIs TokenLParen b))

/-- The outcome of a parse function on a stream that was cut short before the
tokens `b`: an error for the end of input, or a value that took every token,
the cut being before an opening paren. -/
def Cut {α : Type} (b : List tokenPos) (x : Res (α × List tokenPos)) : Prop :=
  (∃ e, x = .err e ∧ EofErr b e) ∨ (∃ v, x = .ok (v, []) ∧ (b ≠ [] → NextIs TokenLParen b))

/-- What the parser does on each cut `a` of the token sequence `a ++ b` of a
node, category by category. -/
def Trunc : Node → List tokenPos → Prop
  | .value _, w => ∀ a b n, w = a ++ b → b ≠ [] → a.length < n →
      Cut b (parseValue .EOF n a)
  | .member _, w => ∀ a b n, w = a ++ b → b ≠ [] → a.length < n →
      Cut b (parseMember .EOF (parseValue .EOF n) a)
  | .args _, w => ∀ a b n k, w = a ++ b → b ≠ [] → a ≠ [] → a.length ≤ n → a.length ≤ k →
      Cut b (parseOperatorArgs .EOF k (parseValue .EOF n) a)
  | .values _, w => ∀ a b n k out delim, w = a ++ b → closer delim = true →
      a.length < n → a.length < k →
      ∃ e, parseList .EOF delim (parseValue .EOF n) k out a = .err e ∧ EofErr b e
  | .members _, w => ∀ a b n k out delim, w = a ++ b → closer delim = true →
      a.length < n → a.length < k →
      ∃ e, parseList .EOF delim (parseMember .EOF (parseValue .EOF n)) k out a = .err e ∧
        EofErr b e
  | .groups _, w => ∀ a b n k j out, w = a ++ b → a.length ≤ n → a.length ≤ k →
      a.length < j →
      Cut b (parseOperatorLoop .EOF (parseOperatorArgs .EOF k (parseValue .EOF n)) j out a)
  | .top _, w => ∀ a b n k out, w = a ++ b → a.length < n → a.length < k →
      (∃ e, ParseLoop .EOF (parseValue .EOF n) k out a = .err e ∧ EofErr b e) ∨
      (∃ vs, ParseLoop .EOF (parseValue .EOF n) k out a = .ok vs)

/-! ## Trailing commas -/

/-- The three opening delimiters. -/
def opener : Token → Bool
  | TokenLBrack | TokenLBrace | TokenLParen => true
  | _ => false

/-- The list with the comma position of its last `ListElem` set to `c`. -/
def setLast {E : Type} (c : Pos) : List (ListElem E) → List (ListElem E)
  | [] => []
  | [x] => [⟨x.Value, c⟩]
  | x :: y :: rest => x :: setLast c (y :: rest)

/-- The argument list with the comma position of its last `ListElem` set to `c`. -/
def OperatorArgs.setLast (c : Pos) : OperatorArgs → OperatorArgs
  | .mk lp l rp => .mk lp (Jsondsl.setLast c l) rp

/-- The call groups with `c` set in the last group. -/
def setLastGroup (c : Pos) : List OperatorArgs → List OperatorArgs
  | [] => []
  | [g] => [g.setLast c]
  | g :: h :: rest => g :: setLastGroup c (h :: rest)

/-- The value with the comma position `c` recorded on the last `ListElem` of
its list: the elements of an array, the members of an object, the arguments
of the last call group of an operator. -/
def withTrailingComma (c : Pos) : Value → Value
  | .Array lb l rb => .Array lb (setLast c l) rb
  | .Object lb l rb => .Object lb (setLast c l) rb
  | .Operator id gs => .Operator id (setLastGroup c gs)
  | v => v

/-- What a comma before the closing delimiter does to the shape of a node,
category by category. -/
def Trail : Node → List tokenPos → Prop
  | .value v, w => ∀ (init : List tokenPos) (p close c : tokenPos),
      w = init ++ [p, close] → closer close.Token = true → p.Token ≠ TokenComma →
      opener p.Token = false → c.Token = TokenComma →
      Shape (.value (withTrailingComma c.Pos v)) (init ++ [p, c, close]) ∧
        withTrailingComma NoPos v = v
  | .args a, w => ∀ (init : List tokenPos) (p close c : tokenPos),
      w = init ++ [p, close] → p.Token ≠ TokenComma →
      opener p.Token = false → c.Token = TokenComma →
      Shape (.args (a.setLast c.Pos)) (init ++ [p, c, close]) ∧ a.setLast NoPos = a
  | .groups gs, w => ∀ (init : List tokenPos) (p close c : tokenPos),
      w = init ++ [p, close] → p.Token ≠ TokenComma →
      opener p.Token = false → c.Token = TokenComma →
      Shape (.groups (setLastGroup c.Pos gs)) (init ++ [p, c, close]) ∧
        setLastGroup NoPos gs = gs
  | .values l, w => ∀ (init : List tokenPos) (p c : tokenPos),
      w = init ++ [p] → p.Token ≠ TokenComma → c.Token = TokenComma →
      Shape (.values (setLast c.Pos l)) (w ++ [c]) ∧ setLast NoPos l = l
  | .members l, w => ∀ (init : List tokenPos) (p c : tokenPos),
      w = init ++ [p] → p.Token ≠ TokenComma → c.Token = TokenComma →
      Shape (.members (setLast c.Pos l)) (w ++ [c]) ∧ setLast NoPos l = l
  | .member _, _ => True
  | .top _, _ => True

/-! ## A comma after an opening delimiter -/

/-- Whether the last token of a sequence is an opening delimiter; `p` answers
for the empty sequence. -/
def endsOpen (p : Bool) : List tokenPos → Bool
  | [] => p
  | e :: rest => endsOpen (opener e.Token) rest

/-- Whether a comma directly follows an opening delimiter somewhere in the
sequence; `p` says whether an opening delimiter precedes the sequence. -/
def commaAfterOpen (p : Bool) : List tokenPos → Bool
  | [] => false
  | e :: rest => (p && decide (e.Token = TokenComma)) || commaAfterOpen (opener e.Token) rest

/-! ## Call groups -/

/-- One parenthesized argument list, `'(' List(Value) ')'`. -/
def callGroup : G :=
  .seq (.tok TokenLParen) (.seq (.nt (.List .Value)) (.tok TokenRParen))

/-- The field `LParen` of an `OperatorArgs`. -/
def OperatorArgs.LParen : OperatorArgs → Pos
  | .mk lp _ _ => lp

/-- The field `RParen` of an `OperatorArgs`. -/
def OperatorArgs.RParen : OperatorArgs → Pos
  | .mk _ _ rp => rp

/-- The field `ValueList` of an `OperatorArgs`. -/
def OperatorArgs.ValueList : OperatorArgs → List (ListElem Value)
  | .mk _ l _ => l

/-! ## The decoder

The decoder is not part of the given sources; only its tests are.  It is
modelled from the specification (section 4.4), over the parser above.
-/

/-- Modelled from the spec: the decoded values (section 3, "Decoded value");
the type is declared outside the given sources.  `F` stands for the 64-bit
floats, and a map is the list of its entries, with unique keys. -/
inductive DValue (F : Type)
  | null
  | bool (b : Bool)
  | number (x : F)
  | string (s : String)
  | list (l : List (DValue F))
  | map (m : List (String × DValue F))
  | id (name : String)
  | op (id : String) (args : List (DValue F))

/-- Modelled from the spec: the errors of the decoder (section 7).  `parse`
carries an error of the tokenizer or the parser. -/
inductive DecodeError
  | parse (e : GoError)
  | NumberFormat
  | Escape
  | SemanticKey
  | EndOfInput
  deriving DecidableEq, Repr

/-- The result of a bounded run of the decoder. -/
inductive DRes (α : Type)
  | ok (v : α)
  | err (e : DecodeError)
  | timeout

/-- Modelled from the spec: what the decoder takes from outside the model.
`parseFloat` parses the raw text of a number as a 64-bit float, `unescape`
interprets the backslash escapes of a string, and `chain` is the merge policy
for an operator with more than one call group, which the specification leaves
open. -/
structure Conv (F : Type) where
  parseFloat : String → Option F
  unescape : String → Option String
  chain : List (List (DValue F)) → List (DValue F)

/-- Modelled from the spec: writing an entry into a map; the last write for a
key wins. -/
def mapSet {F : Type} (m : List (String × DValue F)) (k : String) (v : DValue F) :
    List (String × DValue F) :=
  m.filter (fun e => e.1 ≠ k) ++ [(k, v)]

/-- Modelled from the spec: a member key must decode to a string or to an
identifier value. -/
def keyOf {F : Type} : DValue F → Except DecodeError String
  | .string s => .ok s
  | .id name => .ok name
  | _ => .error .SemanticKey

mutual
/-- Modelled from the spec: the transform rules from a node to a decoded value
(section 4.4); the function is not part of the given sources. -/
def decodeValue {F : Type} (cv : Conv F) : Value → Except DecodeError (DValue F)
  | .Ident id => .ok (.id id.Name)
  | .Null _ => .ok .null
  | .Bool _ b => .ok (.bool b)
  | .Number _ text =>
    match cv.parseFloat text with
    | some x => .ok (.number x)
    | none => .error .NumberFormat
  | .String _ text =>
    match cv.unescape text with
    | some s => .ok (.string s)
    | none => .error .Escape
  | .Array _ elems _ =>
    match decodeElems cv elems with
    | .ok ds => .ok (.list ds)
    | .error e => .error e
  | .Object _ members _ =>
    match decodeMembers cv [] members with
    | .ok m => .ok (.map m)
    | .error e => .error e
  | .Operator id groups =>
    match groups with
    | [] => .ok (.id id.Name)
    | [g] =>
      match decodeArgs cv g with
      | .ok ds => .ok (.op id.Name ds)
      | .error e => .error e
    | g :: h :: rest =>
      match decodeGroups cv (g :: h :: rest) with
      | .ok dss => .ok (.op id.Name (cv.chain dss))
      | .error e => .error e
/-- Modelled from the spec: the elements of a list, decoded in order. -/
def decodeElems {F : Type} (cv : Conv F) :
    List (ListElem Value) → Except DecodeError (List (DValue F))
  | [] => .ok []
  | ⟨v, _⟩ :: rest =>
    match decodeValue cv v with
    | .error e => .error e
    | .ok d =>
      match decodeElems cv rest with
      | .error e => .error e
      | .ok ds => .ok (d :: ds)
/-- Modelled from the spec: the members of an object, written into the map
`acc` in order. -/
def decodeMembers {F : Type} (cv : Conv F) (acc : List (String × DValue F)) :
    List (ListElem Member) → Except DecodeError (List (String × DValue F))
  | [] => .ok acc
  | ⟨.mk key _ value, _⟩ :: rest =>
    match decodeValue cv key with
    | .error e => .error e
    | .ok dk =>
      match keyOf dk with
      | .error e => .error e
      | .ok k =>
        match decodeValue cv value with
        | .error e => .error e
        | .ok d => decodeMembers cv (mapSet acc k d) rest
/-- Modelled from the spec: the arguments of one call group. -/
def decodeArgs {F : Type} (cv : Conv F) : OperatorArgs → Except DecodeError (List (DValue F))
  | .mk _ elems _ => decodeElems cv elems
/-- Modelled from the spec: the arguments of each call group. -/
def decodeGroups {F : Type} (cv : Conv F) :
    List OperatorArgs → Except DecodeError (List (List (DValue F)))
  | [] => .ok []
  | g :: rest =>
    match decodeArgs cv g with
    | .error e => .error e
    | .ok ds =>
      match decodeGroups cv rest with
      | .error e => .error e
      | .ok dss => .ok (ds :: dss)
end

/-- Modelled from the spec: the operation `Decode` (section 6): it decodes the
next top-level value of the stream, or reports the end of the stream when no
token is left.  The function is not part of the given sources. -/
def Decode {F : Type} (cv : Conv F) (fin : GoError) (ts : List tokenPos) :
    DRes (DValue F × List tokenPos) :=
  match ts with
  | [] => if fin = .EOF then .err .EndOfInput else .err (.parse fin)
  | _ :: _ =>
    match parseValue fin (ts.length + 1) ts with
    | .timeout => .timeout
    | .err e => .err (.parse e)
    | .ok (v, rest) =>
      match decodeValue cv v with
      | .ok d => .ok (d, rest)
      | .error e => .err e

/-- The tokens of a comma-separated run: each element followed by its comma. -/
def commaList : List (List tokenPos × tokenPos) → List tokenPos
  | [] => []
  | (a, c) :: rest => a ++ c :: commaList rest

/-- A converter for examples: a number is kept as its raw text, a string is
taken to hold no escape, and call groups are concatenated. -/
def textConv : Conv String where
  parseFloat := fun s => some s
  unescape := fun s => some s
  chain := List.flatten

/-! ## The reader after a call -/

/-- The outcome of a method together with the tokens the reader still holds
when the method returns. -/
structure Run (α : Type) where
  res : Res (α × List tokenPos)
  reader : List tokenPos

/-- The body of `parser.parseValue` with the reader kept on every path: `Peek`
leaves it as it is, `Discard(1)` drops one token.  The four methods the body
hands over to are parameters. -/
def parseValueBody (fin : GoError)
    (parseObject parseArray parseOperator parseString : List tokenPos → Run Value)
    (s : List tokenPos) : Run Value :=
  match s with
  | [] => ⟨if fin = .EOF then .err .ErrUnexpectedEOF else .err fin, s⟩
  | e :: rest =>
    match e.Token with
    | TokenInvalid => ⟨.err (.errorString "invalid token returned during scan"), s⟩
    | TokenColon | TokenComma | TokenLParen | TokenRParen | TokenRBrace | TokenRBrack =>
      ⟨.err (.errorString ("unexpected token " ++ e.Token.String ++ " at beginning of Value")), s⟩
    | TokenLBrace => parseObject s
    | TokenLBrack => parseArray s
    | TokenNull => ⟨.ok (.Null e.Pos, rest), rest⟩
    | TokenFalse => ⟨.ok (.Bool e.Pos false, rest), rest⟩
    | TokenTrue => ⟨.ok (.Bool e.Pos true, rest), rest⟩
    | TokenNumber => ⟨.ok (.Number e.Pos e.Text, rest), rest⟩
    | TokenIdent => parseOperator s
    | TokenString => parseString s
    | TokenDot =>
      ⟨.err (.errorString ("unknown token " ++ e.Token.String ++ " returned during scan")), s⟩

/-! ## The elements of a list and their commas -/

/-- A run of the loop of `parseList` from the tokens `s` to the tokens `r`,
told by the elements it appends: `parseFn` reads an element `v`; when a comma
`c` follows, the comma is read too and `v` is paired with `c.Pos`; when none
follows, `v` is paired with the zero position and the run is over. -/
inductive ListRun {E : Type} (parseFn : List tokenPos → Res (E × List tokenPos)) :
    List (ListElem E) → List tokenPos → List tokenPos → Prop
  | done (s : List tokenPos) : ListRun parseFn [] s s
  | last (v : E) (s r : List tokenPos) :
      parseFn s = .ok (v, r) → ¬ NextIs TokenComma r → ListRun parseFn [⟨v, NoPos⟩] s r
  | comma (v : E) (c : tokenPos) (l : List (ListElem E)) (s s1 r : List tokenPos) :
      parseFn s = .ok (v, c :: s1) → c.Token = TokenComma → ListRun parseFn l s1 r →
      ListRun parseFn (⟨v, c.Pos⟩ :: l) s r

/-! ## One iteration of a loop -/

/-- What one iteration of a loop does: it goes on with a new state, or the
function returns. -/
inductive Iter (σ ρ : Type) where
  | next (state : σ)
  | ret (result : ρ)

/-- The body of the `for` loop of `parseList`, on the slice `out` and the
unread tokens `s`.  The iteration that sets `done` returns, as the loop
condition then ends the loop. -/
def parseListIter {E : Type} (fin : GoError) (delim : Token)
    (parseFn : List tokenPos → Res (E × List tokenPos))
    (out : List (ListElem E)) (s : List tokenPos) :
    Iter (List (ListElem E) × List tokenPos) (Res (List (ListElem E) × List tokenPos)) :=
  match s with
  | [] => .ret (if fin = .EOF then .err .ErrUnexpectedEOF else .err fin)
  | e0 :: _ =>
    if e0.Token = delim then .ret (.ok (out, s))
    else
      match parseFn s with
      | .timeout => .ret .timeout
      | .err e => .ret (.err e)
      | .ok (v, s1) =>
        match s1 with
        | [] => .ret (if fin = .EOF then .err .ErrUnexpectedEOF else .err fin)
        | e1 :: rest1 =>
          if e1.Token = TokenComma then .next (out ++ [⟨v, e1.Pos⟩], rest1)
          else if e1.Token = delim then .ret (.ok (out ++ [⟨v, (0 : Pos)⟩], s1))
          else
            .ret (.err (.errorString
              ("expected token " ++ TokenComma.String ++ " (found " ++ e1.Token.String ++ ")")))

/-- The body of the `for` loop of `parser.parseOperator`, on the slice
`opArgs` and the unread tokens `s`. -/
def parseOperatorIter (fin : GoError)
    (pa : List tokenPos → Res (OperatorArgs × List tokenPos))
    (opArgs : List OperatorArgs) (s : List tokenPos) :
    Iter (List OperatorArgs × List tokenPos) (Res (List OperatorArgs × List tokenPos)) :=
  match s with
  | [] => .ret (if fin ≠ .EOF then .err fin else .ok (opArgs, s))
  | e :: _ =>
    if e.Token ≠ TokenLParen then .ret (.ok (opArgs, s))
    else
      match pa s with
      | .timeout => .ret .timeout
      | .err e => .ret (.err e)
      | .ok (args, s1) => .next (opArgs ++ [args], s1)

/-- The body of the `for` loop of `Parse`, on the slice `out` and the unread
tokens `s`. -/
def ParseIter (fin : GoError) (pv : List tokenPos → Res (Value × List tokenPos))
    (out : List Value) (s : List tokenPos) :
    Iter (List Value × List tokenPos) (Res (List Value)) :=
  match s with
  | [] => .ret (if fin = .EOF then .ok out else .err fin)
  | _ :: _ =>
    match pv s with
    | .timeout => .ret .timeout
    | .err e => .ret (if e = .EOF then .ok out else .err e)
    | .ok (val, s1) => .next (out ++ [val], s1)

/-! ## The contexts of an error -/

/-- The context texts of the `fmt.Errorf` calls that follow the `consumeToken`
call for an opening or a closing delimiter, in `parseArray`, `parseObject` and
`parseOperatorArgs`. -/
def delimiterContexts : List String :=
  [" at start of array", " at end of array", " at beginning of object", " at end of object",
    " at start of operator arguments", " at end of operator"]

/-- The context texts of the other `fmt.Errorf` calls that wrap an error: the
ones after `parseList` in the three productions, and the three of
`parseMember`. -/
def listContexts : List String :=
  [" in array", " in object", " at operator arguments", " at member key", " in object member",
    " at member Value"]

/-- The errors built without a delimiter context: the signal of the tokenizer,
`io.ErrUnexpectedEOF`, the messages of `consumeToken`, `parseList` and
`parseValue`, and any of these wrapped in contexts of `listContexts`. -/
inductive Reported (fin : GoError) : GoError → Prop
  | signal : Reported fin fin
  | unexpectedEOF : Reported fin .ErrUnexpectedEOF
  | expected (t found : Token) :
      Reported fin (.errorString ("expected token " ++ t.String ++ " (found " ++ found.String ++ ")"))
  | invalid : Reported fin (.errorString "invalid token returned during scan")
  | unexpected (t : Token) :
      Reported fin (.errorString ("unexpected token " ++ t.String ++ " at beginning of Value"))
  | unknown (t : Token) :
      Reported fin (.errorString ("unknown token " ++ t.String ++ " returned during scan"))
  | wrap (e : GoError) (ctx : String) :
      Reported fin e → ctx ∈ listContexts → Reported fin (.errorString (e.Error ++ ctx))

/-- No part of the text `w` reads `st`, `t e` or `f o`.  Each of the six texts
of `delimiterContexts` has such a part: `start`, `at end`, `of object`,
`of operator`. -/
def Clean (w : List Char) : Prop :=
  ¬ ['s', 't'] <:+: w ∧ ¬ ['t', ' ', 'e'] <:+: w ∧ ¬ ['f', ' ', 'o'] <:+: w

instance (w : List Char) : Decidable (Clean w) := by
  unfold Clean
  infer_instance

/-! # Theorems -/



/-! ## Successful runs build shapes -/

theorem consumeToken_ok {fin : GoError} {t : Token} {s r : List tokenPos} {p : Pos} :
    consumeToken fin t s = .ok (p, r) ↔ ∃ e, s = e :: r ∧ e.Token = t ∧ p = e.Pos := by
  cases s with
  | nil => simp [consumeToken]
  | cons e rest =>
    simp only [consumeToken]
    split
    · rename_i h
      constructor
      · intro h1; cases h1
      · rintro ⟨e1, h1, h2, -⟩
        cases h1
        exact absurd h2 h
    · rename_i h
      constructor
      · intro h1
        cases h1
        exact ⟨e, rfl, not_not.mp h, rfl⟩
      · rintro ⟨e1, h1, -, h3⟩
        cases h1
        rw [h3]

theorem parseList_sound {E : Type} (fin : GoError) (delim : Token)
    (pf : List tokenPos → Res (E × List tokenPos))
    (inj : E → Node) (injL : List (ListElem E) → Node)
    (hpf : ∀ s v r, pf s = .ok (v, r) → ∃ w, s = w ++ r ∧ Shape (inj v) w)
    (hnil : Shape (injL []) [])
    (hlast : ∀ v w, Shape (inj v) w → Shape (injL [⟨v, 0⟩]) w)
    (hcons : ∀ (c : tokenPos) v l w w1, c.Token = TokenComma → Shape (inj v) w →
      Shape (injL l) w1 → Shape (injL (⟨v, c.Pos⟩ :: l)) (w ++ c :: w1)) :
    ∀ (k : Nat) (out : List (ListElem E)) (s : List tokenPos) l r,
      parseList fin delim pf k out s = .ok (l, r) →
      ∃ l1 w, l = out ++ l1 ∧ s = w ++ r ∧ Shape (injL l1) w ∧ NextIs delim r := by
  intro k
  induction k with
  | zero => intro out s l r h; simp [parseList] at h
  | succ k ih =>
    intro out s l r h
    unfold parseList at h
    split at h
    · split at h <;> cases h
    · rename_i e0 rest0
      split at h
      · rename_i hd
        cases h
        exact ⟨[], [], by simp, by simp, hnil, hd⟩
      · split at h
        · cases h
        · cases h
        · rename_i v s1 hv
          obtain ⟨w, hw, hsh⟩ := hpf _ _ _ hv
          split at h
          · split at h <;> cases h
          · rename_i e1 rest1
            split at h
            · rename_i hc
              obtain ⟨l1, w1, hl, hs, hsh1, hn⟩ := ih _ _ _ _ h
              refine ⟨⟨v, e1.Pos⟩ :: l1, w ++ e1 :: w1, ?_, ?_, hcons e1 v l1 w w1 hc hsh hsh1, hn⟩
              · rw [hl]; simp
              · rw [hw, hs]; simp
            · split at h
              · rename_i hd
                cases h
                exact ⟨[⟨v, 0⟩], w, rfl, hw, hlast v w hsh, hd⟩
              · cases h

theorem parseArray_sound {fin : GoError} {k : Nat}
    {pv : List tokenPos → Res (Value × List tokenPos)} (hpv : SoundV pv)
    {s r : List tokenPos} {v : Value} (h : parseArray fin k pv s = .ok (v, r)) :
    ∃ w, s = w ++ r ∧ Shape (.value v) w ∧ isOperator v = false := by
  unfold parseArray at h
  split at h
  · cases h
  · cases h
  · rename_i lb s1 h1
    obtain ⟨e, rfl, he, rfl⟩ := consumeToken_ok.mp h1
    split at h
    · cases h
    · cases h
    · rename_i elems s2 h2
      obtain ⟨l1, w, hl, hs, hsh, -⟩ := parseList_sound fin TokenRBrack pv Node.value Node.values
        (fun s v r hh => by
          obtain ⟨w, h1, h2, -⟩ := hpv s v r hh
          exact ⟨w, h1, h2⟩)
        Shape.valuesNil Shape.valuesLast Shape.valuesCons _ _ _ _ _ h2
      simp only [List.nil_append] at hl
      subst hl
      split at h
      · cases h
      · cases h
      · rename_i rb s3 h3
        obtain ⟨e3, rfl, he3, rfl⟩ := consumeToken_ok.mp h3
        cases h
        refine ⟨e :: (w ++ [e3]), ?_, Shape.array e e3 _ w he he3 hsh, rfl⟩
        rw [hs]; simp

theorem parseOperatorArgs_sound {fin : GoError} {k : Nat}
    {pv : List tokenPos → Res (Value × List tokenPos)} (hpv : SoundV pv)
    {s r : List tokenPos} {a : OperatorArgs} (h : parseOperatorArgs fin k pv s = .ok (a, r)) :
    ∃ w, s = w ++ r ∧ Shape (.args a) w := by
  unfold parseOperatorArgs at h
  split at h
  · cases h
  · cases h
  · rename_i lb s1 h1
    obtain ⟨e, rfl, he, rfl⟩ := consumeToken_ok.mp h1
    split at h
    · cases h
    · cases h
    · rename_i elems s2 h2
      obtain ⟨l1, w, hl, hs, hsh, -⟩ := parseList_sound fin TokenRParen pv Node.value Node.values
        (fun s v r hh => by
          obtain ⟨w, h1, h2, -⟩ := hpv s v r hh
          exact ⟨w, h1, h2⟩)
        Shape.valuesNil Shape.valuesLast Shape.valuesCons _ _ _ _ _ h2
      simp only [List.nil_append] at hl
      subst hl
      split at h
      · cases h
      · cases h
      · rename_i rb s3 h3
        obtain ⟨e3, rfl, he3, rfl⟩ := consumeToken_ok.mp h3
        cases h
        refine ⟨e :: (w ++ [e3]), ?_, Shape.args e e3 _ w he he3 hsh⟩
        rw [hs]; simp

theorem parseMember_sound {fin : GoError}
    {pv : List tokenPos → Res (Value × List tokenPos)} (hpv : SoundV pv)
    {s r : List tokenPos} {m : Member} (h : parseMember fin pv s = .ok (m, r)) :
    ∃ w, s = w ++ r ∧ Shape (.member m) w := by
  unfold parseMember at h
  split at h
  · cases h
  · cases h
  · rename_i key s1 h1
    obtain ⟨wk, hk, hshk, -⟩ := hpv _ _ _ h1
    split at h
    · cases h
    · cases h
    · rename_i colon s2 h2
      obtain ⟨c, rfl, hc, rfl⟩ := consumeToken_ok.mp h2
      split at h
      · cases h
      · cases h
      · rename_i value s3 h3
        obtain ⟨wv, hv, hshv, -⟩ := hpv _ _ _ h3
        cases h
        refine ⟨wk ++ c :: wv, ?_, Shape.member c _ _ wk wv hc hshk hshv⟩
        rw [hk, hv]; simp

theorem parseObject_sound {fin : GoError} {k : Nat}
    {pv : List tokenPos → Res (Value × List tokenPos)} (hpv : SoundV pv)
    {s r : List tokenPos} {v : Value} (h : parseObject fin k pv s = .ok (v, r)) :
    ∃ w, s = w ++ r ∧ Shape (.value v) w ∧ isOperator v = false := by
  unfold parseObject at h
  split at h
  · cases h
  · cases h
  · rename_i lb s1 h1
    obtain ⟨e, rfl, he, rfl⟩ := consumeToken_ok.mp h1
    split at h
    · cases h
    · cases h
    · rename_i elems s2 h2
      obtain ⟨l1, w, hl, hs, hsh, -⟩ := parseList_sound fin TokenRBrace (parseMember fin pv)
        Node.member Node.members
        (fun s v r hh => parseMember_sound hpv hh)
        Shape.membersNil Shape.membersLast Shape.membersCons _ _ _ _ _ h2
      simp only [List.nil_append] at hl
      subst hl
      split at h
      · cases h
      · cases h
      · rename_i rb s3 h3
        obtain ⟨e3, rfl, he3, rfl⟩ := consumeToken_ok.mp h3
        cases h
        refine ⟨e :: (w ++ [e3]), ?_, Shape.object e e3 _ w he he3 hsh, rfl⟩
        rw [hs]; simp

theorem parseOperatorLoop_sound {fin : GoError}
    {pa : List tokenPos → Res (OperatorArgs × List tokenPos)}
    (hpa : ∀ s a r, pa s = .ok (a, r) → ∃ w, s = w ++ r ∧ Shape (.args a) w) :
    ∀ (k : Nat) (opArgs : List OperatorArgs) (s : List tokenPos) gs r,
      parseOperatorLoop fin pa k opArgs s = .ok (gs, r) →
      ∃ gs1 w, gs = opArgs ++ gs1 ∧ s = w ++ r ∧ Shape (.groups gs1) w ∧
        ¬ NextIs TokenLParen r := by
  intro k
  induction k with
  | zero => intro opArgs s gs r h; simp [parseOperatorLoop] at h
  | succ k ih =>
    intro opArgs s gs r h
    unfold parseOperatorLoop at h
    split at h
    · split at h
      · cases h
      · cases h
        exact ⟨[], [], by simp, by simp, Shape.groupsNil, by simp [NextIs]⟩
    · rename_i e rest
      split at h
      · rename_i hne
        cases h
        exact ⟨[], [], by simp, by simp, Shape.groupsNil, by simpa [NextIs] using hne⟩
      · split at h
        · cases h
        · cases h
        · rename_i a s1 ha
          obtain ⟨w, hw, hsh⟩ := hpa _ _ _ ha
          obtain ⟨gs1, w1, hg, hs, hsh1, hn⟩ := ih _ _ _ _ h
          refine ⟨a :: gs1, w ++ w1, ?_, ?_, Shape.groupsCons a gs1 w w1 hsh hsh1, hn⟩
          · rw [hg]; simp
          · rw [hw, hs]; simp

theorem parseOperator_sound {fin : GoError} {k : Nat}
    {pv : List tokenPos → Res (Value × List tokenPos)} (hpv : SoundV pv)
    {s r : List tokenPos} {v : Value} (h : parseOperator fin k pv s = .ok (v, r)) :
    ∃ w, s = w ++ r ∧ Shape (.value v) w ∧ ¬ NextIs TokenLParen r := by
  unfold parseOperator at h
  split at h
  · cases h
  · cases h
  · rename_i id s1 h1
    have hid : ∃ e, s = e :: s1 ∧ e.Token = TokenIdent ∧ id = ⟨e.Pos, e.Text⟩ := by
      cases s with
      | nil => simp [parseIdent] at h1
      | cons e rest =>
        simp only [parseIdent] at h1
        split at h1
        · cases h1
        · rename_i hh
          cases h1
          exact ⟨e, rfl, not_not.mp hh, rfl⟩
    obtain ⟨e, rfl, he, rfl⟩ := hid
    split at h
    · cases h
    · cases h
    · rename_i gs s2 h2
      obtain ⟨gs1, w, hg, hs, hsh, hn⟩ := parseOperatorLoop_sound
        (fun s a r hh => parseOperatorArgs_sound hpv hh) _ _ _ _ _ h2
      simp only [List.nil_append] at hg
      subst hg
      cases h
      exact ⟨e :: w, by rw [hs]; simp, Shape.operator e _ w he hsh, hn⟩

theorem parseValue_sound (fin : GoError) : ∀ n, SoundV (parseValue fin n) := by
  intro n
  induction n with
  | zero => intro s v r h; simp [parseValue] at h
  | succ n ih =>
    intro s v r h
    unfold parseValue at h
    split at h
    · split at h <;> cases h
    · rename_i e rest
      split at h
      · cases h
      · cases h
      · cases h
      · cases h
      · cases h
      · cases h
      · cases h
      · obtain ⟨w, h1, h2, h3⟩ := parseObject_sound ih h
        exact ⟨w, h1, h2, by simp [h3]⟩
      · obtain ⟨w, h1, h2, h3⟩ := parseArray_sound ih h
        exact ⟨w, h1, h2, by simp [h3]⟩
      · rename_i ht
        cases h
        exact ⟨[e], rfl, Shape.null e ht, by simp [isOperator]⟩
      · rename_i ht
        cases h
        exact ⟨[e], rfl, Shape.boolFalse e ht, by simp [isOperator]⟩
      · rename_i ht
        cases h
        exact ⟨[e], rfl, Shape.boolTrue e ht, by simp [isOperator]⟩
      · rename_i ht
        cases h
        exact ⟨[e], rfl, Shape.number e ht, by simp [isOperator]⟩
      · obtain ⟨w, h1, h2, h3⟩ := parseOperator_sound ih h
        exact ⟨w, h1, h2, fun _ => h3⟩
      · rename_i ht
        simp only [parseString] at h
        split at h
        · cases h
        · cases h
          exact ⟨[e], rfl, Shape.string e ht, by simp [isOperator]⟩
      · cases h

/-! ## First tokens, progress and termination -/

theorem Shape.value_head {v : Value} {w : List tokenPos} (h : Shape (.value v) w) :
    ∃ e w1, w = e :: w1 ∧ startsValue e.Token = true := by
  cases h with
  | null e he => exact ⟨e, [], rfl, by rw [he]; rfl⟩
  | boolFalse e he => exact ⟨e, [], rfl, by rw [he]; rfl⟩
  | boolTrue e he => exact ⟨e, [], rfl, by rw [he]; rfl⟩
  | number e he => exact ⟨e, [], rfl, by rw [he]; rfl⟩
  | string e he => exact ⟨e, [], rfl, by rw [he]; rfl⟩
  | array lb rb l w hl hr hs => exact ⟨lb, _, rfl, by rw [hl]; rfl⟩
  | object lb rb l w hl hr hs => exact ⟨lb, _, rfl, by rw [hl]; rfl⟩
  | operator id gs w hi hs => exact ⟨id, _, rfl, by rw [hi]; rfl⟩

theorem Shape.member_head {m : Member} {w : List tokenPos} (h : Shape (.member m) w) :
    ∃ e w1, w = e :: w1 ∧ startsValue e.Token = true := by
  cases h with
  | member c k v wk wv hc hk hv =>
    obtain ⟨e, w1, rfl, he⟩ := hk.value_head
    exact ⟨e, _, rfl, he⟩

theorem Shape.top_next {vs : List Value} {w : List tokenPos} (h : Shape (.top vs) w) :
    ¬ NextIs TokenLParen w := by
  cases h with
  | topNil => simp [NextIs]
  | topCons v vs w w1 hv ht =>
    obtain ⟨e, w2, rfl, he⟩ := hv.value_head
    intro hn
    simp only [List.cons_append, NextIs] at hn
    rw [hn] at he
    cases he

theorem SoundV.progress {pv : List tokenPos → Res (Value × List tokenPos)} (hpv : SoundV pv)
    {s r : List tokenPos} {v : Value} (h : pv s = .ok (v, r)) : r.length < s.length := by
  obtain ⟨w, rfl, hs, -⟩ := hpv s v r h
  obtain ⟨e, w1, rfl, -⟩ := hs.value_head
  simp
  omega

theorem parseArray_ne_EOF (fin : GoError) (k : Nat)
    (pv : List tokenPos → Res (Value × List tokenPos)) (s : List tokenPos) :
    parseArray fin k pv s ≠ .err .EOF := by
  unfold parseArray
  repeat (first | split | simp)

theorem parseObject_ne_EOF (fin : GoError) (k : Nat)
    (pv : List tokenPos → Res (Value × List tokenPos)) (s : List tokenPos) :
    parseObject fin k pv s ≠ .err .EOF := by
  unfold parseObject
  repeat (first | split | simp)

theorem parseOperatorArgs_ne_EOF (fin : GoError) (k : Nat)
    (pv : List tokenPos → Res (Value × List tokenPos)) (s : List tokenPos) :
    parseOperatorArgs fin k pv s ≠ .err .EOF := by
  unfold parseOperatorArgs
  repeat (first | split | simp)

theorem parseOperatorLoop_ne_EOF (fin : GoError)
    (pa : List tokenPos → Res (OperatorArgs × List tokenPos))
    (hpa : ∀ s, pa s ≠ .err .EOF) :
    ∀ (k : Nat) (opArgs : List OperatorArgs) (s : List tokenPos),
      parseOperatorLoop fin pa k opArgs s ≠ .err .EOF := by
  intro k
  induction k with
  | zero => intro opArgs s; simp [parseOperatorLoop]
  | succ k ih =>
    intro opArgs s
    unfold parseOperatorLoop
    split
    · split
      · rename_i hf; intro h2; cases h2; exact hf rfl
      · simp
    · split
      · simp
      · split
        · simp
        · rename_i e2 h2
          intro h3
          cases h3
          exact hpa _ h2
        · exact ih _ _

theorem parseOperator_ne_EOF (fin : GoError) (k : Nat)
    (pv : List tokenPos → Res (Value × List tokenPos)) (s : List tokenPos) :
    parseOperator fin k pv s ≠ .err .EOF := by
  unfold parseOperator
  split
  · simp
  · simp
  · split
    · simp
    · rename_i e h
      intro h1
      cases h1
      exact parseOperatorLoop_ne_EOF fin _ (parseOperatorArgs_ne_EOF fin k pv) _ _ _ h
    · simp

/-- The function `parseValue` never reports the sentinel `io.EOF`: the test
`err == io.EOF` that follows its call in `Parse` never holds. -/
theorem parseValue_ne_EOF (fin : GoError) (n : Nat) (s : List tokenPos) :
    parseValue fin n s ≠ .err .EOF := by
  cases n with
  | zero => simp [parseValue]
  | succ n =>
    unfold parseValue
    split
    · split
      · simp
      · rename_i h; intro h1; cases h1; exact h rfl
    · split <;> try simp
      · exact parseObject_ne_EOF _ _ _ _
      · exact parseArray_ne_EOF _ _ _ _
      · exact parseOperator_ne_EOF _ _ _ _
      · simp only [parseString]
        split <;> simp

theorem consumeToken_ne_timeout (fin : GoError) (t : Token) (s : List tokenPos) :
    consumeToken fin t s ≠ .timeout := by
  unfold consumeToken
  repeat (first | split | simp)

theorem parseList_total {E : Type} (fin : GoError) (delim : Token)
    (pf : List tokenPos → Res (E × List tokenPos)) (L : Nat)
    (hprog : ∀ s v r, pf s = .ok (v, r) → r.length < s.length)
    (htot : ∀ s, s.length < L → pf s ≠ .timeout) :
    ∀ (k : Nat) (out : List (ListElem E)) (s : List tokenPos),
      s.length < k → s.length < L → parseList fin delim pf k out s ≠ .timeout := by
  intro k
  induction k with
  | zero => intro out s h; omega
  | succ k ih =>
    intro out s hk hL
    unfold parseList
    split
    · split <;> simp
    · split
      · simp
      · split
        · rename_i h; exact absurd h (htot _ hL)
        · simp
        · rename_i v s1 hv
          have hp := hprog _ _ _ hv
          split
          · split <;> simp
          · rename_i e1 rest1
            simp only [List.length_cons] at hp hk hL
            split
            · exact ih _ _ (by omega) (by omega)
            · split <;> simp

theorem parseArray_total {fin : GoError} {k L : Nat}
    {pv : List tokenPos → Res (Value × List tokenPos)} (hpv : SoundV pv)
    (htot : ∀ s, s.length < L → pv s ≠ .timeout) {s : List tokenPos}
    (hk : s.length ≤ k) (hL : s.length ≤ L) : parseArray fin k pv s ≠ .timeout := by
  unfold parseArray
  split
  · rename_i h; exact absurd h (consumeToken_ne_timeout _ _ _)
  · simp
  · rename_i lb s1 h1
    obtain ⟨e, rfl, -, -⟩ := consumeToken_ok.mp h1
    simp only [List.length_cons] at hk hL
    split
    · rename_i h
      exact absurd h (parseList_total fin _ pv L (fun _ _ _ hh => hpv.progress hh) htot
        _ _ _ (by omega) (by omega))
    · simp
    · split
      · rename_i h; exact absurd h (consumeToken_ne_timeout _ _ _)
      · simp
      · simp

theorem parseOperatorArgs_total {fin : GoError} {k L : Nat}
    {pv : List tokenPos → Res (Value × List tokenPos)} (hpv : SoundV pv)
    (htot : ∀ s, s.length < L → pv s ≠ .timeout) {s : List tokenPos}
    (hk : s.length ≤ k) (hL : s.length ≤ L) : parseOperatorArgs fin k pv s ≠ .timeout := by
  unfold parseOperatorArgs
  split
  · rename_i h; exact absurd h (consumeToken_ne_timeout _ _ _)
  · simp
  · rename_i lb s1 h1
    obtain ⟨e, rfl, -, -⟩ := consumeToken_ok.mp h1
    simp only [List.length_cons] at hk hL
    split
    · rename_i h
      exact absurd h (parseList_total fin _ pv L (fun _ _ _ hh => hpv.progress hh) htot
        _ _ _ (by omega) (by omega))
    · simp
    · split
      · rename_i h; exact absurd h (consumeToken_ne_timeout _ _ _)
      · simp
      · simp

theorem parseMember_progress {fin : GoError}
    {pv : List tokenPos → Res (Value × List tokenPos)} (hpv : SoundV pv)
    {s r : List tokenPos} {m : Member} (h : parseMember fin pv s = .ok (m, r)) :
    r.length < s.length := by
  obtain ⟨w, rfl, hs⟩ := parseMember_sound hpv h
  obtain ⟨e, w1, rfl, -⟩ := hs.member_head
  simp
  omega

theorem parseMember_total {fin : GoError} {L : Nat}
    {pv : List tokenPos → Res (Value × List tokenPos)} (hpv : SoundV pv)
    (htot : ∀ s, s.length < L → pv s ≠ .timeout) {s : List tokenPos}
    (hL : s.length < L) : parseMember fin pv s ≠ .timeout := by
  unfold parseMember
  split
  · rename_i h; exact absurd h (htot _ hL)
  · simp
  · rename_i key s1 h1
    have hp := hpv.progress h1
    split
    · rename_i h; exact absurd h (consumeToken_ne_timeout _ _ _)
    · simp
    · rename_i colon s2 h2
      obtain ⟨c, rfl, -, -⟩ := consumeToken_ok.mp h2
      simp only [List.length_cons] at hp
      split
      · rename_i h; exact absurd h (htot _ (by omega))
      · simp
      · simp

theorem parseObject_total {fin : GoError} {k L : Nat}
    {pv : List tokenPos → Res (Value × List tokenPos)} (hpv : SoundV pv)
    (htot : ∀ s, s.length < L → pv s ≠ .timeout) {s : List tokenPos}
    (hk : s.length ≤ k) (hL : s.length ≤ L) : parseObject fin k pv s ≠ .timeout := by
  unfold parseObject
  split
  · rename_i h; exact absurd h (consumeToken_ne_timeout _ _ _)
  · simp
  · rename_i lb s1 h1
    obtain ⟨e, rfl, -, -⟩ := consumeToken_ok.mp h1
    simp only [List.length_cons] at hk hL
    split
    · rename_i h
      exact absurd h (parseList_total fin _ (parseMember fin pv) L
        (fun _ _ _ hh => parseMember_progress hpv hh)
        (fun _ hh => parseMember_total hpv htot hh)
        _ _ _ (by omega) (by omega))
    · simp
    · split
      · rename_i h; exact absurd h (consumeToken_ne_timeout _ _ _)
      · simp
      · simp

theorem parseOperatorLoop_total (fin : GoError)
    (pa : List tokenPos → Res (OperatorArgs × List tokenPos)) (L : Nat)
    (hprog : ∀ s a r, pa s = .ok (a, r) → r.length < s.length)
    (htot : ∀ s, s.length < L → pa s ≠ .timeout) :
    ∀ (k : Nat) (opArgs : List OperatorArgs) (s : List tokenPos),
      s.length < k → s.length < L → parseOperatorLoop fin pa k opArgs s ≠ .timeout := by
  intro k
  induction k with
  | zero => intro opArgs s h; omega
  | succ k ih =>
    intro opArgs s hk hL
    unfold parseOperatorLoop
    split
    · split <;> simp
    · split
      · simp
      · split
        · rename_i h; exact absurd h (htot _ hL)
        · simp
        · rename_i a s1 ha
          have hp := hprog _ _ _ ha
          exact ih _ _ (by omega) (by omega)

theorem parseOperatorArgs_progress {fin : GoError} {k : Nat}
    {pv : List tokenPos → Res (Value × List tokenPos)} (hpv : SoundV pv)
    {s r : List tokenPos} {a : OperatorArgs} (h : parseOperatorArgs fin k pv s = .ok (a, r)) :
    r.length < s.length := by
  obtain ⟨w, rfl, hs⟩ := parseOperatorArgs_sound hpv h
  cases hs
  simp
  omega

theorem parseOperator_total {fin : GoError} {k L : Nat}
    {pv : List tokenPos → Res (Value × List tokenPos)} (hpv : SoundV pv)
    (htot : ∀ s, s.length < L → pv s ≠ .timeout) {s : List tokenPos}
    (hk : s.length ≤ k) (hL : s.length ≤ L) : parseOperator fin k pv s ≠ .timeout := by
  unfold parseOperator
  split
  · rename_i h
    revert h
    unfold parseIdent
    repeat (first | split | simp)
  · simp
  · rename_i id s1 h1
    have hlen : s1.length < s.length := by
      revert h1
      unfold parseIdent
      split
      · simp
      · split
        · simp
        · intro hh; cases hh; simp
    split
    · rename_i h
      exact absurd h (parseOperatorLoop_total fin _ (min k L + 1)
        (fun _ _ _ hh => parseOperatorArgs_progress hpv hh)
        (fun _ hh => parseOperatorArgs_total hpv htot (by omega) (by omega))
        _ _ _ (by omega) (by omega))
    · simp
    · simp

/-- With a bound above the number of unread tokens, `parseValue` returns: it
gives a value or an error, and the bound is never hit. -/
theorem parseValue_total (fin : GoError) :
    ∀ (n : Nat) (s : List tokenPos), s.length < n → parseValue fin n s ≠ .timeout := by
  intro n
  induction n with
  | zero => intro s h; omega
  | succ n ih =>
    intro s hs
    have hsound := parseValue_sound fin n
    unfold parseValue
    split
    · split <;> simp
    · rename_i e rest
      split <;> try simp
      · exact parseObject_total hsound ih (by omega) (by omega)
      · exact parseArray_total hsound ih (by omega) (by omega)
      · exact parseOperator_total hsound ih (by omega) (by omega)
      · simp only [parseString]
        split <;> simp

theorem ParseLoop_total (fin : GoError)
    (pv : List tokenPos → Res (Value × List tokenPos)) (L : Nat)
    (hpv : SoundV pv) (htot : ∀ s, s.length < L → pv s ≠ .timeout) :
    ∀ (k : Nat) (out : List Value) (s : List tokenPos),
      s.length < k → s.length < L → ParseLoop fin pv k out s ≠ .timeout := by
  intro k
  induction k with
  | zero => intro out s h; omega
  | succ k ih =>
    intro out s hk hL
    unfold ParseLoop
    split
    · split <;> simp
    · split
      · rename_i h; exact absurd h (htot _ hL)
      · split <;> simp
      · rename_i v s1 hv
        have hp := hpv.progress hv
        exact ih _ _ (by omega) (by omega)

/-- The function `Parse` returns on every token stream. -/
theorem Parse_total (fin : GoError) (ts : List tokenPos) : Parse fin ts ≠ .timeout :=
  ParseLoop_total fin _ (ts.length + 1) (parseValue_sound fin _)
    (fun s hs => parseValue_total fin _ s hs) _ _ _ (by omega) (by omega)

/-! ## Dispatch and single steps -/

theorem parseValue_nil (fin : GoError) (n : Nat) :
    parseValue fin (n + 1) [] = if fin = .EOF then .err .ErrUnexpectedEOF else .err fin := by
  simp [parseValue]

theorem parseValue_null {fin : GoError} {n : Nat} {e : tokenPos} {rest : List tokenPos}
    (h : e.Token = TokenNull) : parseValue fin (n + 1) (e :: rest) = .ok (.Null e.Pos, rest) := by
  simp [parseValue, h]

theorem parseValue_false {fin : GoError} {n : Nat} {e : tokenPos} {rest : List tokenPos}
    (h : e.Token = TokenFalse) :
    parseValue fin (n + 1) (e :: rest) = .ok (.Bool e.Pos false, rest) := by
  simp [parseValue, h]

theorem parseValue_true {fin : GoError} {n : Nat} {e : tokenPos} {rest : List tokenPos}
    (h : e.Token = TokenTrue) :
    parseValue fin (n + 1) (e :: rest) = .ok (.Bool e.Pos true, rest) := by
  simp [parseValue, h]

theorem parseValue_number {fin : GoError} {n : Nat} {e : tokenPos} {rest : List tokenPos}
    (h : e.Token = TokenNumber) :
    parseValue fin (n + 1) (e :: rest) = .ok (.Number e.Pos e.Text, rest) := by
  simp [parseValue, h]

theorem parseValue_string {fin : GoError} {n : Nat} {e : tokenPos} {rest : List tokenPos}
    (h : e.Token = TokenString) :
    parseValue fin (n + 1) (e :: rest) = .ok (.String e.Pos e.Text, rest) := by
  simp [parseValue, parseString, h]

theorem parseValue_array {fin : GoError} {n : Nat} {e : tokenPos} {rest : List tokenPos}
    (h : e.Token = TokenLBrack) :
    parseValue fin (n + 1) (e :: rest) = parseArray fin n (parseValue fin n) (e :: rest) := by
  simp [parseValue, h]

theorem parseValue_object {fin : GoError} {n : Nat} {e : tokenPos} {rest : List tokenPos}
    (h : e.Token = TokenLBrace) :
    parseValue fin (n + 1) (e :: rest) = parseObject fin n (parseValue fin n) (e :: rest) := by
  simp [parseValue, h]

theorem parseValue_ident {fin : GoError} {n : Nat} {e : tokenPos} {rest : List tokenPos}
    (h : e.Token = TokenIdent) :
    parseValue fin (n + 1) (e :: rest) = parseOperator fin n (parseValue fin n) (e :: rest) := by
  simp [parseValue, h]

theorem parseList_delim {E : Type} (fin : GoError) (delim : Token)
    (pf : List tokenPos → Res (E × List tokenPos)) (k : Nat) (out : List (ListElem E))
    (d : tokenPos) (r : List tokenPos) (hd : d.Token = delim) :
    parseList fin delim pf (k + 1) out (d :: r) = .ok (out, d :: r) := by
  simp [parseList, hd]

theorem parseList_last {E : Type} (fin : GoError) (delim : Token)
    (pf : List tokenPos → Res (E × List tokenPos)) (k : Nat) (out : List (ListElem E))
    (e d : tokenPos) (s r : List tokenPos) (v : E)
    (he : e.Token ≠ delim) (hpf : pf (e :: s) = .ok (v, d :: r))
    (hd : d.Token = delim) (hc : delim ≠ TokenComma) :
    parseList fin delim pf (k + 1) out (e :: s) = .ok (out ++ [⟨v, 0⟩], d :: r) := by
  simp [parseList, he, hpf, hd, hc]

theorem parseList_comma {E : Type} (fin : GoError) (delim : Token)
    (pf : List tokenPos → Res (E × List tokenPos)) (k : Nat) (out : List (ListElem E))
    (e c : tokenPos) (s r : List tokenPos) (v : E)
    (he : e.Token ≠ delim) (hpf : pf (e :: s) = .ok (v, c :: r))
    (hc : c.Token = TokenComma) :
    parseList fin delim pf (k + 1) out (e :: s) =
      parseList fin delim pf k (out ++ [⟨v, c.Pos⟩]) r := by
  simp [parseList, he, hpf, hc]

theorem OpGuard.cons {fin : GoError} {d : tokenPos} {r : List tokenPos}
    (h : d.Token ≠ TokenLParen) : OpGuard fin (d :: r) :=
  ⟨by simpa [NextIs] using h, by simp⟩

/-! ## Shapes are parsed -/

theorem closer_ne_of_startsValue {t delim : Token} (ht : startsValue t = true)
    (hd : closer delim = true) : t ≠ delim := by
  intro h; subst h; cases t <;> simp_all [startsValue, closer]

theorem Shape.complete (fin : GoError) {node : Node} {w : List tokenPos} (h : Shape node w) :
    Complete fin node w := by
  induction h with
  | null e he =>
    intro n r hn _
    obtain ⟨m, rfl⟩ : ∃ m, n = m + 1 := ⟨n - 1, by omega⟩
    exact parseValue_null he
  | boolFalse e he =>
    intro n r hn _
    obtain ⟨m, rfl⟩ : ∃ m, n = m + 1 := ⟨n - 1, by omega⟩
    exact parseValue_false he
  | boolTrue e he =>
    intro n r hn _
    obtain ⟨m, rfl⟩ : ∃ m, n = m + 1 := ⟨n - 1, by omega⟩
    exact parseValue_true he
  | number e he =>
    intro n r hn _
    obtain ⟨m, rfl⟩ : ∃ m, n = m + 1 := ⟨n - 1, by omega⟩
    exact parseValue_number he
  | string e he =>
    intro n r hn _
    obtain ⟨m, rfl⟩ : ∃ m, n = m + 1 := ⟨n - 1, by omega⟩
    exact parseValue_string he
  | array lb rb l w hl hr hs ih =>
    intro n r hn _
    obtain ⟨m, rfl⟩ : ∃ m, n = m + 1 := ⟨n - 1, by omega⟩
    simp only [List.length_cons, List.length_append, List.length_nil] at hn
    have h1 := ih m m [] TokenRBrack rb r (by omega) (by omega) hr rfl
    simp only [List.cons_append, List.append_assoc, List.nil_append] at h1 ⊢
    rw [parseValue_array hl]
    simp [parseArray, consumeToken, hl, hr, h1]
  | object lb rb l w hl hr hs ih =>
    intro n r hn _
    obtain ⟨m, rfl⟩ : ∃ m, n = m + 1 := ⟨n - 1, by omega⟩
    simp only [List.length_cons, List.length_append, List.length_nil] at hn
    have h1 := ih m m [] TokenRBrace rb r (by omega) (by omega) hr rfl
    simp only [List.cons_append, List.append_assoc, List.nil_append] at h1 ⊢
    rw [parseValue_object hl]
    simp [parseObject, consumeToken, hl, hr, h1]
  | operator id gs w hi hs ih =>
    intro n r hn hg
    obtain ⟨m, rfl⟩ : ∃ m, n = m + 1 := ⟨n - 1, by omega⟩
    simp only [List.length_cons] at hn
    have h1 := ih m m m [] r (by omega) (by omega) (by omega) (hg rfl)
    simp only [List.cons_append, List.nil_append] at h1 ⊢
    rw [parseValue_ident hi]
    simp [parseOperator, parseIdent, hi, h1]
  | member c k v wk wv hc hk hv ihk ihv =>
    intro n r hn hg
    simp only [List.length_cons, List.length_append] at hn
    have h1 := ihk n (c :: (wv ++ r)) (by omega)
      (fun _ => OpGuard.cons (by rw [hc]; decide))
    have h2 := ihv n r (by omega) (fun _ => hg)
    simp only [List.append_assoc, List.cons_append]
    simp [parseMember, h1, consumeToken, hc, h2]
  | args lp rp l w hl hr hs ih =>
    intro n k r hn hk
    simp only [List.length_cons, List.length_append, List.length_nil] at hn hk
    have h1 := ih n k [] TokenRParen rp r (by omega) (by omega) hr rfl
    simp only [List.cons_append, List.append_assoc, List.nil_append] at h1 ⊢
    simp [parseOperatorArgs, consumeToken, hl, hr, h1]
  | groupsNil =>
    intro n k j out r _ _ hj hg
    obtain ⟨i, rfl⟩ : ∃ i, j = i + 1 := ⟨j - 1, by simp at hj; omega⟩
    cases r with
    | nil => simp [parseOperatorLoop, hg.2 rfl]
    | cons e r =>
      have := hg.1
      simp only [NextIs] at this
      simp [parseOperatorLoop, this]
  | groupsCons a gs w w1 ha hgs iha ihgs =>
    intro n k j out r hn hk hj hg
    obtain ⟨i, rfl⟩ : ∃ i, j = i + 1 := ⟨j - 1, by omega⟩
    simp only [List.length_append] at hn hk hj
    have h1 := iha n k (w1 ++ r) (by omega) (by omega)
    have h2 := ihgs n k i (out ++ [a]) r (by omega) (by omega)
    cases ha with
    | args lp rp l w2 hl hr hs =>
      simp only [List.length_cons, List.length_append, List.length_nil] at hj
      have h2 := h2 (by omega) hg
      simp only [List.cons_append, List.append_assoc, List.nil_append] at h1 h2 ⊢
      rw [parseOperatorLoop]
      simp [hl, h1, h2]
  | valuesNil =>
    intro n k out delim d r _ hk hd _
    obtain ⟨i, rfl⟩ : ∃ i, k = i + 1 := ⟨k - 1, by simp at hk; omega⟩
    simpa using parseList_delim fin delim _ i out d r hd
  | valuesLast v w hv ih =>
    intro n k out delim d r hn hk hd hcl
    obtain ⟨i, rfl⟩ : ∃ i, k = i + 1 := ⟨k - 1, by omega⟩
    obtain ⟨e, w1, rfl, he⟩ := hv.value_head
    have h1 := ih n (d :: r) hn
      (fun _ => OpGuard.cons (by rw [hd]; intro h; rw [h] at hcl; cases hcl))
    exact parseList_last fin delim _ i out e d _ r v (closer_ne_of_startsValue he hcl) h1 hd
      (by intro h; rw [h] at hcl; cases hcl)
  | valuesCons c v l w w1 hc hv hl ihv ihl =>
    intro n k out delim d r hn hk hd hcl
    obtain ⟨i, rfl⟩ : ∃ i, k = i + 1 := ⟨k - 1, by omega⟩
    obtain ⟨e, w2, rfl, he⟩ := hv.value_head
    simp only [List.length_cons, List.length_append] at hn hk
    have h1 := ihv n (c :: (w1 ++ d :: r)) (by simp; omega)
      (fun _ => OpGuard.cons (by rw [hc]; decide))
    have h2 := ihl n i (out ++ [⟨v, c.Pos⟩]) delim d r (by omega) (by omega) hd hcl
    simp only [List.cons_append, List.append_assoc] at h1 h2 ⊢
    rw [parseList_comma fin delim _ i out e c _ _ v (closer_ne_of_startsValue he hcl) h1 hc]
    simpa using h2
  | membersNil =>
    intro n k out delim d r _ hk hd _
    obtain ⟨i, rfl⟩ : ∃ i, k = i + 1 := ⟨k - 1, by simp at hk; omega⟩
    simpa using parseList_delim fin delim _ i out d r hd
  | membersLast v w hv ih =>
    intro n k out delim d r hn hk hd hcl
    obtain ⟨i, rfl⟩ : ∃ i, k = i + 1 := ⟨k - 1, by omega⟩
    obtain ⟨e, w1, rfl, he⟩ := hv.member_head
    have h1 := ih n (d :: r) hn
      (OpGuard.cons (by rw [hd]; intro h; rw [h] at hcl; cases hcl))
    exact parseList_last fin delim _ i out e d _ r v (closer_ne_of_startsValue he hcl) h1 hd
      (by intro h; rw [h] at hcl; cases hcl)
  | membersCons c v l w w1 hc hv hl ihv ihl =>
    intro n k out delim d r hn hk hd hcl
    obtain ⟨i, rfl⟩ : ∃ i, k = i + 1 := ⟨k - 1, by omega⟩
    obtain ⟨e, w2, rfl, he⟩ := hv.member_head
    simp only [List.length_cons, List.length_append] at hn hk
    have h1 := ihv n (c :: (w1 ++ d :: r)) (by simp; omega)
      (OpGuard.cons (by rw [hc]; decide))
    have h2 := ihl n i (out ++ [⟨v, c.Pos⟩]) delim d r (by omega) (by omega) hd hcl
    simp only [List.cons_append, List.append_assoc] at h1 h2 ⊢
    rw [parseList_comma fin delim _ i out e c _ _ v (closer_ne_of_startsValue he hcl) h1 hc]
    simpa using h2
  | topNil =>
    intro n k out hf _ hk
    obtain ⟨i, rfl⟩ : ∃ i, k = i + 1 := ⟨k - 1, by simp at hk; omega⟩
    simp [ParseLoop, hf]
  | topCons v vs w w1 hv ht ihv iht =>
    intro n k out hf hn hk
    obtain ⟨i, rfl⟩ : ∃ i, k = i + 1 := ⟨k - 1, by omega⟩
    obtain ⟨e, w2, rfl, he⟩ := hv.value_head
    simp only [List.length_cons, List.length_append] at hn hk
    have h1 := ihv n w1 (by simp; omega) (fun _ => ⟨ht.top_next, fun _ => hf⟩)
    have h2 := iht n i (out ++ [v]) hf (by omega) (by omega)
    simp only [List.cons_append] at h1 ⊢
    rw [ParseLoop]
    simp [h1, h2]

/-! ## The top-level loop -/

theorem ParseLoop_sound {fin : GoError} {pv : List tokenPos → Res (Value × List tokenPos)}
    (hpv : SoundV pv) (hne : ∀ s, pv s ≠ .err .EOF) :
    ∀ (k : Nat) (out : List Value) (s : List tokenPos) (vs : List Value),
      ParseLoop fin pv k out s = .ok vs →
      ∃ vs1, vs = out ++ vs1 ∧ Shape (.top vs1) s ∧ fin = .EOF := by
  intro k
  induction k with
  | zero => intro out s vs h; simp [ParseLoop] at h
  | succ k ih =>
    intro out s vs h
    unfold ParseLoop at h
    split at h
    · split at h
      · rename_i hf
        cases h
        exact ⟨[], by simp, Shape.topNil, hf⟩
      · cases h
    · split at h
      · cases h
      · rename_i e he
        split at h
        · rename_i hh
          subst hh
          exact absurd he (hne _)
        · cases h
      · rename_i v s1 hv
        obtain ⟨w, hw, hsh, -⟩ := hpv _ _ _ hv
        obtain ⟨vs1, rfl, hsh1, hf⟩ := ih _ _ _ h
        refine ⟨v :: vs1, by simp, ?_, hf⟩
        rw [hw]
        exact Shape.topCons v vs1 w s1 hsh hsh1

/-- The function `Parse` succeeds with the nodes `vs` exactly when the stream
ended cleanly and is the concatenation of the token sequences of `vs`. -/
theorem Parse_ok_iff (fin : GoError) (ts : List tokenPos) (vs : List Value) :
    Parse fin ts = .ok vs ↔ fin = .EOF ∧ Shape (.top vs) ts := by
  constructor
  · intro h
    obtain ⟨vs1, h1, h2, h3⟩ := ParseLoop_sound (parseValue_sound fin _)
      (parseValue_ne_EOF fin _) _ _ _ _ h
    simp only [List.nil_append] at h1
    subst h1
    exact ⟨h3, h2⟩
  · rintro ⟨hf, hs⟩
    have := hs.complete fin (ts.length + 1) (ts.length + 1) [] hf (by omega) (by omega)
    simpa [Parse] using this

/-- On every stream `Parse` either succeeds or reports an error. -/
theorem Parse_cases (fin : GoError) (ts : List tokenPos) :
    (∃ vs, Parse fin ts = .ok vs) ∨ (∃ e, Parse fin ts = .err e) := by
  cases h : Parse fin ts with
  | ok vs => exact Or.inl ⟨vs, rfl⟩
  | err e => exact Or.inr ⟨e, rfl⟩
  | timeout => exact absurd h (Parse_total fin ts)

/-! ## The parser and the grammar -/

theorem Matches.list_of_body {E : NT} {w : List tokenPos}
    (h : w = [] ∨ Matches codeProd (.seq (.nt E)
      (.seq (.star (.seq (.tok TokenComma) (.nt E))) (.opt (.tok TokenComma)))) w) :
    Matches codeProd (.nt (.List E)) w := by
  apply Matches.nt
  show Matches codeProd (.opt _) w
  rcases h with rfl | h
  · exact Matches.optNone _
  · exact Matches.optSome _ _ h

theorem Matches.body_last {E : NT} {w : List tokenPos} (h : Matches codeProd (.nt E) w) :
    Matches codeProd (.seq (.nt E)
      (.seq (.star (.seq (.tok TokenComma) (.nt E))) (.opt (.tok TokenComma)))) w := by
  have := Matches.seq _ _ _ _ h
    (Matches.seq _ _ _ _ (Matches.starNil (.seq (.tok TokenComma) (.nt E)))
      (@Matches.optNone codeProd (.tok TokenComma)))
  simpa using this

theorem Matches.body_cons {E : NT} {w w1 : List tokenPos} {c : tokenPos}
    (hc : c.Token = TokenComma) (h : Matches codeProd (.nt E) w)
    (h1 : w1 = [] ∨ Matches codeProd (.seq (.nt E)
      (.seq (.star (.seq (.tok TokenComma) (.nt E))) (.opt (.tok TokenComma)))) w1) :
    Matches codeProd (.seq (.nt E)
      (.seq (.star (.seq (.tok TokenComma) (.nt E))) (.opt (.tok TokenComma)))) (w ++ c :: w1) := by
  rcases h1 with rfl | h1
  · have := Matches.seq _ _ _ _ h
      (Matches.seq _ _ _ _ (Matches.starNil (.seq (.tok TokenComma) (.nt E)))
        (@Matches.optSome codeProd _ _ (Matches.tok TokenComma c hc)))
    simpa using this
  · cases h1 with
    | seq _ _ a rest ha hrest =>
      cases hrest with
      | seq _ _ b d hb hd =>
        have hca : Matches codeProd (.seq (.tok TokenComma) (.nt E)) ([c] ++ a) :=
          Matches.seq _ _ _ _ (Matches.tok TokenComma c hc) ha
        have := Matches.seq _ _ _ _ h
          (Matches.seq _ _ _ _ (Matches.starCons _ _ _ hca hb) hd)
        simpa using this

theorem Shape.gram {node : Node} {w : List tokenPos} (h : Shape node w) : Gram node w := by
  induction h with
  | null e he =>
    exact Matches.nt _ _ (Matches.altL _ _ _ (Matches.tok _ e he))
  | boolFalse e he =>
    exact Matches.nt _ _ (Matches.altR _ _ _ (Matches.altL _ _ _
      (Matches.altL _ _ _ (Matches.tok _ e he))))
  | boolTrue e he =>
    exact Matches.nt _ _ (Matches.altR _ _ _ (Matches.altL _ _ _
      (Matches.altR _ _ _ (Matches.tok _ e he))))
  | number e he =>
    exact Matches.nt _ _ (Matches.altR _ _ _ (Matches.altR _ _ _
      (Matches.altL _ _ _ (Matches.tok _ e he))))
  | string e he =>
    exact Matches.nt _ _ (Matches.altR _ _ _ (Matches.altR _ _ _
      (Matches.altR _ _ _ (Matches.altL _ _ _ (Matches.tok _ e he)))))
  | array lb rb l w hl hr hs ih =>
    have h1 : Matches codeProd (.nt .Array) ([lb] ++ (w ++ [rb])) :=
      Matches.nt _ _ (Matches.seq _ _ _ _ (Matches.tok _ lb hl)
        (Matches.seq _ _ _ _ (Matches.list_of_body ih) (Matches.tok _ rb hr)))
    exact Matches.nt _ _ (Matches.altR _ _ _ (Matches.altR _ _ _
      (Matches.altR _ _ _ (Matches.altR _ _ _ (Matches.altL _ _ _ h1)))))
  | object lb rb l w hl hr hs ih =>
    have h1 : Matches codeProd (.nt .Object) ([lb] ++ (w ++ [rb])) :=
      Matches.nt _ _ (Matches.seq _ _ _ _ (Matches.tok _ lb hl)
        (Matches.seq _ _ _ _ (Matches.list_of_body ih) (Matches.tok _ rb hr)))
    exact Matches.nt _ _ (Matches.altR _ _ _ (Matches.altR _ _ _
      (Matches.altR _ _ _ (Matches.altR _ _ _ (Matches.altR _ _ _ (Matches.altL _ _ _ h1))))))
  | operator id gs w hi hs ih =>
    have h1 : Matches codeProd (.nt .Operator) ([id] ++ w) :=
      Matches.nt _ _ (Matches.seq _ _ _ _ (Matches.tok _ id hi) ih)
    exact Matches.nt _ _ (Matches.altR _ _ _ (Matches.altR _ _ _
      (Matches.altR _ _ _ (Matches.altR _ _ _ (Matches.altR _ _ _ (Matches.altR _ _ _ h1))))))
  | member c k v wk wv hc hk hv ihk ihv =>
    have h1 : Matches codeProd (.nt .Member) (wk ++ ([c] ++ wv)) :=
      Matches.nt _ _ (Matches.seq _ _ _ _ ihk
        (Matches.seq _ _ _ _ (Matches.tok _ c hc) ihv))
    exact h1
  | args lp rp l w hl hr hs ih =>
    have h1 : Matches codeProd _ ([lp] ++ (w ++ [rp])) :=
      Matches.seq _ _ _ _ (Matches.tok _ lp hl)
        (Matches.seq _ _ _ _ (Matches.list_of_body ih) (Matches.tok _ rp hr))
    exact h1
  | groupsNil => exact Matches.starNil _
  | groupsCons a gs w w1 ha hgs iha ihgs => exact Matches.starCons _ _ _ iha ihgs
  | valuesNil => exact Or.inl rfl
  | valuesLast v w hv ih => exact Or.inr (Matches.body_last ih)
  | valuesCons c v l w w1 hc hv hl ihv ihl => exact Or.inr (Matches.body_cons hc ihv ihl)
  | membersNil => exact Or.inl rfl
  | membersLast v w hv ih => exact Or.inr (Matches.body_last ih)
  | membersCons c v l w w1 hc hv hl ihv ihl => exact Or.inr (Matches.body_cons hc ihv ihl)
  | topNil => exact Matches.starNil _
  | topCons v vs w w1 hv ht ihv iht => exact Matches.starCons _ _ _ ihv iht

theorem Seq.values {w : List tokenPos} (h : Seq (Lang .Value) w) :
    ∃ l, Shape (.values l) w := by
  induction h with
  | nil => exact ⟨[], Shape.valuesNil⟩
  | last w hw =>
    obtain ⟨v, hv⟩ := hw
    exact ⟨[⟨v, 0⟩], Shape.valuesLast v w hv⟩
  | cons c w w1 hc hw _ ih =>
    obtain ⟨v, hv⟩ := hw
    obtain ⟨l, hl⟩ := ih
    exact ⟨⟨v, c.Pos⟩ :: l, Shape.valuesCons c v l w w1 hc hv hl⟩

theorem Seq.members {w : List tokenPos} (h : Seq (Lang .Member) w) :
    ∃ l, Shape (.members l) w := by
  induction h with
  | nil => exact ⟨[], Shape.membersNil⟩
  | last w hw =>
    obtain ⟨v, hv⟩ := hw
    exact ⟨[⟨v, 0⟩], Shape.membersLast v w hv⟩
  | cons c w w1 hc hw _ ih =>
    obtain ⟨v, hv⟩ := hw
    obtain ⟨l, hl⟩ := ih
    exact ⟨⟨v, c.Pos⟩ :: l, Shape.membersCons c v l w w1 hc hv hl⟩

theorem Seq.of_star {E : NT} {w3 : List tokenPos}
    (h3 : Star (Sem (.seq (.tok TokenComma) (.nt E))) w3) :
    ∀ (w1 w4 : List tokenPos), Lang E w1 → (w4 = [] ∨ Sem (.tok TokenComma) w4) →
      Seq (Lang E) (w1 ++ (w3 ++ w4)) := by
  induction h3 with
  | nil =>
    intro w1 w4 h1 h4
    rcases h4 with rfl | ⟨e, rfl, he⟩
    · simpa using Seq.last w1 h1
    · simpa using Seq.cons e w1 [] he h1 Seq.nil
  | cons a b ha _ ih =>
    intro w1 w4 h1 h4
    obtain ⟨x, y, rfl, ⟨c, rfl, hc⟩, hy⟩ := ha
    have := Seq.cons c w1 _ hc h1 (ih y w4 hy h4)
    simpa using this

theorem Star.groups {w : List tokenPos}
    (h : Star (Sem (.seq (.tok TokenLParen) (.seq (.nt (.List .Value)) (.tok TokenRParen)))) w) :
    ∃ gs, Shape (.groups gs) w := by
  induction h with
  | nil => exact ⟨[], Shape.groupsNil⟩
  | cons a b ha _ ih =>
    obtain ⟨gs, hgs⟩ := ih
    obtain ⟨x, y, rfl, ⟨lp, rfl, hlp⟩, y1, y2, rfl, hl, ⟨rp, rfl, hrp⟩⟩ := ha
    obtain ⟨l, hl⟩ := Seq.values hl
    exact ⟨_, Shape.groupsCons _ gs _ _ (Shape.args lp rp l y1 hlp hrp hl) hgs⟩

theorem Star.top {w : List tokenPos} (h : Star (Sem (.nt .Value)) w) :
    ∃ vs, Shape (.top vs) w := by
  induction h with
  | nil => exact ⟨[], Shape.topNil⟩
  | cons a b ha _ ih =>
    obtain ⟨vs, hvs⟩ := ih
    obtain ⟨v, hv⟩ := ha
    exact ⟨v :: vs, Shape.topCons v vs a b hv hvs⟩

/-- Every production of the amended grammar is realised by the parser. -/
theorem Lang.closed : ∀ (n : NT) (w : List tokenPos), Sem (codeProd n) w → Lang n w := by
  intro n w h
  cases n with
  | Value =>
    simp only [codeProd, specProd, Sem, Lang] at h ⊢
    rcases h with ⟨e, rfl, he⟩ | (⟨e, rfl, he⟩ | ⟨e, rfl, he⟩) | ⟨e, rfl, he⟩ | ⟨e, rfl, he⟩ |
      ⟨lb, l, rb, h⟩ | ⟨lb, l, rb, h⟩ | ⟨id, gs, h⟩
    · exact ⟨_, Shape.null e he⟩
    · exact ⟨_, Shape.boolFalse e he⟩
    · exact ⟨_, Shape.boolTrue e he⟩
    · exact ⟨_, Shape.number e he⟩
    · exact ⟨_, Shape.string e he⟩
    · exact ⟨_, h⟩
    · exact ⟨_, h⟩
    · exact ⟨_, h⟩
  | Array =>
    simp only [codeProd, specProd, Sem, Lang] at h ⊢
    obtain ⟨x, y, rfl, ⟨lb, rfl, hlb⟩, y1, y2, rfl, hl, ⟨rb, rfl, hrb⟩⟩ := h
    obtain ⟨l, hl⟩ := Seq.values hl
    exact ⟨_, _, _, Shape.array lb rb l y1 hlb hrb hl⟩
  | Object =>
    simp only [codeProd, specProd, Sem, Lang] at h ⊢
    obtain ⟨x, y, rfl, ⟨lb, rfl, hlb⟩, y1, y2, rfl, hl, ⟨rb, rfl, hrb⟩⟩ := h
    obtain ⟨l, hl⟩ := Seq.members hl
    exact ⟨_, _, _, Shape.object lb rb l y1 hlb hrb hl⟩
  | Member =>
    simp only [codeProd, specProd, Sem, Lang] at h ⊢
    obtain ⟨x, y, rfl, ⟨k, hk⟩, y1, y2, rfl, ⟨c, rfl, hc⟩, ⟨v, hv⟩⟩ := h
    exact ⟨_, Shape.member c k v x y2 hc hk hv⟩
  | Operator =>
    simp only [codeProd, specProd, Sem, Lang] at h ⊢
    obtain ⟨x, y, rfl, ⟨id, rfl, hid⟩, hg⟩ := h
    obtain ⟨gs, hgs⟩ := Star.groups hg
    exact ⟨_, _, Shape.operator id gs y hid hgs⟩
  | List E =>
    simp only [codeProd, Lang] at h ⊢
    rcases h with rfl | ⟨x, y, rfl, hx, y1, y2, rfl, hstar, hopt⟩
    · exact Seq.nil
    · exact Seq.of_star hstar x y2 hx hopt

theorem Matches.sem {g : G} {w : List tokenPos} (h : Matches codeProd g w) : Sem g w := by
  induction h with
  | tok t e he => exact ⟨e, rfl, he⟩
  | nt n w _ ih => exact Lang.closed n w ih
  | seq a b w1 w2 _ _ iha ihb => exact ⟨w1, w2, rfl, iha, ihb⟩
  | altL a b w _ ih => exact Or.inl ih
  | altR a b w _ ih => exact Or.inr ih
  | starNil a => exact Star.nil
  | starCons a w1 w2 _ _ ih1 ih2 => exact Star.cons w1 w2 ih1 ih2
  | optNone a => exact Or.inl rfl
  | optSome a w _ ih => exact Or.inr ih

/-- A stream is the token sequence of some list of top-level nodes exactly
when it is derivable from `Value*` in the amended grammar. -/
theorem Shape.top_iff_derivable (ts : List tokenPos) :
    (∃ vs, Shape (.top vs) ts) ↔ Derivable codeProd ts := by
  constructor
  · rintro ⟨vs, h⟩
    exact h.gram
  · intro h
    exact Star.top (Matches.sem h)

/-- A token sequence the parser accepts holds no `Dot` and no `Invalid`. -/
theorem Shape.no_dot_invalid {node : Node} {w : List tokenPos} (h : Shape node w) :
    ∀ e ∈ w, e.Token ≠ TokenDot ∧ e.Token ≠ TokenInvalid := by
  induction h with
  | null e he | boolFalse e he | boolTrue e he | number e he | string e he =>
    intro x hx
    simp only [List.mem_singleton] at hx
    subst hx
    rw [he]
    exact ⟨by decide, by decide⟩
  | array lb rb l w hl hr hs ih | object lb rb l w hl hr hs ih | args lb rb l w hl hr hs ih =>
    intro x hx
    simp only [List.mem_cons, List.mem_append, List.mem_singleton, List.not_mem_nil,
      or_false] at hx
    rcases hx with rfl | hx | rfl
    · rw [hl]; exact ⟨by decide, by decide⟩
    · exact ih x hx
    · rw [hr]; exact ⟨by decide, by decide⟩
  | operator id gs w hi hs ih =>
    intro x hx
    simp only [List.mem_cons] at hx
    rcases hx with rfl | hx
    · rw [hi]; exact ⟨by decide, by decide⟩
    · exact ih x hx
  | member c k v wk wv hc hk hv ihk ihv =>
    intro x hx
    simp only [List.mem_cons, List.mem_append] at hx
    rcases hx with hx | rfl | hx
    · exact ihk x hx
    · rw [hc]; exact ⟨by decide, by decide⟩
    · exact ihv x hx
  | groupsNil | valuesNil | membersNil | topNil => intro x hx; cases hx
  | groupsCons a gs w w1 ha hgs iha ihgs | topCons a gs w w1 ha hgs iha ihgs =>
    intro x hx
    simp only [List.mem_append] at hx
    rcases hx with hx | hx
    · exact iha x hx
    · exact ihgs x hx
  | valuesLast v w hv ih | membersLast v w hv ih => exact ih
  | valuesCons c v l w w1 hc hv hl ihv ihl | membersCons c v l w w1 hc hv hl ihv ihl =>
    intro x hx
    simp only [List.mem_cons, List.mem_append] at hx
    rcases hx with hx | rfl | hx
    · exact ihv x hx
    · rw [hc]; exact ⟨by decide, by decide⟩
    · exact ihl x hx

/-! ## Reading back what was parsed -/

theorem kept_of_token {e : tokenPos} {t : Token} (h : e.Token = t)
    (ht : t ≠ TokenNumber ∧ t ≠ TokenString ∧ t ≠ TokenIdent) :
    e.kept = ⟨t, e.Pos, ""⟩ := by
  obtain ⟨k, p, x⟩ := e
  simp only at h
  subst h
  cases k <;> simp_all [tokenPos.kept]

theorem kept_of_literal {e : tokenPos}
    (h : e.Token = TokenNumber ∨ e.Token = TokenString ∨ e.Token = TokenIdent) :
    e.kept = e := by
  obtain ⟨k, p, x⟩ := e
  simp only at h
  rcases h with h | h | h <;> subst h <;> rfl

theorem Shape.tokens {node : Node} {w : List tokenPos} (h : Shape node w)
    (hpos : ∀ e ∈ w, e.Pos ≠ NoPos) : node.tokens = w.map tokenPos.kept := by
  induction h with
  | null e he =>
    simp [Node.tokens, Value.tokens, kept_of_token he (by decide)]
  | boolFalse e he =>
    simp [Node.tokens, Value.tokens, kept_of_token he (by decide)]
  | boolTrue e he =>
    simp [Node.tokens, Value.tokens, kept_of_token he (by decide)]
  | number e he =>
    have := kept_of_literal (Or.inl he)
    obtain ⟨k, p, x⟩ := e
    simp only at he
    subst he
    simp [Node.tokens, Value.tokens, this]
  | string e he =>
    have := kept_of_literal (Or.inr (Or.inl he))
    obtain ⟨k, p, x⟩ := e
    simp only at he
    subst he
    simp [Node.tokens, Value.tokens, this]
  | array lb rb l w hl hr hs ih =>
    have h1 := ih (fun e he => hpos e (by simp [he]))
    simp only [Node.tokens] at h1
    simp [Node.tokens, Value.tokens, kept_of_token hl (by decide),
      kept_of_token hr (by decide), h1]
  | object lb rb l w hl hr hs ih =>
    have h1 := ih (fun e he => hpos e (by simp [he]))
    simp only [Node.tokens] at h1
    simp [Node.tokens, Value.tokens, kept_of_token hl (by decide),
      kept_of_token hr (by decide), h1]
  | operator id gs w hi hs ih =>
    have h1 := ih (fun e he => hpos e (by simp [he]))
    simp only [Node.tokens] at h1
    have := kept_of_literal (Or.inr (Or.inr hi))
    obtain ⟨k, p, x⟩ := id
    simp only at hi
    subst hi
    simp [Node.tokens, Value.tokens, h1, this]
  | member c k v wk wv hc hk hv ihk ihv =>
    have h1 := ihk (fun e he => hpos e (by simp [he]))
    have h2 := ihv (fun e he => hpos e (by simp [he]))
    simp only [Node.tokens] at h1 h2
    simp [Node.tokens, Member.tokens, kept_of_token hc (by decide), h1, h2]
  | args lp rp l w hl hr hs ih =>
    have h1 := ih (fun e he => hpos e (by simp [he]))
    simp only [Node.tokens] at h1
    simp [Node.tokens, OperatorArgs.tokens, kept_of_token hl (by decide),
      kept_of_token hr (by decide), h1]
  | groupsNil => simp [Node.tokens, groupsTokens]
  | groupsCons a gs w w1 ha hgs iha ihgs =>
    have h1 := iha (fun e he => hpos e (by simp [he]))
    have h2 := ihgs (fun e he => hpos e (by simp [he]))
    simp only [Node.tokens] at h1 h2
    simp [Node.tokens, groupsTokens, h1, h2]
  | valuesNil => simp [Node.tokens, valuesTokens]
  | valuesLast v w hv ih =>
    have h1 := ih hpos
    simp only [Node.tokens] at h1
    simp [Node.tokens, valuesTokens, h1, NoPos]
  | valuesCons c v l w w1 hc hv hl ihv ihl =>
    have h1 := ihv (fun e he => hpos e (by simp [he]))
    have h2 := ihl (fun e he => hpos e (by simp [he]))
    have h3 := hpos c (by simp)
    simp only [Node.tokens] at h1 h2
    simp [Node.tokens, valuesTokens, h1, h2, h3, kept_of_token hc (by decide)]
  | membersNil => simp [Node.tokens, membersTokens]
  | membersLast v w hv ih =>
    have h1 := ih hpos
    simp only [Node.tokens] at h1
    simp [Node.tokens, membersTokens, h1, NoPos]
  | membersCons c v l w w1 hc hv hl ihv ihl =>
    have h1 := ihv (fun e he => hpos e (by simp [he]))
    have h2 := ihl (fun e he => hpos e (by simp [he]))
    have h3 := hpos c (by simp)
    simp only [Node.tokens] at h1 h2
    simp [Node.tokens, membersTokens, h1, h2, h3, kept_of_token hc (by decide)]
  | topNil => simp [Node.tokens, readBack]
  | topCons v vs w w1 hv ht ihv iht =>
    have h1 := ihv (fun e he => hpos e (by simp [he]))
    have h2 := iht (fun e he => hpos e (by simp [he]))
    simp only [Node.tokens] at h1 h2
    simp [Node.tokens, readBack, h1, h2]

/-! ## Grammar conformance -/

/-- Claim C1, as the specification states it, fails on the stream `[ , ]`: the
production `List(E) := (E (',' E)*)? ','?` derives a lone comma between the
brackets, and `Parse` rejects the stream. -/
theorem Parse_spec_grammar_counterexample :
    ¬ ((∃ vs, Parse .EOF [⟨TokenLBrack, 1, "["⟩, ⟨TokenComma, 2, ","⟩, ⟨TokenRBrack, 3, "]"⟩]
          = .ok vs) ↔
        Derivable specProd
          [⟨TokenLBrack, 1, "["⟩, ⟨TokenComma, 2, ","⟩, ⟨TokenRBrack, 3, "]"⟩]) := by
  intro h
  have hd : Derivable specProd
      [⟨TokenLBrack, 1, "["⟩, ⟨TokenComma, 2, ","⟩, ⟨TokenRBrack, 3, "]"⟩] := by
    have hlist : Matches specProd (.nt (.List .Value)) [⟨TokenComma, 2, ","⟩] :=
      Matches.nt _ _ (Matches.seq _ _ [] [⟨TokenComma, 2, ","⟩] (Matches.optNone _)
        (Matches.optSome _ _ (Matches.tok _ _ rfl)))
    have harr : Matches specProd (.nt .Array)
        [⟨TokenLBrack, 1, "["⟩, ⟨TokenComma, 2, ","⟩, ⟨TokenRBrack, 3, "]"⟩] :=
      Matches.nt _ _ (Matches.seq _ _ [⟨TokenLBrack, 1, "["⟩]
        [⟨TokenComma, 2, ","⟩, ⟨TokenRBrack, 3, "]"⟩] (Matches.tok _ _ rfl)
        (Matches.seq _ _ [⟨TokenComma, 2, ","⟩] [⟨TokenRBrack, 3, "]"⟩] hlist
          (Matches.tok _ _ rfl)))
    have hval : Matches specProd (.nt .Value)
        [⟨TokenLBrack, 1, "["⟩, ⟨TokenComma, 2, ","⟩, ⟨TokenRBrack, 3, "]"⟩] :=
      Matches.nt _ _ (Matches.altR _ _ _ (Matches.altR _ _ _
        (Matches.altR _ _ _ (Matches.altR _ _ _ (Matches.altL _ _ _ harr)))))
    exact Matches.starCons _
      [⟨TokenLBrack, 1, "["⟩, ⟨TokenComma, 2, ","⟩, ⟨TokenRBrack, 3, "]"⟩] [] hval
      (Matches.starNil _)
  obtain ⟨vs, hvs⟩ := h.mpr hd
  have herr : Parse .EOF [⟨TokenLBrack, 1, "["⟩, ⟨TokenComma, 2, ","⟩, ⟨TokenRBrack, 3, "]"⟩]
      = .err (.errorString "unexpected token Comma at beginning of Value in array") := rfl
  rw [herr] at hvs
  cases hvs

/-- Claim C1, amended: on a stream that ended without a lexical error `Parse`
succeeds exactly when the stream is derivable from `Value*` in the grammar
whose list production is `List(E) := (E (',' E)* ','?)?`; every other stream,
and so every stream that holds a `Dot` or an `Invalid` token, is rejected with
an error. -/
theorem Parse_iff_derivable (ts : List tokenPos) :
    ((∃ vs, Parse .EOF ts = .ok vs) ↔ Derivable codeProd ts) ∧
    ((¬ Derivable codeProd ts) ↔ ∃ e, Parse .EOF ts = .err e) ∧
    ((∃ t ∈ ts, t.Token = TokenDot ∨ t.Token = TokenInvalid) →
      ∃ e, Parse .EOF ts = .err e) := by
  have hiff : (∃ vs, Parse .EOF ts = .ok vs) ↔ Derivable codeProd ts := by
    rw [← Shape.top_iff_derivable]
    constructor
    · rintro ⟨vs, h⟩
      exact ⟨vs, ((Parse_ok_iff _ _ _).mp h).2⟩
    · rintro ⟨vs, h⟩
      exact ⟨vs, (Parse_ok_iff _ _ _).mpr ⟨rfl, h⟩⟩
  have hrej : (¬ Derivable codeProd ts) ↔ ∃ e, Parse .EOF ts = .err e := by
    rw [← hiff]
    constructor
    · intro hn
      rcases Parse_cases .EOF ts with h | h
      · exact absurd h hn
      · exact h
    · rintro ⟨e, he⟩ ⟨vs, hvs⟩
      rw [he] at hvs
      cases hvs
  refine ⟨hiff, hrej, ?_⟩
  rintro ⟨t, ht, hk⟩
  apply hrej.mp
  intro hd
  obtain ⟨vs, hvs⟩ := (Shape.top_iff_derivable ts).mpr hd
  have := hvs.no_dot_invalid t ht
  rcases hk with hk | hk
  · exact this.1 hk
  · exact this.2 hk

/-! ## No token lost, none invented -/

/-- Claim C2: when every token of the stream carries a position other than
`NoPos` and `Parse` succeeds, reading the returned nodes back in order gives
the stream itself, token by token: the same kinds and positions, and the raw
text of every number, string and identifier. -/
theorem Parse_readBack (ts : List tokenPos) (vs : List Value)
    (hpos : ∀ t ∈ ts, t.Pos ≠ NoPos) (h : Parse .EOF ts = .ok vs) :
    readBack vs = ts.map tokenPos.kept ∧
    (readBack vs).map (fun t => (t.Token, t.Pos)) = ts.map (fun t => (t.Token, t.Pos)) := by
  have h1 : readBack vs = ts.map tokenPos.kept :=
    ((Parse_ok_iff _ _ _).mp h).2.tokens hpos
  refine ⟨h1, ?_⟩
  rw [h1, List.map_map]
  apply List.map_congr_left
  intro t _
  obtain ⟨k, p, x⟩ := t
  cases k <;> rfl

/-- Claim C2 at the stream `[1, f("a",)] true`. -/
theorem Parse_readBack_witness :
    readBack [.Array 1 [⟨.Number 2 "1", 3⟩,
        ⟨.Operator ⟨4, "f"⟩ [.mk 5 [⟨.String 6 "a", 7⟩] 8], 0⟩] 9, .Bool 10 true] =
      [⟨TokenLBrack, 1, ""⟩, ⟨TokenNumber, 2, "1"⟩, ⟨TokenComma, 3, ""⟩, ⟨TokenIdent, 4, "f"⟩,
        ⟨TokenLParen, 5, ""⟩, ⟨TokenString, 6, "a"⟩, ⟨TokenComma, 7, ""⟩, ⟨TokenRParen, 8, ""⟩,
        ⟨TokenRBrack, 9, ""⟩, ⟨TokenTrue, 10, ""⟩] := by
  have h := (Parse_readBack
    [⟨TokenLBrack, 1, "["⟩, ⟨TokenNumber, 2, "1"⟩, ⟨TokenComma, 3, ","⟩, ⟨TokenIdent, 4, "f"⟩,
      ⟨TokenLParen, 5, "("⟩, ⟨TokenString, 6, "a"⟩, ⟨TokenComma, 7, ","⟩, ⟨TokenRParen, 8, ")"⟩,
      ⟨TokenRBrack, 9, "]"⟩, ⟨TokenTrue, 10, "true"⟩]
    [.Array 1 [⟨.Number 2 "1", 3⟩,
        ⟨.Operator ⟨4, "f"⟩ [.mk 5 [⟨.String 6 "a", 7⟩] 8], 0⟩] 9, .Bool 10 true]
    (by decide) rfl).1
  exact h

/-! ## Truncated streams -/

theorem NextIs.append {t : Token} {b : List tokenPos} (x : List tokenPos) (h : NextIs t b) :
    NextIs t (b ++ x) := by
  cases b with
  | nil => cases h
  | cons e rest => exact h

theorem UnexpectedEofErr.withContext {e : GoError} (h : UnexpectedEofErr e) (s : String) :
    UnexpectedEofErr (.errorString (e.Error ++ s)) := by
  obtain ⟨ctx, h⟩ := h
  refine ⟨ctx ++ s, ?_⟩
  show e.Error ++ s = _
  rw [h, String.append_assoc]

theorem ColonEofErr.withColonContext {e : GoError} (h : ColonEofErr e) (s : String) :
    ColonEofErr (.errorString (e.Error ++ s)) := by
  obtain ⟨ctx, h⟩ := h
  refine ⟨ctx ++ s, ?_⟩
  show e.Error ++ s = _
  rw [h, String.append_assoc]

theorem EofErr.wrap {b : List tokenPos} {e : GoError} (h : EofErr b e) (s : String) :
    EofErr b (.errorString (e.Error ++ s)) := by
  rcases h with h | ⟨h, hb⟩
  · exact Or.inl (h.withContext s)
  · exact Or.inr ⟨h.withColonContext s, hb⟩

theorem EofErr.mono {b : List tokenPos} {e : GoError} (h : EofErr b e) (x : List tokenPos) :
    EofErr (b ++ x) e := by
  rcases h with h | ⟨h, hb | hb⟩
  · exact Or.inl h
  · exact Or.inr ⟨h, Or.inl (hb.append x)⟩
  · exact Or.inr ⟨h, Or.inr (hb.append x)⟩

theorem EofErr.unexpected (b : List tokenPos) : EofErr b .ErrUnexpectedEOF :=
  Or.inl ⟨"", by simp [GoError.Error]⟩

theorem EofErr.colon {b : List tokenPos} (h : NextIs TokenColon b ∨ NextIs TokenLParen b) :
    EofErr b (.errorString (GoError.EOF.Error ++ " in object member")) :=
  Or.inr ⟨⟨"", by simp [GoError.Error]⟩, h⟩

theorem append_singleton_split {α : Type} {x a b : List α} {y : α}
    (h : x ++ [y] = a ++ b) (hb : b ≠ []) : ∃ b1, x = a ++ b1 ∧ b = b1 ++ [y] := by
  rcases List.append_eq_append_iff.mp h with ⟨a1, h1, h2⟩ | ⟨c1, h1, h2⟩
  · cases a1 with
    | nil =>
      simp only [List.append_nil] at h1
      simp only [List.nil_append] at h2
      exact ⟨[], by simpa using h1.symm, by simpa using h2.symm⟩
    | cons z zs =>
      exfalso
      cases b with
      | nil => exact hb rfl
      | cons q qs => simp at h2
  · exact ⟨c1, h1, h2⟩

theorem Shape.groups_next {gs : List OperatorArgs} {w : List tokenPos}
    (h : Shape (.groups gs) w) (hw : w ≠ []) : NextIs TokenLParen w := by
  cases h with
  | groupsNil => exact absurd rfl hw
  | groupsCons a gs w w1 ha hgs =>
    cases ha with
    | args lp rp l w2 hl hr hs => exact hl

theorem Shape.trunc {node : Node} {w : List tokenPos} (h : Shape node w) : Trunc node w := by
  induction h with
  | null e he | boolFalse e he | boolTrue e he | number e he | string e he =>
    intro a b n hab hb hn
    obtain ⟨m, rfl⟩ : ∃ m, n = m + 1 := ⟨n - 1, by omega⟩
    cases a with
    | nil => exact Or.inl ⟨_, by simp [parseValue], EofErr.unexpected _⟩
    | cons x a1 =>
      exfalso
      cases a1 <;> cases b <;> simp at hab
      exact hb rfl
  | array lb rb l w hl hr hs ih =>
    intro a b n hab hb hn
    obtain ⟨m, rfl⟩ : ∃ m, n = m + 1 := ⟨n - 1, by omega⟩
    cases a with
    | nil => exact Or.inl ⟨_, by simp [parseValue], EofErr.unexpected _⟩
    | cons x a1 =>
      simp only [List.cons_append, List.cons.injEq] at hab
      obtain ⟨rfl, hab⟩ := hab
      obtain ⟨b1, hb1, rfl⟩ := append_singleton_split hab hb
      simp only [List.length_cons] at hn
      obtain ⟨e, he, hE⟩ := ih a1 b1 m m [] TokenRBrack hb1 rfl (by omega) (by omega)
      rw [parseValue_array hl]
      exact Or.inl ⟨.errorString (e.Error ++ " in array"),
        by simp [parseArray, consumeToken, hl, he], (hE.mono _).wrap _⟩
  | object lb rb l w hl hr hs ih =>
    intro a b n hab hb hn
    obtain ⟨m, rfl⟩ : ∃ m, n = m + 1 := ⟨n - 1, by omega⟩
    cases a with
    | nil => exact Or.inl ⟨_, by simp [parseValue], EofErr.unexpected _⟩
    | cons x a1 =>
      simp only [List.cons_append, List.cons.injEq] at hab
      obtain ⟨rfl, hab⟩ := hab
      obtain ⟨b1, hb1, rfl⟩ := append_singleton_split hab hb
      simp only [List.length_cons] at hn
      obtain ⟨e, he, hE⟩ := ih a1 b1 m m [] TokenRBrace hb1 rfl (by omega) (by omega)
      rw [parseValue_object hl]
      exact Or.inl ⟨.errorString (e.Error ++ " in object"),
        by simp [parseObject, consumeToken, hl, he], (hE.mono _).wrap _⟩
  | operator id gs w hi hs ih =>
    intro a b n hab hb hn
    obtain ⟨m, rfl⟩ : ∃ m, n = m + 1 := ⟨n - 1, by omega⟩
    cases a with
    | nil => exact Or.inl ⟨_, by simp [parseValue], EofErr.unexpected _⟩
    | cons x a1 =>
      simp only [List.cons_append, List.cons.injEq] at hab
      obtain ⟨rfl, hab⟩ := hab
      simp only [List.length_cons] at hn
      rw [parseValue_ident hi]
      rcases ih a1 b m m m [] hab (by omega) (by omega) (by omega) with
        ⟨e, he, hE⟩ | ⟨v, hv, hvb⟩
      · exact Or.inl ⟨e, by simp [parseOperator, parseIdent, hi, he], hE⟩
      · exact Or.inr ⟨.Operator ⟨id.Pos, id.Text⟩ v,
          by simp [parseOperator, parseIdent, hi, hv], hvb⟩
  | member c k v wk wv hc hk hv ihk ihv =>
    intro a b n hab hb hn
    rcases List.append_eq_append_iff.mp hab.symm with ⟨a1, h1, h2⟩ | ⟨c1, h1, h2⟩
    · -- the cut is inside the key or right after it
      have hkey : (∃ e, parseValue .EOF n a = .err e ∧ EofErr b e) ∨
          (∃ v1, parseValue .EOF n a = .ok (v1, []) ∧
            (NextIs TokenColon b ∨ NextIs TokenLParen b)) := by
        cases a1 with
        | nil =>
          simp only [List.append_nil] at h1
          simp only [List.nil_append] at h2
          subst h1
          subst h2
          exact Or.inr ⟨k, by
            simpa using hk.complete .EOF n [] hn (fun _ => ⟨by simp [NextIs], fun _ => rfl⟩),
            Or.inl hc⟩
        | cons z zs =>
          subst h2
          rcases ihk a (z :: zs) n h1 (by simp) hn with ⟨e, he, hE⟩ | ⟨v1, hv1, hb1⟩
          · exact Or.inl ⟨e, he, hE.mono _⟩
          · exact Or.inr ⟨v1, hv1, Or.inr ((hb1 (by simp)).append _)⟩
      rcases hkey with ⟨e, he, hE⟩ | ⟨v1, hv1, hb1⟩
      · exact Or.inl ⟨.errorString (e.Error ++ " at member key"),
          by simp [parseMember, he], hE.wrap _⟩
      · exact Or.inl ⟨.errorString (GoError.EOF.Error ++ " in object member"),
          by simp [parseMember, hv1, consumeToken], EofErr.colon hb1⟩
    · -- the cut is after the colon
      cases c1 with
      | nil =>
        simp only [List.append_nil] at h1
        simp only [List.nil_append] at h2
        subst h1
        subst h2
        have hkey : parseValue .EOF n a = .ok (k, []) := by
          simpa using hk.complete .EOF n [] hn (fun _ => ⟨by simp [NextIs], fun _ => rfl⟩)
        exact Or.inl ⟨.errorString (GoError.EOF.Error ++ " in object member"),
          by simp [parseMember, hkey, consumeToken], EofErr.colon (Or.inl hc)⟩
      | cons z zs =>
        simp only [List.cons_append, List.cons.injEq] at h2
        obtain ⟨rfl, h2⟩ := h2
        subst h1
        simp only [List.length_append, List.length_cons] at hn
        have hkey := hk.complete .EOF n (c :: zs) (by omega)
          (fun _ => OpGuard.cons (by rw [hc]; decide))
        rcases ihv zs b n h2 hb (by omega) with ⟨e, he, hE⟩ | ⟨v1, hv1, hb1⟩
        · exact Or.inl ⟨.errorString (e.Error ++ " at member Value"),
            by simp [parseMember, hkey, consumeToken, hc, he], hE.wrap _⟩
        · exact Or.inr ⟨.mk k c.Pos v1,
            by simp [parseMember, hkey, consumeToken, hc, hv1], hb1⟩
  | args lp rp l w hl hr hs ih =>
    intro a b n k hab hb ha hn hk
    cases a with
    | nil => exact absurd rfl ha
    | cons x a1 =>
      simp only [List.cons_append, List.cons.injEq] at hab
      obtain ⟨rfl, hab⟩ := hab
      obtain ⟨b1, hb1, rfl⟩ := append_singleton_split hab hb
      simp only [List.length_cons] at hn hk
      obtain ⟨e, he, hE⟩ := ih a1 b1 n k [] TokenRParen hb1 rfl (by omega) (by omega)
      exact Or.inl ⟨.errorString (e.Error ++ " at operator arguments"),
        by simp [parseOperatorArgs, consumeToken, hl, he], (hE.mono _).wrap _⟩
  | groupsNil =>
    intro a b n k j out hab _ _ hj
    obtain ⟨i, rfl⟩ : ∃ i, j = i + 1 := ⟨j - 1, by omega⟩
    have hab1 : a = [] ∧ b = [] := by
      cases a with
      | nil => exact ⟨rfl, by simpa using hab.symm⟩
      | cons x xs => simp at hab
    obtain ⟨rfl, rfl⟩ := hab1
    exact Or.inr ⟨out, by simp [parseOperatorLoop], fun h => absurd rfl h⟩
  | groupsCons g gs w w1 hg hgs ihg ihgs =>
    intro a b n k j out hab hn hk hj
    obtain ⟨i, rfl⟩ : ∃ i, j = i + 1 := ⟨j - 1, by omega⟩
    have hwhead : NextIs TokenLParen w := by
      cases hg with
      | args lp rp l w2 hl hr hs => exact hl
    cases a with
    | nil =>
      simp only [List.nil_append] at hab
      subst hab
      exact Or.inr ⟨out, by simp [parseOperatorLoop], fun _ => hwhead.append _⟩
    | cons x a1 =>
      have hhead : x.Token = TokenLParen := by
        cases hg with
        | args lp rp l w2 hl hr hs =>
          simp only [List.cons_append, List.cons.injEq] at hab
          rw [← hab.1]; exact hl
      rcases List.append_eq_append_iff.mp hab.symm with ⟨a2, h1, h2⟩ | ⟨c1, h1, h2⟩
      · have hcut : (∃ e, parseOperatorArgs .EOF k (parseValue .EOF n) (x :: a1) = .err e ∧
              EofErr b e) ∨
            (∃ v1, parseOperatorArgs .EOF k (parseValue .EOF n) (x :: a1) = .ok (v1, []) ∧
              (b ≠ [] → NextIs TokenLParen b)) := by
          cases a2 with
          | nil =>
            simp only [List.append_nil] at h1
            simp only [List.nil_append] at h2
            subst h1
            subst h2
            exact Or.inr ⟨g, by simpa using hg.complete .EOF n k [] hn hk,
              fun hne => hgs.groups_next hne⟩
          | cons z zs =>
            subst h2
            rcases ihg (x :: a1) (z :: zs) n k h1 (by simp) (by simp) hn hk with
              ⟨e, he, hE⟩ | ⟨v1, hv1, hb1⟩
            · exact Or.inl ⟨e, he, hE.mono _⟩
            · exact Or.inr ⟨v1, hv1, fun _ => (hb1 (by simp)).append _⟩
        rcases hcut with ⟨e, he, hE⟩ | ⟨v1, hv1, hb1⟩
        · exact Or.inl ⟨e, by simp [parseOperatorLoop, hhead, he], hE⟩
        · refine Or.inr ⟨out ++ [v1], ?_, hb1⟩
          rw [parseOperatorLoop]
          simp only [hhead, ne_eq, not_true_eq_false, ↓reduceIte, hv1]
          cases i <;> simp [parseOperatorLoop] at hj ⊢
      · rw [h1] at hn hk hj ⊢
        simp only [List.length_append] at hn hk hj
        have hfull := hg.complete .EOF n k c1 (by omega) (by omega)
        have hlen : 2 ≤ w.length := by
          cases hg with
          | args lp rp l w2 hl hr hs => simp
        have hrec := ihgs c1 b n k i (out ++ [g]) h2 (by omega) (by omega) (by omega)
        have hw : ∃ y ys, w = y :: ys ∧ y.Token = TokenLParen := by
          cases hg with
          | args lp rp l w2 hl hr hs => exact ⟨lp, _, rfl, hl⟩
        obtain ⟨y, ys, rfl, hy⟩ := hw
        simp only [List.cons_append] at hfull ⊢
        rw [parseOperatorLoop]
        simp only [hy, ne_eq, not_true_eq_false, ↓reduceIte, hfull]
        exact hrec
  | valuesNil =>
    intro a b n k out delim hab _ _ hk
    obtain ⟨i, rfl⟩ : ∃ i, k = i + 1 := ⟨k - 1, by omega⟩
    have : a = [] := by
      cases a with
      | nil => rfl
      | cons x xs => simp at hab
    subst this
    exact ⟨_, by simp [parseList], EofErr.unexpected _⟩
  | valuesLast v w hv ih =>
    intro a b n k out delim hab hcl hn hk
    obtain ⟨i, rfl⟩ : ∃ i, k = i + 1 := ⟨k - 1, by omega⟩
    cases a with
    | nil => exact ⟨_, by simp [parseList], EofErr.unexpected _⟩
    | cons x a1 =>
      have hx : x.Token ≠ delim := by
        obtain ⟨e, w1, rfl, he⟩ := hv.value_head
        simp only [List.cons_append, List.cons.injEq] at hab
        rw [← hab.1]
        exact closer_ne_of_startsValue he hcl
      have hcut : Cut b (parseValue .EOF n (x :: a1)) := by
        cases b with
        | nil =>
          simp only [List.append_nil] at hab
          subst hab
          exact Or.inr ⟨v, by
            simpa using hv.complete .EOF n [] hn (fun _ => ⟨by simp [NextIs], fun _ => rfl⟩),
            fun h => absurd rfl h⟩
        | cons z zs => exact ih (x :: a1) (z :: zs) n hab (by simp) hn
      rcases hcut with ⟨e, he, hE⟩ | ⟨v1, hv1, -⟩
      · exact ⟨e, by simp [parseList, hx, he], hE⟩
      · exact ⟨_, by simp [parseList, hx, hv1], EofErr.unexpected _⟩
  | valuesCons c v l w w1 hc hv hl ihv ihl =>
    intro a b n k out delim hab hcl hn hk
    obtain ⟨i, rfl⟩ : ∃ i, k = i + 1 := ⟨k - 1, by omega⟩
    cases a with
    | nil => exact ⟨_, by simp [parseList], EofErr.unexpected _⟩
    | cons x a1 =>
      have hx : x.Token ≠ delim := by
        obtain ⟨e, w2, rfl, he⟩ := hv.value_head
        simp only [List.cons_append, List.cons.injEq] at hab
        rw [← hab.1]
        exact closer_ne_of_startsValue he hcl
      rcases List.append_eq_append_iff.mp hab.symm with ⟨a2, h1, h2⟩ | ⟨c1, h1, h2⟩
      · have hcut : (∃ e, parseValue .EOF n (x :: a1) = .err e ∧ EofErr b e) ∨
            (∃ v1, parseValue .EOF n (x :: a1) = .ok (v1, [])) := by
          cases a2 with
          | nil =>
            simp only [List.append_nil] at h1
            subst h1
            exact Or.inr ⟨v, by
              simpa using hv.complete .EOF n [] hn
                (fun _ => ⟨by simp [NextIs], fun _ => rfl⟩)⟩
          | cons z zs =>
            subst h2
            rcases ihv (x :: a1) (z :: zs) n h1 (by simp) hn with ⟨e, he, hE⟩ | ⟨v1, hv1, -⟩
            · exact Or.inl ⟨e, he, hE.mono _⟩
            · exact Or.inr ⟨v1, hv1⟩
        rcases hcut with ⟨e, he, hE⟩ | ⟨v1, hv1⟩
        · exact ⟨e, by simp [parseList, hx, he], hE⟩
        · exact ⟨_, by simp [parseList, hx, hv1], EofErr.unexpected _⟩
      · cases c1 with
        | nil =>
          simp only [List.append_nil] at h1
          have hfull := hv.complete .EOF n [] (by rw [← h1]; exact hn)
            (fun _ => ⟨by simp [NextIs], fun _ => rfl⟩)
          simp only [List.append_nil, ← h1] at hfull
          exact ⟨_, by simp [parseList, hx, hfull], EofErr.unexpected _⟩
        | cons z zs =>
          simp only [List.cons_append, List.cons.injEq] at h2
          obtain ⟨rfl, h2⟩ := h2
          have hlen := congrArg List.length h1
          simp only [List.length_cons, List.length_append] at hlen hn hk
          have hfull := hv.complete .EOF n (c :: zs) (by omega)
            (fun _ => OpGuard.cons (by rw [hc]; decide))
          obtain ⟨e, he, hE⟩ := ihl zs b n i (out ++ [⟨v, c.Pos⟩]) delim h2 hcl
            (by omega) (by omega)
          rw [← h1] at hfull
          exact ⟨e, by rw [parseList_comma .EOF delim _ i out x c _ _ v hx hfull hc]; exact he,
            hE⟩
  | membersNil =>
    intro a b n k out delim hab _ _ hk
    obtain ⟨i, rfl⟩ : ∃ i, k = i + 1 := ⟨k - 1, by omega⟩
    have : a = [] := by
      cases a with
      | nil => rfl
      | cons x xs => simp at hab
    subst this
    exact ⟨_, by simp [parseList], EofErr.unexpected _⟩
  | membersLast v w hv ih =>
    intro a b n k out delim hab hcl hn hk
    obtain ⟨i, rfl⟩ : ∃ i, k = i + 1 := ⟨k - 1, by omega⟩
    cases a with
    | nil => exact ⟨_, by simp [parseList], EofErr.unexpected _⟩
    | cons x a1 =>
      have hx : x.Token ≠ delim := by
        obtain ⟨e, w1, rfl, he⟩ := hv.member_head
        simp only [List.cons_append, List.cons.injEq] at hab
        rw [← hab.1]
        exact closer_ne_of_startsValue he hcl
      have hcut : Cut b (parseMember .EOF (parseValue .EOF n) (x :: a1)) := by
        cases b with
        | nil =>
          simp only [List.append_nil] at hab
          subst hab
          exact Or.inr ⟨v, by
            simpa using hv.complete .EOF n [] hn ⟨by simp [NextIs], fun _ => rfl⟩,
            fun h => absurd rfl h⟩
        | cons z zs => exact ih (x :: a1) (z :: zs) n hab (by simp) hn
      rcases hcut with ⟨e, he, hE⟩ | ⟨v1, hv1, -⟩
      · exact ⟨e, by simp [parseList, hx, he], hE⟩
      · exact ⟨_, by simp [parseList, hx, hv1], EofErr.unexpected _⟩
  | membersCons c v l w w1 hc hv hl ihv ihl =>
    intro a b n k out delim hab hcl hn hk
    obtain ⟨i, rfl⟩ : ∃ i, k = i + 1 := ⟨k - 1, by omega⟩
    cases a with
    | nil => exact ⟨_, by simp [parseList], EofErr.unexpected _⟩
    | cons x a1 =>
      have hx : x.Token ≠ delim := by
        obtain ⟨e, w2, rfl, he⟩ := hv.member_head
        simp only [List.cons_append, List.cons.injEq] at hab
        rw [← hab.1]
        exact closer_ne_of_startsValue he hcl
      rcases List.append_eq_append_iff.mp hab.symm with ⟨a2, h1, h2⟩ | ⟨c1, h1, h2⟩
      · have hcut : (∃ e, parseMember .EOF (parseValue .EOF n) (x :: a1) = .err e ∧
              EofErr b e) ∨
            (∃ v1, parseMember .EOF (parseValue .EOF n) (x :: a1) = .ok (v1, [])) := by
          cases a2 with
          | nil =>
            simp only [List.append_nil] at h1
            subst h1
            exact Or.inr ⟨v, by
              simpa using hv.complete .EOF n [] hn ⟨by simp [NextIs], fun _ => rfl⟩⟩
          | cons z zs =>
            subst h2
            rcases ihv (x :: a1) (z :: zs) n h1 (by simp) hn with ⟨e, he, hE⟩ | ⟨v1, hv1, -⟩
            · exact Or.inl ⟨e, he, hE.mono _⟩
            · exact Or.inr ⟨v1, hv1⟩
        rcases hcut with ⟨e, he, hE⟩ | ⟨v1, hv1⟩
        · exact ⟨e, by simp [parseList, hx, he], hE⟩
        · exact ⟨_, by simp [parseList, hx, hv1], EofErr.unexpected _⟩
      · cases c1 with
        | nil =>
          simp only [List.append_nil] at h1
          have hfull := hv.complete .EOF n [] (by rw [← h1]; exact hn)
            ⟨by simp [NextIs], fun _ => rfl⟩
          simp only [List.append_nil, ← h1] at hfull
          exact ⟨_, by simp [parseList, hx, hfull], EofErr.unexpected _⟩
        | cons z zs =>
          simp only [List.cons_append, List.cons.injEq] at h2
          obtain ⟨rfl, h2⟩ := h2
          have hlen := congrArg List.length h1
          simp only [List.length_cons, List.length_append] at hlen hn hk
          have hfull := hv.complete .EOF n (c :: zs) (by omega)
            (OpGuard.cons (by rw [hc]; decide))
          obtain ⟨e, he, hE⟩ := ihl zs b n i (out ++ [⟨v, c.Pos⟩]) delim h2 hcl
            (by omega) (by omega)
          rw [← h1] at hfull
          exact ⟨e, by rw [parseList_comma .EOF delim _ i out x c _ _ v hx hfull hc]; exact he,
            hE⟩
  | topNil =>
    intro a b n k out hab _ hk
    obtain ⟨i, rfl⟩ : ∃ i, k = i + 1 := ⟨k - 1, by omega⟩
    have : a = [] := by
      cases a with
      | nil => rfl
      | cons x xs => simp at hab
    subst this
    exact Or.inr ⟨out, by simp [ParseLoop]⟩
  | topCons v vs w w1 hv ht ihv iht =>
    intro a b n k out hab hn hk
    obtain ⟨i, rfl⟩ : ∃ i, k = i + 1 := ⟨k - 1, by omega⟩
    cases a with
    | nil => exact Or.inr ⟨out, by simp [ParseLoop]⟩
    | cons x a1 =>
      rcases List.append_eq_append_iff.mp hab.symm with ⟨a2, h1, h2⟩ | ⟨c1, h1, h2⟩
      · have hcut : (∃ e, parseValue .EOF n (x :: a1) = .err e ∧ EofErr b e) ∨
            (∃ v1, parseValue .EOF n (x :: a1) = .ok (v1, [])) := by
          cases a2 with
          | nil =>
            simp only [List.append_nil] at h1
            subst h1
            exact Or.inr ⟨v, by
              simpa using hv.complete .EOF n [] hn
                (fun _ => ⟨by simp [NextIs], fun _ => rfl⟩)⟩
          | cons z zs =>
            subst h2
            rcases ihv (x :: a1) (z :: zs) n h1 (by simp) hn with ⟨e, he, hE⟩ | ⟨v1, hv1, -⟩
            · exact Or.inl ⟨e, he, hE.mono _⟩
            · exact Or.inr ⟨v1, hv1⟩
        rcases hcut with ⟨e, he, hE⟩ | ⟨v1, hv1⟩
        · by_cases hee : e = .EOF
          · exact Or.inr ⟨out, by simp [ParseLoop, he, hee]⟩
          · exact Or.inl ⟨e, by simp [ParseLoop, he, hee], hE⟩
        · refine Or.inr ⟨out ++ [v1], ?_⟩
          rw [ParseLoop]
          simp only [hv1]
          cases i <;> simp [ParseLoop] at hk ⊢
      · have hlen := congrArg List.length h1
        simp only [List.length_cons, List.length_append] at hlen hn hk
        have hg : OpGuard .EOF c1 := by
          refine ⟨?_, fun _ => rfl⟩
          cases c1 with
          | nil => simp [NextIs]
          | cons z zs =>
            cases ht with
            | topNil => simp at h2
            | topCons v2 vs2 w2 w3 hv2 ht2 =>
              obtain ⟨e, w4, rfl, he⟩ := hv2.value_head
              simp only [List.cons_append, List.cons.injEq] at h2
              simp only [NextIs]
              rw [← h2.1]
              intro hh
              rw [hh] at he
              cases he
        have hw : ∃ y ys, w = y :: ys := by
          obtain ⟨e, w2, rfl, -⟩ := hv.value_head
          exact ⟨e, w2, rfl⟩
        obtain ⟨y, ys, rfl⟩ := hw
        simp only [List.length_cons] at hlen
        have hfull := hv.complete .EOF n c1 (by simp only [List.length_cons]; omega)
          (fun _ => hg)
        have hrec := iht c1 b n i (out ++ [v]) h2 (by omega) (by omega)
        rw [h1]
        simp only [List.cons_append] at hfull ⊢
        rw [ParseLoop]
        simp only [hfull]
        exact hrec

theorem openDepth_append (a b : List tokenPos) :
    openDepth (a ++ b) = openDepth a + openDepth b := by
  induction a with
  | nil => simp [openDepth]
  | cons x xs ih =>
    show _ + openDepth (xs ++ b) = (_ + openDepth xs) + openDepth b
    rw [ih, add_assoc]

theorem openDepth_single {e : tokenPos} {t : Token} (h : e.Token = t) :
    openDepth [e] =
      (match t with
        | TokenLBrack | TokenLBrace | TokenLParen => 1
        | TokenRBrack | TokenRBrace | TokenRParen => -1
        | _ => 0) := by
  subst h
  obtain ⟨k, p, x⟩ := e
  cases k <;> rfl

/-- The token sequence of a node closes every bracket, brace and paren it
opens. -/
theorem Shape.openDepth_eq {node : Node} {w : List tokenPos} (h : Shape node w) :
    openDepth w = 0 := by
  induction h with
  | null e he | boolFalse e he | boolTrue e he | number e he | string e he =>
    rw [openDepth_single he]
  | array lb rb l w hl hr hs ih | object lb rb l w hl hr hs ih | args lb rb l w hl hr hs ih =>
    have h1 : lb :: (w ++ [rb]) = [lb] ++ (w ++ [rb]) := rfl
    rw [h1, openDepth_append, openDepth_append, openDepth_single hl, openDepth_single hr, ih]
    rfl
  | operator id gs w hi hs ih =>
    have h1 : id :: w = [id] ++ w := rfl
    rw [h1, openDepth_append, openDepth_single hi, ih]
    rfl
  | member c k v wk wv hc hk hv ihk ihv =>
    have h1 : wk ++ c :: wv = wk ++ ([c] ++ wv) := rfl
    rw [h1, openDepth_append, openDepth_append, openDepth_single hc, ihk, ihv]
    rfl
  | groupsNil | valuesNil | membersNil | topNil => rfl
  | groupsCons a gs w w1 ha hgs iha ihgs | topCons a gs w w1 ha hgs iha ihgs =>
    rw [openDepth_append, iha, ihgs]
    rfl
  | valuesLast v w hv ih | membersLast v w hv ih => exact ih
  | valuesCons c v l w w1 hc hv hl ihv ihl | membersCons c v l w w1 hc hv hl ihv ihl =>
    have h1 : w ++ c :: w1 = w ++ ([c] ++ w1) := rfl
    rw [h1, openDepth_append, openDepth_append, openDepth_single hc, ihv, ihl]
    rfl

theorem parseArray_err (fin : GoError) (k : Nat)
    (pv : List tokenPos → Res (Value × List tokenPos)) (s : List tokenPos) (e : GoError)
    (h : parseArray fin k pv s = .err e) : ∃ msg, e = .errorString msg := by
  unfold parseArray at h
  repeat (first | split at h | cases h | exact ⟨_, rfl⟩)

theorem parseObject_err (fin : GoError) (k : Nat)
    (pv : List tokenPos → Res (Value × List tokenPos)) (s : List tokenPos) (e : GoError)
    (h : parseObject fin k pv s = .err e) : ∃ msg, e = .errorString msg := by
  unfold parseObject at h
  repeat (first | split at h | cases h | exact ⟨_, rfl⟩)

theorem parseOperatorArgs_err (fin : GoError) (k : Nat)
    (pv : List tokenPos → Res (Value × List tokenPos)) (s : List tokenPos) (e : GoError)
    (h : parseOperatorArgs fin k pv s = .err e) : ∃ msg, e = .errorString msg := by
  unfold parseOperatorArgs at h
  repeat (first | split at h | cases h | exact ⟨_, rfl⟩)

theorem parseOperatorLoop_err (pa : List tokenPos → Res (OperatorArgs × List tokenPos))
    (hpa : ∀ s e, pa s = .err e → ∃ msg, e = .errorString msg) :
    ∀ (k : Nat) (opArgs : List OperatorArgs) (s : List tokenPos) (e : GoError),
      parseOperatorLoop .EOF pa k opArgs s = .err e → ∃ msg, e = .errorString msg := by
  intro k
  induction k with
  | zero => intro opArgs s e h; simp [parseOperatorLoop] at h
  | succ k ih =>
    intro opArgs s e h
    unfold parseOperatorLoop at h
    split at h
    · simp at h
    · split at h
      · cases h
      · split at h
        · cases h
        · rename_i e2 h2
          cases h
          exact hpa _ _ h2
        · exact ih _ _ _ h

theorem parseOperator_err (k : Nat)
    (pv : List tokenPos → Res (Value × List tokenPos)) (s : List tokenPos) (e : GoError)
    (h : parseOperator .EOF k pv s = .err e) : ∃ msg, e = .errorString msg := by
  unfold parseOperator at h
  split at h
  · cases h
  · cases h; exact ⟨_, rfl⟩
  · split at h
    · cases h
    · rename_i e2 h2
      cases h
      exact parseOperatorLoop_err _ (parseOperatorArgs_err .EOF k pv) _ _ _ _ h2
    · cases h

/-- On a stream that ended cleanly, every error `parseValue` reports after it
saw a token is a value built by `fmt.Errorf`: none is a sentinel. -/
theorem parseValue_err (n : Nat) (x : tokenPos) (s : List tokenPos) (e : GoError)
    (h : parseValue .EOF n (x :: s) = .err e) : ∃ msg, e = .errorString msg := by
  cases n with
  | zero => simp [parseValue] at h
  | succ n =>
    unfold parseValue at h
    split at h
    · rename_i hh; cases hh
    · split at h
      all_goals first
        | (cases h; exact ⟨_, rfl⟩)
        | exact parseObject_err _ _ _ _ _ h
        | exact parseArray_err _ _ _ _ _ h
        | exact parseOperator_err _ _ _ _ h
        | cases h
        | (simp only [parseString] at h
           split at h
           · cases h; exact ⟨_, rfl⟩
           · cases h)

theorem ParseLoop_err (pv : List tokenPos → Res (Value × List tokenPos))
    (hpv : ∀ x s e, pv (x :: s) = .err e → ∃ msg, e = .errorString msg) :
    ∀ (k : Nat) (out : List Value) (s : List tokenPos) (e : GoError),
      ParseLoop .EOF pv k out s = .err e → ∃ msg, e = .errorString msg := by
  intro k
  induction k with
  | zero => intro out s e h; simp [ParseLoop] at h
  | succ k ih =>
    intro out s e h
    unfold ParseLoop at h
    split at h
    · simp at h
    · split at h
      · cases h
      · rename_i e2 h2
        split at h
        · cases h
        · cases h
          exact hpv _ _ _ h2
      · exact ih _ _ _ h

/-- On a stream that ended cleanly, every error `Parse` returns is a value
built by `fmt.Errorf`, which wraps nothing: it is never `io.ErrUnexpectedEOF`
itself. -/
theorem Parse_err (ts : List tokenPos) (e : GoError) (h : Parse .EOF ts = .err e) :
    ∃ msg, e = .errorString msg :=
  ParseLoop_err _ (parseValue_err _) _ _ _ _ h

/-! ## The end of the input inside a list -/

/-- A stream `ts` that `ext` completes to an accepted stream, and in which a
list is still open, is rejected: the error is a value built by `fmt.Errorf`
whose message starts with `unexpected EOF`, or with `EOF in object member`
when the colon of a member is missing, which can only be where `ext` starts
with a colon or an opening paren. -/
theorem Parse_truncated_error (ts ext : List tokenPos) (vs : List Value)
    (hacc : Parse .EOF (ts ++ ext) = .ok vs) (hopen : 0 < openDepth ts) :
    ∃ msg, Parse .EOF ts = .err (.errorString msg) ∧ EofErr ext (.errorString msg) := by
  have hsh := ((Parse_ok_iff _ _ _).mp hacc).2
  have hcut := hsh.trunc ts ext (ts.length + 1) (ts.length + 1) [] rfl (by omega) (by omega)
  have hnot : ¬ ∃ vs1, Parse .EOF ts = .ok vs1 := by
    rintro ⟨vs1, h1⟩
    have := ((Parse_ok_iff _ _ _).mp h1).2.openDepth_eq
    omega
  rcases hcut with ⟨e, he, hE⟩ | hok
  · obtain ⟨msg, rfl⟩ := Parse_err ts e he
    exact ⟨msg, he, hE⟩
  · exact absurd hok hnot

/-- The stream `{1` ends where the colon of a member is due: `consumeToken`
passes `io.EOF` on as it is, and the message starts with `EOF`. -/
theorem Parse_truncated_member_key :
    Parse .EOF [⟨TokenLBrace, 1, "\x7b"⟩, ⟨TokenNumber, 2, "1"⟩] =
      .err (.errorString "EOF in object member in object") := rfl

/-- Claim C3, as stated, fails on the stream `[1,2`: the error returned is the
value `fmt.Errorf("%v in array", io.ErrUnexpectedEOF)`, which is not
`io.ErrUnexpectedEOF` and does not wrap it, so `errors.Is` does not find the
sentinel. -/
theorem Parse_truncated_counterexample :
    Parse .EOF [⟨TokenLBrack, 1, "["⟩, ⟨TokenNumber, 2, "1"⟩, ⟨TokenComma, 3, ","⟩,
        ⟨TokenNumber, 4, "2"⟩] = .err (.errorString "unexpected EOF in array") ∧
    errorsIs (.errorString "unexpected EOF in array") .ErrUnexpectedEOF = false :=
  ⟨rfl, by decide⟩

/-- Claim C3, amended.  A truncated input is a stream `ts` that some `ext`
completes to an accepted stream; a list is still open in it when it holds more
opening than closing delimiters.  When the first missing token is neither a
colon nor an opening paren, `Parse` fails on `ts`, and the error is a
formatted message, not the sentinel: the message is `unexpected EOF` followed
by the context of the enclosing productions. -/
theorem Parse_truncated (ts ext : List tokenPos) (vs : List Value)
    (hacc : Parse .EOF (ts ++ ext) = .ok vs) (hopen : 0 < openDepth ts)
    (hcolon : ¬ NextIs TokenColon ext) (hparen : ¬ NextIs TokenLParen ext) :
    ∃ msg ctx, Parse .EOF ts = .err (.errorString msg) ∧
      errorsIs (.errorString msg) .ErrUnexpectedEOF = false ∧
      msg = "unexpected EOF" ++ ctx := by
  obtain ⟨msg, h1, h2⟩ := Parse_truncated_error ts ext vs hacc hopen
  rcases h2 with ⟨ctx, h2⟩ | ⟨-, h3 | h3⟩
  · exact ⟨msg, ctx, h1, by simp [errorsIs], h2⟩
  · exact absurd h3 hcolon
  · exact absurd h3 hparen

/-- Claim C3 at the stream `[1,2`, which `]` completes. -/
theorem Parse_truncated_witness :
    ∃ msg ctx, Parse .EOF [⟨TokenLBrack, 1, "["⟩, ⟨TokenNumber, 2, "1"⟩, ⟨TokenComma, 3, ","⟩,
        ⟨TokenNumber, 4, "2"⟩] = .err (.errorString msg) ∧
      errorsIs (.errorString msg) .ErrUnexpectedEOF = false ∧
      msg = "unexpected EOF" ++ ctx :=
  Parse_truncated
    [⟨TokenLBrack, 1, "["⟩, ⟨TokenNumber, 2, "1"⟩, ⟨TokenComma, 3, ","⟩, ⟨TokenNumber, 4, "2"⟩]
    [⟨TokenRBrack, 5, "]"⟩]
    [.Array 1 [⟨.Number 2 "1", 3⟩, ⟨.Number 4 "2", 0⟩] 5] rfl (by decide)
    (by decide) (by decide)

/-! ## Trailing commas -/

theorem setLast_cons {E : Type} (c : Pos) (x : ListElem E) {l : List (ListElem E)}
    (h : l ≠ []) : setLast c (x :: l) = x :: setLast c l := by
  cases l with
  | nil => exact absurd rfl h
  | cons y ys => rfl

theorem setLastGroup_cons (c : Pos) (g : OperatorArgs) {l : List OperatorArgs}
    (h : l ≠ []) : setLastGroup c (g :: l) = g :: setLastGroup c l := by
  cases l with
  | nil => exact absurd rfl h
  | cons y ys => rfl

theorem Shape.values_nil_iff {l : List (ListElem Value)} {w : List tokenPos}
    (h : Shape (.values l) w) : l = [] ↔ w = [] := by
  cases h with
  | valuesNil => simp
  | valuesLast v w hv =>
    obtain ⟨e, w1, rfl, -⟩ := hv.value_head
    simp
  | valuesCons c v l w w1 hc hv hl => simp

theorem Shape.members_nil_iff {l : List (ListElem Member)} {w : List tokenPos}
    (h : Shape (.members l) w) : l = [] ↔ w = [] := by
  cases h with
  | membersNil => simp
  | membersLast v w hv =>
    obtain ⟨e, w1, rfl, -⟩ := hv.member_head
    simp
  | membersCons c v l w w1 hc hv hl => simp

theorem Shape.groups_nil_iff {gs : List OperatorArgs} {w : List tokenPos}
    (h : Shape (.groups gs) w) : gs = [] ↔ w = [] := by
  cases h with
  | groupsNil => simp
  | groupsCons a gs w w1 ha hgs =>
    cases ha
    simp

theorem Shape.groups_length {gs : List OperatorArgs} {w : List tokenPos}
    (h : Shape (.groups gs) w) : w = [] ∨ 2 ≤ w.length := by
  cases h with
  | groupsNil => exact Or.inl rfl
  | groupsCons a gs w w1 ha hgs =>
    cases ha
    right
    simp
    omega

theorem append_two_split {α : Type} {w w1 init : List α} {p q : α}
    (h : w ++ w1 = init ++ [p, q]) (hlen : 2 ≤ w1.length) :
    ∃ init2, w1 = init2 ++ [p, q] ∧ init = w ++ init2 := by
  rcases List.append_eq_append_iff.mp h with ⟨a1, h1, h2⟩ | ⟨c1, h1, h2⟩
  · exact ⟨a1, h2, h1⟩
  · have h3 := congrArg List.length h2
    simp only [List.length_cons, List.length_nil, List.length_append] at h3
    have h4 : c1 = [] := by
      cases c1 with
      | nil => rfl
      | cons z zs => simp only [List.length_cons] at h3; omega
    subst h4
    exact ⟨[], by simpa using h2.symm, by simpa using h1.symm⟩

theorem Shape.trail {node : Node} {w : List tokenPos} (h : Shape node w) : Trail node w := by
  induction h with
  | null e he | boolFalse e he | boolTrue e he | number e he | string e he =>
    intro init p close c hw
    have := congrArg List.length hw
    simp at this
  | array lb rb l w hl hr hs ih =>
    intro init p close c hw hcl hp hop hc
    have h1 : (lb :: w) ++ [rb] = (init ++ [p]) ++ [close] := by simpa using hw
    obtain ⟨h2, h3⟩ := List.append_inj' h1 rfl
    cases init with
    | nil =>
      simp only [List.nil_append, List.cons.injEq] at h2
      rw [← h2.1, hl] at hop
      cases hop
    | cons x init1 =>
      simp only [List.cons_append, List.cons.injEq] at h2
      obtain ⟨rfl, h2⟩ := h2
      simp only [List.cons.injEq, and_true] at h3
      subst h3
      obtain ⟨h4, h5⟩ := ih init1 p c h2 hp hc
      refine ⟨?_, by simp [withTrailingComma, h5]⟩
      have := Shape.array lb rb _ _ hl hr h4
      simpa [withTrailingComma, h2] using this
  | object lb rb l w hl hr hs ih =>
    intro init p close c hw hcl hp hop hc
    have h1 : (lb :: w) ++ [rb] = (init ++ [p]) ++ [close] := by simpa using hw
    obtain ⟨h2, h3⟩ := List.append_inj' h1 rfl
    cases init with
    | nil =>
      simp only [List.nil_append, List.cons.injEq] at h2
      rw [← h2.1, hl] at hop
      cases hop
    | cons x init1 =>
      simp only [List.cons_append, List.cons.injEq] at h2
      obtain ⟨rfl, h2⟩ := h2
      simp only [List.cons.injEq, and_true] at h3
      subst h3
      obtain ⟨h4, h5⟩ := ih init1 p c h2 hp hc
      refine ⟨?_, by simp [withTrailingComma, h5]⟩
      have := Shape.object lb rb _ _ hl hr h4
      simpa [withTrailingComma, h2] using this
  | operator id gs w hi hs ih =>
    intro init p close c hw hcl hp hop hc
    cases init with
    | nil =>
      simp only [List.nil_append, List.cons.injEq] at hw
      have hlen := congrArg List.length hw.2
      rcases hs.groups_length with h0 | h0
      · rw [h0] at hlen
        simp at hlen
      · rw [hlen] at h0
        simp at h0
    | cons x init1 =>
      simp only [List.cons_append, List.cons.injEq] at hw
      obtain ⟨rfl, hw⟩ := hw
      obtain ⟨h4, h5⟩ := ih init1 p close c hw hp hop hc
      refine ⟨?_, by simp [withTrailingComma, h5]⟩
      have := Shape.operator id _ _ hi h4
      simpa [withTrailingComma] using this
  | member c k v wk wv hc hk hv ihk ihv => trivial
  | args lp rp l w hl hr hs ih =>
    intro init p close c hw hp hop hc
    have h1 : (lp :: w) ++ [rp] = (init ++ [p]) ++ [close] := by simpa using hw
    obtain ⟨h2, h3⟩ := List.append_inj' h1 rfl
    cases init with
    | nil =>
      simp only [List.nil_append, List.cons.injEq] at h2
      rw [← h2.1, hl] at hop
      cases hop
    | cons x init1 =>
      simp only [List.cons_append, List.cons.injEq] at h2
      obtain ⟨rfl, h2⟩ := h2
      simp only [List.cons.injEq, and_true] at h3
      subst h3
      obtain ⟨h4, h5⟩ := ih init1 p c h2 hp hc
      refine ⟨?_, by simp [OperatorArgs.setLast, h5]⟩
      have := Shape.args lp rp _ _ hl hr h4
      simpa [OperatorArgs.setLast, h2] using this
  | groupsNil =>
    intro init p close c hw
    have := congrArg List.length hw
    simp at this
  | groupsCons a gs w w1 ha hgs iha ihgs =>
    intro init p close c hw hp hop hc
    by_cases hg : gs = []
    · subst hg
      have hw1 : w1 = [] := hgs.groups_nil_iff.mp rfl
      subst hw1
      simp only [List.append_nil] at hw
      obtain ⟨h4, h5⟩ := iha init p close c hw hp hop hc
      refine ⟨?_, by simp [setLastGroup, h5]⟩
      have := Shape.groupsCons _ [] _ [] h4 Shape.groupsNil
      simpa [setLastGroup] using this
    · have hlen : 2 ≤ w1.length := by
        cases hgs with
        | groupsNil => exact absurd rfl hg
        | groupsCons a2 gs2 w2 w3 ha2 hgs2 =>
          cases ha2
          simp
          omega
      obtain ⟨init2, h1, h2⟩ := append_two_split hw hlen
      obtain ⟨h4, h5⟩ := ihgs init2 p close c h1 hp hop hc
      refine ⟨?_, by rw [setLastGroup_cons _ _ hg, h5]⟩
      rw [setLastGroup_cons _ _ hg, h2, List.append_assoc]
      exact Shape.groupsCons a _ w _ ha h4
  | valuesNil =>
    intro init p c hw
    have := congrArg List.length hw
    simp at this
  | valuesLast v w hv ih =>
    intro init p c hw hp hc
    refine ⟨?_, rfl⟩
    have := Shape.valuesCons c v [] w [] hc hv Shape.valuesNil
    simpa [setLast] using this
  | valuesCons c0 v l w w1 hc0 hv hl ihv ihl =>
    intro init p c hw hp hc
    have hw1 : w1 ≠ [] := by
      rintro rfl
      have h1 : (w ++ []) ++ [c0] = init ++ [p] := by simpa using hw
      obtain ⟨-, h3⟩ := List.append_inj' h1 rfl
      simp only [List.cons.injEq, and_true] at h3
      rw [← h3] at hp
      exact hp hc0
    have hl1 : l ≠ [] := fun h0 => hw1 (hl.values_nil_iff.mp h0)
    obtain ⟨L, b, hLb⟩ : ∃ L b, w1 = L ++ [b] := by
      rcases List.eq_nil_or_concat w1 with h0 | ⟨L, b, h0⟩
      · exact absurd h0 hw1
      · exact ⟨L, b, by simpa using h0⟩
    have hb : b = p := by
      have h1 : (w ++ c0 :: L) ++ [b] = init ++ [p] := by simpa [hLb] using hw
      obtain ⟨-, h3⟩ := List.append_inj' h1 rfl
      simpa using h3
    subst hb
    obtain ⟨h4, h5⟩ := ihl L b c hLb hp hc
    refine ⟨?_, by rw [setLast_cons _ _ hl1, h5]⟩
    rw [setLast_cons _ _ hl1]
    have := Shape.valuesCons c0 v _ w _ hc0 hv h4
    simpa using this
  | membersNil =>
    intro init p c hw
    have := congrArg List.length hw
    simp at this
  | membersLast v w hv ih =>
    intro init p c hw hp hc
    refine ⟨?_, rfl⟩
    have := Shape.membersCons c v [] w [] hc hv Shape.membersNil
    simpa [setLast] using this
  | membersCons c0 v l w w1 hc0 hv hl ihv ihl =>
    intro init p c hw hp hc
    have hw1 : w1 ≠ [] := by
      rintro rfl
      have h1 : (w ++ []) ++ [c0] = init ++ [p] := by simpa using hw
      obtain ⟨-, h3⟩ := List.append_inj' h1 rfl
      simp only [List.cons.injEq, and_true] at h3
      rw [← h3] at hp
      exact hp hc0
    have hl1 : l ≠ [] := fun h0 => hw1 (hl.members_nil_iff.mp h0)
    obtain ⟨L, b, hLb⟩ : ∃ L b, w1 = L ++ [b] := by
      rcases List.eq_nil_or_concat w1 with h0 | ⟨L, b, h0⟩
      · exact absurd h0 hw1
      · exact ⟨L, b, by simpa using h0⟩
    have hb : b = p := by
      have h1 : (w ++ c0 :: L) ++ [b] = init ++ [p] := by simpa [hLb] using hw
      obtain ⟨-, h3⟩ := List.append_inj' h1 rfl
      simpa using h3
    subst hb
    obtain ⟨h4, h5⟩ := ihl L b c hLb hp hc
    refine ⟨?_, by rw [setLast_cons _ _ hl1, h5]⟩
    rw [setLast_cons _ _ hl1]
    have := Shape.membersCons c0 v _ w _ hc0 hv h4
    simpa using this
  | topNil => trivial
  | topCons v vs w w1 hv ht ihv iht => trivial

theorem Shape.top_single {v : Value} {w : List tokenPos} :
    Shape (.top [v]) w ↔ Shape (.value v) w := by
  constructor
  · intro h
    cases h with
    | topCons v vs w w1 hv ht =>
      cases ht
      simpa using hv
  · intro h
    simpa using Shape.topCons v [] w [] h Shape.topNil

/-- Claim C4: let `Parse` accept a stream as one value whose last token is a
closing bracket, brace or paren, the token before it being neither an opening
delimiter (the list is not empty) nor a comma (no trailing comma yet).  With
a comma inserted before the closing delimiter the stream is accepted too, and
the result is the same value except that the last `ListElem` of the list
records the position of that comma, where it recorded none before. -/
theorem Parse_trailing_comma (init : List tokenPos) (p close c : tokenPos) (v : Value)
    (hclose : closer close.Token = true) (hp : p.Token ≠ TokenComma)
    (hopen : opener p.Token = false) (hc : c.Token = TokenComma)
    (h : Parse .EOF (init ++ [p, close]) = .ok [v]) :
    Parse .EOF (init ++ [p, c, close]) = .ok [withTrailingComma c.Pos v] ∧
      withTrailingComma NoPos v = v := by
  have hsh := Shape.top_single.mp ((Parse_ok_iff _ _ _).mp h).2
  obtain ⟨h1, h2⟩ := hsh.trail init p close c rfl hclose hp hopen hc
  exact ⟨(Parse_ok_iff _ _ _).mpr ⟨rfl, Shape.top_single.mpr h1⟩, h2⟩

/-- Claim C4 at the stream `f([1,2])`, with a comma put before its last
paren. -/
theorem Parse_trailing_comma_witness :
    Parse .EOF [⟨TokenIdent, 1, "f"⟩, ⟨TokenLParen, 2, "("⟩, ⟨TokenLBrack, 3, "["⟩,
        ⟨TokenNumber, 4, "1"⟩, ⟨TokenComma, 5, ","⟩, ⟨TokenNumber, 6, "2"⟩,
        ⟨TokenRBrack, 7, "]"⟩, ⟨TokenComma, 8, ","⟩, ⟨TokenRParen, 9, ")"⟩] =
      .ok [.Operator ⟨1, "f"⟩
        [.mk 2 [⟨.Array 3 [⟨.Number 4 "1", 5⟩, ⟨.Number 6 "2", 0⟩] 7, 8⟩] 9]] :=
  (Parse_trailing_comma
    [⟨TokenIdent, 1, "f"⟩, ⟨TokenLParen, 2, "("⟩, ⟨TokenLBrack, 3, "["⟩,
      ⟨TokenNumber, 4, "1"⟩, ⟨TokenComma, 5, ","⟩, ⟨TokenNumber, 6, "2"⟩]
    ⟨TokenRBrack, 7, "]"⟩ ⟨TokenRParen, 9, ")"⟩ ⟨TokenComma, 8, ","⟩
    (.Operator ⟨1, "f"⟩ [.mk 2 [⟨.Array 3 [⟨.Number 4 "1", 5⟩, ⟨.Number 6 "2", 0⟩] 7, 0⟩] 9])
    rfl (by decide) rfl rfl rfl).1

/-! ## A comma after an opening delimiter -/

theorem endsOpen_append (p : Bool) (x y : List tokenPos) :
    endsOpen p (x ++ y) = endsOpen (endsOpen p x) y := by
  induction x generalizing p with
  | nil => rfl
  | cons e rest ih => exact ih _

theorem commaAfterOpen_append (p : Bool) (x y : List tokenPos) :
    commaAfterOpen p (x ++ y) = (commaAfterOpen p x || commaAfterOpen (endsOpen p x) y) := by
  induction x generalizing p with
  | nil => simp [commaAfterOpen, endsOpen]
  | cons e rest ih =>
    show (_ || commaAfterOpen _ (rest ++ y)) =
      ((_ || commaAfterOpen _ rest) || commaAfterOpen (endsOpen _ rest) y)
    rw [ih, Bool.or_assoc]

theorem commaAfterOpen_single {e : tokenPos} (p : Bool) (h : e.Token ≠ TokenComma) :
    commaAfterOpen p [e] = false := by
  simp [commaAfterOpen, h]

/-- No token sequence the parser accepts has a comma right after an opening
delimiter, and none ends with an opening delimiter. -/
theorem Shape.no_commaAfterOpen {node : Node} {w : List tokenPos} (h : Shape node w) :
    ∀ p, commaAfterOpen p w = false ∧ (w ≠ [] → endsOpen p w = false) := by
  induction h with
  | null e he | boolFalse e he | boolTrue e he | number e he | string e he =>
    intro p
    simp [commaAfterOpen, endsOpen, he, opener]
  | array lb rb l w hl hr hs ih | object lb rb l w hl hr hs ih | args lb rb l w hl hr hs ih =>
    intro p
    have h1 : lb :: (w ++ [rb]) = [lb] ++ (w ++ [rb]) := rfl
    rw [h1]
    simp only [commaAfterOpen_append, endsOpen_append]
    simp [commaAfterOpen, endsOpen, hl, hr, opener, (ih true).1]
  | operator id gs w hi hs ih =>
    intro p
    have h1 : id :: w = [id] ++ w := rfl
    rw [h1]
    simp only [commaAfterOpen_append, endsOpen_append]
    simp only [commaAfterOpen, endsOpen, hi, opener, (ih false).1]
    refine ⟨by simp, fun _ => ?_⟩
    by_cases hw : w = []
    · subst hw; rfl
    · exact (ih false).2 hw
  | member c k v wk wv hc hk hv ihk ihv =>
    intro p
    have h1 : wk ++ c :: wv = wk ++ ([c] ++ wv) := rfl
    have hv0 : wv ≠ [] := by
      obtain ⟨e, w1, rfl, -⟩ := hv.value_head
      simp
    rw [h1]
    simp only [commaAfterOpen_append, endsOpen_append]
    simp [commaAfterOpen, endsOpen, hc, opener, (ihk p).1, (ihv false).1, (ihv false).2 hv0]
  | groupsNil | valuesNil | membersNil | topNil =>
    intro p
    simp [commaAfterOpen]
  | groupsCons a gs w w1 ha hgs iha ihgs | topCons a gs w w1 ha hgs iha ihgs =>
    intro p
    have hw : w ≠ [] := by
      cases ha <;> simp
    simp only [commaAfterOpen_append, endsOpen_append, (iha p).1, (iha p).2 hw, (ihgs false).1]
    refine ⟨by simp, fun _ => ?_⟩
    by_cases hw1 : w1 = []
    · subst hw1; rfl
    · exact (ihgs false).2 hw1
  | valuesLast v w hv ih | membersLast v w hv ih => exact ih
  | valuesCons c v l w w1 hc hv hl ihv ihl | membersCons c v l w w1 hc hv hl ihv ihl =>
    intro p
    have h1 : w ++ c :: w1 = w ++ ([c] ++ w1) := rfl
    have hw : w ≠ [] := by
      first
        | (obtain ⟨e, w2, rfl, -⟩ := hv.value_head
           simp)
        | (obtain ⟨e, w2, rfl, -⟩ := hv.member_head
           simp)
    rw [h1]
    simp only [commaAfterOpen_append, endsOpen_append]
    simp only [commaAfterOpen, endsOpen, hc, opener, (ihv p).1, (ihv p).2 hw, (ihl false).1]
    refine ⟨by simp, fun _ => ?_⟩
    by_cases hw1 : w1 = []
    · subst hw1; rfl
    · exact (ihl false).2 hw1

/-- Claim C5: a stream in which an opening bracket, brace or paren is directly
followed by a comma is rejected with an error, whatever precedes or follows
the two tokens and however the stream ends. -/
theorem Parse_comma_after_open (fin : GoError) (a b : List tokenPos) (o c : tokenPos)
    (ho : opener o.Token = true) (hc : c.Token = TokenComma) :
    ∃ e, Parse fin (a ++ o :: c :: b) = .err e := by
  rcases Parse_cases fin (a ++ o :: c :: b) with ⟨vs, h⟩ | h
  · exfalso
    have h1 := (((Parse_ok_iff _ _ _).mp h).2.no_commaAfterOpen false).1
    rw [commaAfterOpen_append] at h1
    simp [commaAfterOpen, ho, hc] at h1
  · exact h

/-- Claim C5 at the stream `f(,1)`. -/
theorem Parse_comma_after_open_witness :
    ∃ e, Parse .EOF [⟨TokenIdent, 1, "f"⟩, ⟨TokenLParen, 2, "("⟩, ⟨TokenComma, 3, ","⟩,
      ⟨TokenNumber, 4, "1"⟩, ⟨TokenRParen, 5, ")"⟩] = .err e :=
  Parse_comma_after_open .EOF [⟨TokenIdent, 1, "f"⟩] [⟨TokenNumber, 4, "1"⟩, ⟨TokenRParen, 5, ")"⟩]
    ⟨TokenLParen, 2, "("⟩ ⟨TokenComma, 3, ","⟩ rfl rfl

/-! ## Call groups and member keys -/

theorem Matches.callGroup_shape {g : List tokenPos} (h : Matches codeProd callGroup g) :
    ∃ a, Shape (.args a) g ∧ g.head?.map tokenPos.Pos = some a.LParen := by
  have h1 := Matches.sem h
  simp only [callGroup, Sem] at h1
  obtain ⟨x, y, rfl, ⟨lp, rfl, hlp⟩, y1, y2, rfl, hl, ⟨rp, rfl, hrp⟩⟩ := h1
  obtain ⟨l, hl⟩ := Seq.values hl
  exact ⟨_, Shape.args lp rp l y1 hlp hrp hl, rfl⟩

theorem Matches.callGroups_shape (groups : List (List tokenPos))
    (h : ∀ g ∈ groups, Matches codeProd callGroup g) :
    ∃ args, Shape (.groups args) groups.flatten ∧
      List.Forall₂ (fun a g => Shape (.args a) g ∧ g.head?.map tokenPos.Pos = some a.LParen)
        args groups := by
  induction groups with
  | nil => exact ⟨[], Shape.groupsNil, List.Forall₂.nil⟩
  | cons g rest ih =>
    obtain ⟨args, h1, h2⟩ := ih (fun x hx => h x (List.mem_cons_of_mem _ hx))
    obtain ⟨a, ha, hp⟩ := Matches.callGroup_shape (h g (List.mem_cons_self _ _))
    exact ⟨a :: args, by simpa using Shape.groupsCons a args g _ ha h1,
      List.Forall₂.cons ⟨ha, hp⟩ h2⟩

/-- Claim C6: after an identifier token, `n` well-formed parenthesized argument
lists (each derivable from `'(' List(Value) ')'`, a lone comma not being a
list) and then the end of the input or a token other than `(`, `parseOperator`
returns an `Operator` whose `Id` is that identifier and whose `Args` holds
exactly `n` `OperatorArgs`, the i-th built from the i-th list; the result is
an `Operator` also when `n` is 0, never an `Ident` node. -/
theorem parseOperator_groups (fin : GoError) (id : tokenPos) (groups : List (List tokenPos))
    (rest : List tokenPos) (n : Nat)
    (hid : id.Token = TokenIdent)
    (hwf : ∀ g ∈ groups, Matches codeProd callGroup g)
    (hrest : ¬ NextIs TokenLParen rest) (hend : rest = [] → fin = .EOF)
    (hn : (id :: groups.flatten).length ≤ n) :
    ∃ args, parseOperator fin n (parseValue fin n) (id :: (groups.flatten ++ rest)) =
        .ok (.Operator ⟨id.Pos, id.Text⟩ args, rest) ∧
      args.length = groups.length ∧
      List.Forall₂ (fun a g => Shape (.args a) g ∧ g.head?.map tokenPos.Pos = some a.LParen)
        args groups ∧
      ∀ i, Value.Operator ⟨id.Pos, id.Text⟩ args ≠ Value.Ident i := by
  obtain ⟨args, h1, h2⟩ := Matches.callGroups_shape groups hwf
  refine ⟨args, ?_, h2.length_eq, h2, fun i h => by cases h⟩
  simp only [List.length_cons] at hn
  have h3 := h1.complete fin n n n [] rest (by omega) (by omega) (by omega) ⟨hrest, hend⟩
  simp only [List.nil_append] at h3
  simp [parseOperator, parseIdent, hid, h3]

/-- Claim C6 at the streams `foo`, `foo()` and `foo()()`: 0, 1 and 2 groups. -/
theorem parseOperator_groups_witness :
    (∃ args, parseOperator .EOF 1 (parseValue .EOF 1) [⟨TokenIdent, 1, "foo"⟩] =
        .ok (.Operator ⟨1, "foo"⟩ args, []) ∧ args.length = 0) ∧
    parseOperator .EOF 3 (parseValue .EOF 3)
        [⟨TokenIdent, 1, "foo"⟩, ⟨TokenLParen, 2, "("⟩, ⟨TokenRParen, 3, ")"⟩] =
      .ok (.Operator ⟨1, "foo"⟩ [.mk 2 [] 3], []) ∧
    parseOperator .EOF 5 (parseValue .EOF 5)
        [⟨TokenIdent, 1, "foo"⟩, ⟨TokenLParen, 2, "("⟩, ⟨TokenRParen, 3, ")"⟩,
          ⟨TokenLParen, 4, "("⟩, ⟨TokenRParen, 5, ")"⟩] =
      .ok (.Operator ⟨1, "foo"⟩ [.mk 2 [] 3, .mk 4 [] 5], []) := by
  refine ⟨?_, rfl, rfl⟩
  obtain ⟨args, h1, h2, -⟩ := parseOperator_groups .EOF ⟨TokenIdent, 1, "foo"⟩ [] [] 1 rfl
    (by simp) (by simp [NextIs]) (fun _ => rfl) (by simp)
  exact ⟨args, h1, h2⟩

/-- Claim C7: when the streams `k` and `v` each parse to exactly one value,
the stream `{ k : v }` parses to one `Object` with a single `Member` whose
`Key` is the value of `k` and whose `Value` is the value of `v`, whatever kind
of value the key is. -/
theorem Parse_member_key (k v : List tokenPos) (kv vv : Value) (lb colon rb : tokenPos)
    (hlb : lb.Token = TokenLBrace) (hcolon : colon.Token = TokenColon)
    (hrb : rb.Token = TokenRBrace)
    (hk : Parse .EOF k = .ok [kv]) (hv : Parse .EOF v = .ok [vv]) :
    Parse .EOF (lb :: (k ++ colon :: (v ++ [rb]))) =
      .ok [.Object lb.Pos [⟨.mk kv colon.Pos vv, 0⟩] rb.Pos] := by
  have h1 := Shape.top_single.mp ((Parse_ok_iff _ _ _).mp hk).2
  have h2 := Shape.top_single.mp ((Parse_ok_iff _ _ _).mp hv).2
  have h3 := Shape.object lb rb _ _ hlb hrb
    (Shape.membersLast _ _ (Shape.member colon kv vv k v hcolon h1 h2))
  have h4 := (Parse_ok_iff .EOF _ _).mpr ⟨rfl, Shape.top_single.mpr h3⟩
  simpa using h4

/-- Claim C7 at the stream `{ [1] : f() }`, whose key is an array. -/
theorem Parse_member_key_witness :
    Parse .EOF [⟨TokenLBrace, 1, "\x7b"⟩, ⟨TokenLBrack, 2, "["⟩, ⟨TokenNumber, 3, "1"⟩,
        ⟨TokenRBrack, 4, "]"⟩, ⟨TokenColon, 5, ":"⟩, ⟨TokenIdent, 6, "f"⟩,
        ⟨TokenLParen, 7, "("⟩, ⟨TokenRParen, 8, ")"⟩, ⟨TokenRBrace, 9, "\x7d"⟩] =
      .ok [.Object 1 [⟨.mk (.Array 2 [⟨.Number 3 "1", 0⟩] 4) 5
        (.Operator ⟨6, "f"⟩ [.mk 7 [] 8]), 0⟩] 9] :=
  Parse_member_key
    [⟨TokenLBrack, 2, "["⟩, ⟨TokenNumber, 3, "1"⟩, ⟨TokenRBrack, 4, "]"⟩]
    [⟨TokenIdent, 6, "f"⟩, ⟨TokenLParen, 7, "("⟩, ⟨TokenRParen, 8, ")"⟩]
    (.Array 2 [⟨.Number 3 "1", 0⟩] 4) (.Operator ⟨6, "f"⟩ [.mk 7 [] 8])
    ⟨TokenLBrace, 1, "\x7b"⟩ ⟨TokenColon, 5, ":"⟩ ⟨TokenRBrace, 9, "\x7d"⟩ rfl rfl rfl rfl rfl

/-! ## Decoding -/

theorem Decode_ok_shape {F : Type} {cv : Conv F} {a : List tokenPos} {d : DValue F}
    (h : Decode cv .EOF a = .ok (d, [])) :
    ∃ v, Shape (.value v) a ∧ decodeValue cv v = .ok d := by
  unfold Decode at h
  split at h
  · simp at h
  · split at h
    · cases h
    · cases h
    · rename_i v rest hv
      split at h
      · rename_i d1 hd
        cases h
        obtain ⟨w, hw, hs, -⟩ := parseValue_sound .EOF _ _ _ _ hv
        simp only [List.append_nil] at hw
        rw [hw]
        exact ⟨v, hs, hd⟩
      · cases h

theorem Decode_of_shape {F : Type} (cv : Conv F) {a : List tokenPos} {v : Value}
    {d : DValue F} (hs : Shape (.value v) a) (hd : decodeValue cv v = .ok d) :
    Decode cv .EOF a = .ok (d, []) := by
  have h1 := hs.complete .EOF (a.length + 1) [] (by omega)
    (fun _ => ⟨by simp [NextIs], fun _ => rfl⟩)
  simp only [List.append_nil] at h1
  obtain ⟨e, w1, rfl, -⟩ := hs.value_head
  simp only [Decode, h1, hd]

theorem commaList_shape {F : Type} (cv : Conv F) (items : List (List tokenPos × tokenPos))
    (ds : List (DValue F))
    (h : List.Forall₂ (fun it d => it.2.Token = TokenComma ∧ Decode cv .EOF it.1 = .ok (d, []))
      items ds)
    (tl : List tokenPos) (lt : List (ListElem Value)) (dt : List (DValue F))
    (hs : Shape (.values lt) tl) (hd : decodeElems cv lt = .ok dt) :
    ∃ l, Shape (.values l) (commaList items ++ tl) ∧ decodeElems cv l = .ok (ds ++ dt) := by
  induction h with
  | nil => exact ⟨lt, by simpa [commaList] using hs, by simpa using hd⟩
  | @cons it d its ds1 hx _ ih =>
    obtain ⟨l, hl, hdl⟩ := ih
    obtain ⟨v, hv, hdv⟩ := Decode_ok_shape hx.2
    obtain ⟨a, c⟩ := it
    refine ⟨⟨v, c.Pos⟩ :: l, ?_, ?_⟩
    · have := Shape.valuesCons c v l a _ hx.1 hv hl
      simpa [commaList] using this
    · simp [decodeElems, hdv, hdl]

theorem last_shape {F : Type} (cv : Conv F) {a : List tokenPos} {d : DValue F}
    (h : Decode cv .EOF a = .ok (d, [])) :
    ∃ lt, Shape (.values lt) a ∧ decodeElems cv lt = .ok [d] := by
  obtain ⟨v, hv, hdv⟩ := Decode_ok_shape h
  exact ⟨[⟨v, 0⟩], Shape.valuesLast v a hv, by simp [decodeElems, hdv]⟩

/-- Claim C8 (on the decoder as the specification describes it): for an
identifier `x`, the stream `x()` decodes to the operator value with id `x` and
no arguments, the stream `x(a1,...,an)`, with or without a comma after `an`,
to the operator value with id `x` and the decoded `a1..an` in order, and the
bare `x` to the identifier value `x`, which is not an operator value. -/
theorem Decode_operator {F : Type} (cv : Conv F) (x lp rp : tokenPos)
    (hx : x.Token = TokenIdent) (hlp : lp.Token = TokenLParen) (hrp : rp.Token = TokenRParen)
    (items : List (List tokenPos × tokenPos)) (ds : List (DValue F))
    (h : List.Forall₂ (fun it d => it.2.Token = TokenComma ∧ Decode cv .EOF it.1 = .ok (d, []))
      items ds) :
    Decode cv .EOF [x, lp, rp] = .ok (.op x.Text [], []) ∧
    Decode cv .EOF (x :: lp :: (commaList items ++ [rp])) = .ok (.op x.Text ds, []) ∧
    (∀ last dl, Decode cv .EOF last = .ok (dl, []) →
      Decode cv .EOF (x :: lp :: (commaList items ++ last ++ [rp])) =
        .ok (.op x.Text (ds ++ [dl]), [])) ∧
    Decode cv .EOF [x] = .ok (.id x.Text, []) ∧
    (DValue.id x.Text : DValue F) ≠ .op x.Text [] := by
  have key : ∀ (body : List tokenPos) (l : List (ListElem Value)) (dl : List (DValue F)),
      Shape (.values l) body → decodeElems cv l = .ok dl →
      Decode cv .EOF (x :: lp :: (body ++ [rp])) = .ok (.op x.Text dl, []) := by
    intro body l dl hs hd
    have h1 := Shape.operator x _ _ hx
      (Shape.groupsCons _ [] _ [] (Shape.args lp rp l body hlp hrp hs) Shape.groupsNil)
    have h2 := Decode_of_shape cv h1 (d := .op x.Text dl)
      (by simp [decodeValue, decodeArgs, hd])
    simpa using h2
  refine ⟨?_, ?_, ?_, ?_, fun hne => by cases hne⟩
  · have := key [] [] [] Shape.valuesNil rfl
    simpa using this
  · obtain ⟨l, hl, hdl⟩ := commaList_shape cv items ds h [] [] [] Shape.valuesNil rfl
    have := key _ l _ hl hdl
    simpa using this
  · intro last dl hlast
    obtain ⟨lt, hlt, hdt⟩ := last_shape cv hlast
    obtain ⟨l, hl, hdl⟩ := commaList_shape cv items ds h last lt [dl] hlt hdt
    exact key _ l _ hl hdl
  · have := Decode_of_shape cv (Shape.operator x [] [] hx Shape.groupsNil)
      (d := (.id x.Text : DValue F)) (by simp [decodeValue])
    simpa using this

/-- Claim C8 at the streams `add()`, `add(1,)`, `add(1,2)` and `add`. -/
theorem Decode_operator_witness :
    Decode textConv .EOF
        [⟨TokenIdent, 1, "add"⟩, ⟨TokenLParen, 2, "("⟩, ⟨TokenRParen, 9, ")"⟩] =
      .ok (.op "add" [], []) ∧
    Decode textConv .EOF
        [⟨TokenIdent, 1, "add"⟩, ⟨TokenLParen, 2, "("⟩, ⟨TokenNumber, 3, "1"⟩,
          ⟨TokenComma, 4, ","⟩, ⟨TokenRParen, 9, ")"⟩] =
      .ok (.op "add" [.number "1"], []) ∧
    Decode textConv .EOF
        [⟨TokenIdent, 1, "add"⟩, ⟨TokenLParen, 2, "("⟩, ⟨TokenNumber, 3, "1"⟩,
          ⟨TokenComma, 4, ","⟩, ⟨TokenNumber, 5, "2"⟩, ⟨TokenRParen, 9, ")"⟩] =
      .ok (.op "add" [.number "1", .number "2"], []) ∧
    Decode textConv .EOF [⟨TokenIdent, 1, "add"⟩] = .ok (.id "add", []) := by
  have h := Decode_operator textConv ⟨TokenIdent, 1, "add"⟩ ⟨TokenLParen, 2, "("⟩
    ⟨TokenRParen, 9, ")"⟩ rfl rfl rfl
    [([⟨TokenNumber, 3, "1"⟩], ⟨TokenComma, 4, ","⟩)] [.number "1"]
    (List.Forall₂.cons ⟨rfl, rfl⟩ List.Forall₂.nil)
  exact ⟨h.1, h.2.1, h.2.2.1 [⟨TokenNumber, 5, "2"⟩] (.number "2") rfl, h.2.2.2.1⟩

/-- Claim C9 (on the decoder as the specification describes it): the stream
`[]` decodes to a list value with no element and the stream `{}` to a map
value with no entry, wherever the two tokens stand in the source; neither is
null, and neither is an error. -/
theorem Decode_empty {F : Type} (cv : Conv F) (p q : Pos) (s t : String) :
    Decode cv .EOF [⟨TokenLBrack, p, s⟩, ⟨TokenRBrack, q, t⟩] = .ok (.list [], []) ∧
    Decode cv .EOF [⟨TokenLBrace, p, s⟩, ⟨TokenRBrace, q, t⟩] = .ok (.map [], []) ∧
    (DValue.list [] : DValue F) ≠ .null ∧ (DValue.map [] : DValue F) ≠ .null := by
  refine ⟨?_, ?_, fun h => (by cases h), fun h => (by cases h)⟩
  · have := Decode_of_shape cv
      (Shape.array ⟨TokenLBrack, p, s⟩ ⟨TokenRBrack, q, t⟩ [] [] rfl rfl Shape.valuesNil)
      (d := (.list [] : DValue F)) (by simp [decodeValue, decodeElems])
    simpa using this
  · have := Decode_of_shape cv
      (Shape.object ⟨TokenLBrace, p, s⟩ ⟨TokenRBrace, q, t⟩ [] [] rfl rfl Shape.membersNil)
      (d := (.map [] : DValue F)) (by simp [decodeValue, decodeMembers])
    simpa using this

theorem commaList_append_last (items : List (List tokenPos × tokenPos))
    (last : List tokenPos) (c : tokenPos) :
    commaList (items ++ [(last, c)]) = commaList items ++ last ++ [c] := by
  induction items with
  | nil => simp [commaList]
  | cons it rest ih =>
    obtain ⟨a, c1⟩ := it
    simp [commaList, ih]

/-- Claim C10 (on the decoder as the specification describes it): an array
whose elements `e1..en` each decode, written with or without a comma after
`en`, decodes to the list of the `n` decoded values in order; the comma after
`en` adds no element. -/
theorem Decode_array {F : Type} (cv : Conv F) (lb rb : tokenPos)
    (hlb : lb.Token = TokenLBrack) (hrb : rb.Token = TokenRBrack)
    (items : List (List tokenPos × tokenPos)) (ds : List (DValue F))
    (h : List.Forall₂ (fun it d => it.2.Token = TokenComma ∧ Decode cv .EOF it.1 = .ok (d, []))
      items ds)
    (last : List tokenPos) (dl : DValue F) (hlast : Decode cv .EOF last = .ok (dl, []))
    (c : tokenPos) (hc : c.Token = TokenComma) :
    Decode cv .EOF (lb :: (commaList items ++ last ++ [rb])) = .ok (.list (ds ++ [dl]), []) ∧
    Decode cv .EOF (lb :: (commaList items ++ last ++ [c, rb])) =
      .ok (.list (ds ++ [dl]), []) ∧
    (ds ++ [dl]).length = items.length + 1 := by
  have key : ∀ (body : List tokenPos) (l : List (ListElem Value)) (dl : List (DValue F)),
      Shape (.values l) body → decodeElems cv l = .ok dl →
      Decode cv .EOF (lb :: (body ++ [rb])) = .ok (.list dl, []) := by
    intro body l dl hs hd
    exact Decode_of_shape cv (Shape.array lb rb l body hlb hrb hs) (by simp [decodeValue, hd])
  refine ⟨?_, ?_, by simp [h.length_eq]⟩
  · obtain ⟨lt, hlt, hdt⟩ := last_shape cv hlast
    obtain ⟨l, hl, hdl⟩ := commaList_shape cv items ds h last lt [dl] hlt hdt
    exact key _ l _ hl hdl
  · have h2 : List.Forall₂
        (fun it d => it.2.Token = TokenComma ∧ Decode cv .EOF it.1 = .ok (d, []))
        (items ++ [(last, c)]) (ds ++ [dl]) :=
      List.rel_append h (List.Forall₂.cons ⟨hc, hlast⟩ List.Forall₂.nil)
    obtain ⟨l, hl, hdl⟩ := commaList_shape cv _ _ h2 [] [] [] Shape.valuesNil rfl
    have h3 := key _ l _ hl hdl
    rw [commaList_append_last] at h3
    simpa using h3

/-- Claim C10 at the streams `[null, id, add(1)]` and `[null, id, add(1),]`. -/
theorem Decode_array_witness :
    Decode textConv .EOF
        [⟨TokenLBrack, 1, "["⟩, ⟨TokenNull, 2, "null"⟩, ⟨TokenComma, 3, ","⟩,
          ⟨TokenIdent, 4, "id"⟩, ⟨TokenComma, 5, ","⟩, ⟨TokenIdent, 6, "add"⟩,
          ⟨TokenLParen, 7, "("⟩, ⟨TokenNumber, 8, "1"⟩, ⟨TokenRParen, 9, ")"⟩,
          ⟨TokenRBrack, 11, "]"⟩] =
      .ok (.list [.null, .id "id", .op "add" [.number "1"]], []) ∧
    Decode textConv .EOF
        [⟨TokenLBrack, 1, "["⟩, ⟨TokenNull, 2, "null"⟩, ⟨TokenComma, 3, ","⟩,
          ⟨TokenIdent, 4, "id"⟩, ⟨TokenComma, 5, ","⟩, ⟨TokenIdent, 6, "add"⟩,
          ⟨TokenLParen, 7, "("⟩, ⟨TokenNumber, 8, "1"⟩, ⟨TokenRParen, 9, ")"⟩,
          ⟨TokenComma, 10, ","⟩, ⟨TokenRBrack, 11, "]"⟩] =
      .ok (.list [.null, .id "id", .op "add" [.number "1"]], []) := by
  have h := Decode_array textConv ⟨TokenLBrack, 1, "["⟩ ⟨TokenRBrack, 11, "]"⟩ rfl rfl
    [([⟨TokenNull, 2, "null"⟩], ⟨TokenComma, 3, ","⟩),
      ([⟨TokenIdent, 4, "id"⟩], ⟨TokenComma, 5, ","⟩)]
    [.null, .id "id"]
    (List.Forall₂.cons ⟨rfl, rfl⟩ (List.Forall₂.cons ⟨rfl, rfl⟩ List.Forall₂.nil))
    [⟨TokenIdent, 6, "add"⟩, ⟨TokenLParen, 7, "("⟩, ⟨TokenNumber, 8, "1"⟩,
      ⟨TokenRParen, 9, ")"⟩] (.op "add" [.number "1"]) rfl ⟨TokenComma, 10, ","⟩ rfl
  exact ⟨h.1, h.2.1⟩

/-! ## A token that cannot begin a value -/

/-- The body of `parseValue` with the reader kept returns what `parseValue`
returns, when the four methods it hands over to do. -/
theorem parseValueBody_res (fin : GoError) (n : Nat)
    (pO pA pOp pS : List tokenPos → Run Value)
    (hO : ∀ s, (pO s).res = parseObject fin n (parseValue fin n) s)
    (hA : ∀ s, (pA s).res = parseArray fin n (parseValue fin n) s)
    (hOp : ∀ s, (pOp s).res = parseOperator fin n (parseValue fin n) s)
    (hS : ∀ s, (pS s).res = parseString fin s) (s : List tokenPos) :
    (parseValueBody fin pO pA pOp pS s).res = parseValue fin (n + 1) s := by
  unfold parseValueBody parseValue
  split
  · rfl
  · split <;> simp_all

/-- Claim C11: where the next token is a colon, a comma or a closing paren,
brace or bracket, `parseValue` fails with the message
`unexpected token <Name> at beginning of Value`, `<Name>` being the `String()`
name of the kind, and the reader still holds every token, that one included;
`Parse` fails with the same message when the token is the first of the
stream. -/
theorem parseValue_unexpected_token (fin : GoError) (e : tokenPos) (rest : List tokenPos)
    (n : Nat) (pO pA pOp pS : List tokenPos → Run Value)
    (h : e.Token ∈ [TokenColon, TokenComma, TokenRParen, TokenRBrace, TokenRBrack]) :
    parseValue fin (n + 1) (e :: rest) =
      .err (.errorString ("unexpected token " ++ e.Token.String ++ " at beginning of Value")) ∧
    parseValueBody fin pO pA pOp pS (e :: rest) =
      ⟨.err (.errorString ("unexpected token " ++ e.Token.String ++ " at beginning of Value")),
        e :: rest⟩ ∧
    Parse fin (e :: rest) =
      .err (.errorString ("unexpected token " ++ e.Token.String ++ " at beginning of Value")) ∧
    (e.Token, e.Token.String) ∈
      [(TokenColon, "Colon"), (TokenComma, "Comma"), (TokenRParen, "RParen"),
        (TokenRBrace, "RBrace"), (TokenRBrack, "RBrack")] := by
  simp only [List.mem_cons, List.mem_singleton, List.not_mem_nil, or_false] at h
  have hv : ∀ m, parseValue fin (m + 1) (e :: rest) =
      .err (.errorString ("unexpected token " ++ e.Token.String ++ " at beginning of Value")) := by
    intro m
    rcases h with h | h | h | h | h <;> simp [parseValue, h]
  refine ⟨hv n, ?_, ?_, ?_⟩
  · rcases h with h | h | h | h | h <;> simp [parseValueBody, h]
  · simp [Parse, ParseLoop, hv]
  · rcases h with h | h | h | h | h <;> rw [h] <;> decide

/-- Claim C11 at the stream `] 1`. -/
theorem parseValue_unexpected_token_witness :
    parseValue .EOF 1 [⟨TokenRBrack, 1, "]"⟩, ⟨TokenNumber, 2, "1"⟩] =
      .err (.errorString "unexpected token RBrack at beginning of Value") ∧
    Parse .EOF [⟨TokenRBrack, 1, "]"⟩, ⟨TokenNumber, 2, "1"⟩] =
      .err (.errorString "unexpected token RBrack at beginning of Value") := by
  have h := parseValue_unexpected_token .EOF ⟨TokenRBrack, 1, "]"⟩ [⟨TokenNumber, 2, "1"⟩] 0
    (fun s => ⟨.timeout, s⟩) (fun s => ⟨.timeout, s⟩) (fun s => ⟨.timeout, s⟩)
    (fun s => ⟨.timeout, s⟩) (by decide)
  exact ⟨h.1, h.2.2.1⟩

/-! ## The context of an error -/

theorem Parse_single_shape {w : List tokenPos} {v : Value} (h : Parse .EOF w = .ok [v]) :
    Shape (.value v) w :=
  Shape.top_single.mp ((Parse_ok_iff _ _ _).mp h).2

/-- A run of complete values separated by commas, at the end of which the
stream ends: the list loop reports `io.ErrUnexpectedEOF`. -/
theorem parseList_run_eof (delim : Token) (hcl : closer delim = true)
    (items : List (List tokenPos × tokenPos)) (last : List tokenPos)
    (hitems : ∀ it ∈ items, it.2.Token = TokenComma ∧ ∃ v, Shape (.value v) it.1)
    (hlast : last = [] ∨ ∃ v, Shape (.value v) last) :
    ∀ (n k : Nat) (out : List (ListElem Value)),
      (commaList items ++ last).length < n → (commaList items ++ last).length < k →
      parseList .EOF delim (parseValue .EOF n) k out (commaList items ++ last) =
        .err .ErrUnexpectedEOF := by
  induction items with
  | nil =>
    intro n k out hn hk
    obtain ⟨i, rfl⟩ : ∃ i, k = i + 1 := ⟨k - 1, by omega⟩
    rcases hlast with rfl | ⟨v, hv⟩
    · simp [commaList, parseList]
    · obtain ⟨e, w1, rfl, he⟩ := hv.value_head
      simp only [commaList, List.nil_append] at hn ⊢
      have h1 := hv.complete .EOF n [] hn (fun _ => ⟨by simp [NextIs], fun _ => rfl⟩)
      simp only [List.append_nil] at h1
      simp [parseList, closer_ne_of_startsValue he hcl, h1]
  | cons it rest ih =>
    intro n k out hn hk
    obtain ⟨i, rfl⟩ : ∃ i, k = i + 1 := ⟨k - 1, by omega⟩
    obtain ⟨w, c⟩ := it
    obtain ⟨hc, v, hv⟩ := hitems (w, c) (List.mem_cons_self _ _)
    obtain ⟨e, w1, rfl, he⟩ := hv.value_head
    simp only [commaList, List.cons_append, List.append_assoc, List.length_cons,
      List.length_append] at hn hk ⊢
    have h1 := hv.complete .EOF n (c :: (commaList rest ++ last))
      (by simp only [List.length_cons]; omega) (fun _ => OpGuard.cons (by rw [hc]; decide))
    simp only [List.cons_append] at h1
    rw [parseList_comma .EOF delim _ i out e c _ _ v (closer_ne_of_startsValue he hcl) h1 hc]
    exact ih (fun x hx => hitems x (List.mem_cons_of_mem _ hx)) n i _
      (by simp only [List.length_append]; omega) (by simp only [List.length_append]; omega)

theorem Parse_first_err {fin : GoError} {e : tokenPos} {rest : List tokenPos} {x : GoError}
    (h : parseValue fin ((e :: rest).length + 1) (e :: rest) = .err x) :
    Parse fin (e :: rest) = .err x := by
  have hne : x ≠ .EOF := fun h0 => parseValue_ne_EOF fin _ _ (h0 ▸ h)
  simp only [List.length_cons] at h
  unfold Parse
  simp only [List.length_cons]
  unfold ParseLoop
  rw [h]
  simp [hne]

theorem append_ne_of_last {p q s t : String} {a b : Char} (hs : s.data.getLast? = some a)
    (ht : t.data.getLast? = some b) (hab : a ≠ b) : p ++ s ≠ q ++ t := by
  intro h
  have h1 := congrArg (fun x => x.data.getLast?) h
  simp only [String.data_append] at h1
  have hs0 : s.data ≠ [] := by intro h0; rw [h0] at hs; cases hs
  have ht0 : t.data ≠ [] := by intro h0; rw [h0] at ht; cases ht
  rw [List.getLast?_append_of_ne_nil _ hs0, List.getLast?_append_of_ne_nil _ ht0, hs, ht] at h1
  exact hab (Option.some.inj h1)
theorem parseArray_list_err {fin : GoError} {k : Nat}
    {pv : List tokenPos → Res (Value × List tokenPos)} {e : tokenPos} {rest : List tokenPos}
    {x : GoError} (he : e.Token = TokenLBrack)
    (h : parseList fin TokenRBrack pv k [] rest = .err x) :
    parseArray fin k pv (e :: rest) = .err (.errorString (x.Error ++ " in array")) := by
  simp [parseArray, consumeToken, he, h]

theorem parseObject_list_err {fin : GoError} {k : Nat}
    {pv : List tokenPos → Res (Value × List tokenPos)} {e : tokenPos} {rest : List tokenPos}
    {x : GoError} (he : e.Token = TokenLBrace)
    (h : parseList fin TokenRBrace (parseMember fin pv) k [] rest = .err x) :
    parseObject fin k pv (e :: rest) = .err (.errorString (x.Error ++ " in object")) := by
  simp [parseObject, consumeToken, he, h]

theorem parseOperatorArgs_list_err {fin : GoError} {k : Nat}
    {pv : List tokenPos → Res (Value × List tokenPos)} {e : tokenPos} {rest : List tokenPos}
    {x : GoError} (he : e.Token = TokenLParen)
    (h : parseList fin TokenRParen pv k [] rest = .err x) :
    parseOperatorArgs fin k pv (e :: rest) =
      .err (.errorString (x.Error ++ " at operator arguments")) := by
  simp [parseOperatorArgs, consumeToken, he, h]

theorem parseOperator_args_err {fin : GoError} {k : Nat}
    {pv : List tokenPos → Res (Value × List tokenPos)} {x lp : tokenPos} {rest : List tokenPos}
    {y : GoError} (hx : x.Token = TokenIdent) (hlp : lp.Token = TokenLParen)
    (h : parseOperatorArgs fin (k + 1) pv (lp :: rest) = .err y) :
    parseOperator fin (k + 1) pv (x :: lp :: rest) = .err y := by
  simp [parseOperator, parseIdent, hx, parseOperatorLoop, hlp, h]

theorem parseList_first_err {E : Type} {fin : GoError} {delim : Token}
    {pf : List tokenPos → Res (E × List tokenPos)} {k : Nat} {out : List (ListElem E)}
    {e : tokenPos} {rest : List tokenPos} {x : GoError} (he : e.Token ≠ delim)
    (h : pf (e :: rest) = .err x) :
    parseList fin delim pf (k + 1) out (e :: rest) = .err x := by
  simp [parseList, he, h]

theorem parseMember_colon_err {fin : GoError} {pv : List tokenPos → Res (Value × List tokenPos)}
    {s r : List tokenPos} {v : Value} {x : GoError} (h : pv s = .ok (v, r))
    (hc : consumeToken fin TokenColon r = .err x) :
    parseMember fin pv s = .err (.errorString (x.Error ++ " in object member")) := by
  simp only [parseMember, h, hc]

theorem consumeToken_nil (fin : GoError) (t : Token) : consumeToken fin t [] = .err fin := rfl

theorem consumeToken_mismatch (fin : GoError) (t : Token) {e : tokenPos} (rest : List tokenPos)
    (h : e.Token ≠ t) :
    consumeToken fin t (e :: rest) =
      .err (.errorString ("expected token " ++ t.String ++ " (found " ++ e.Token.String ++ ")")) := by
  simp [consumeToken, h]

/-- A run of complete members separated by commas, at the end of which the
stream ends: the list loop reports `io.ErrUnexpectedEOF`. -/
theorem parseList_members_eof (items : List (List tokenPos × tokenPos)) (last : List tokenPos)
    (hitems : ∀ it ∈ items, it.2.Token = TokenComma ∧ ∃ m, Shape (.member m) it.1)
    (hlast : last = [] ∨ ∃ m, Shape (.member m) last) :
    ∀ (n k : Nat) (out : List (ListElem Member)),
      (commaList items ++ last).length < n → (commaList items ++ last).length < k →
      parseList .EOF TokenRBrace (parseMember .EOF (parseValue .EOF n)) k out
        (commaList items ++ last) = .err .ErrUnexpectedEOF := by
  induction items with
  | nil =>
    intro n k out hn hk
    obtain ⟨i, rfl⟩ : ∃ i, k = i + 1 := ⟨k - 1, by omega⟩
    rcases hlast with rfl | ⟨m, hm⟩
    · simp [commaList, parseList]
    · obtain ⟨e, w1, rfl, he⟩ := hm.member_head
      simp only [commaList, List.nil_append] at hn ⊢
      have h1 := hm.complete .EOF n [] hn ⟨by simp [NextIs], fun _ => rfl⟩
      simp only [List.append_nil] at h1
      have hd : e.Token ≠ TokenRBrace := closer_ne_of_startsValue he rfl
      simp [parseList, hd, h1]
  | cons it rest ih =>
    intro n k out hn hk
    obtain ⟨i, rfl⟩ : ∃ i, k = i + 1 := ⟨k - 1, by omega⟩
    obtain ⟨w, c⟩ := it
    obtain ⟨hc, m, hm⟩ := hitems (w, c) (List.mem_cons_self _ _)
    obtain ⟨e, w1, rfl, he⟩ := hm.member_head
    simp only [commaList, List.cons_append, List.append_assoc, List.length_cons,
      List.length_append] at hn hk ⊢
    have h1 := hm.complete .EOF n (c :: (commaList rest ++ last))
      (by simp only [List.length_cons]; omega) (OpGuard.cons (by rw [hc]; decide))
    simp only [List.cons_append] at h1
    have hd : e.Token ≠ TokenRBrace := closer_ne_of_startsValue he rfl
    rw [parseList_comma .EOF TokenRBrace _ i out e c _ _ m hd h1 hc]
    exact ih (fun x hx => hitems x (List.mem_cons_of_mem _ hx)) n i _
      (by simp only [List.length_append]; omega) (by simp only [List.length_append]; omega)

theorem Parse_member_shape {w wk wv : List tokenPos} {c : tokenPos} {k v : Value}
    (hw : w = wk ++ c :: wv) (hc : c.Token = TokenColon) (hk : Parse .EOF wk = .ok [k])
    (hv : Parse .EOF wv = .ok [v]) : ∃ m, Shape (.member m) w :=
  ⟨_, hw ▸ Shape.member c k v wk wv hc (Parse_single_shape hk) (Parse_single_shape hv)⟩

/-- Claim C12: when the input ends inside the argument list of an operator,
inside an array or inside an object (after the opening token and a possibly
empty run of complete values separated by commas), `Parse` fails, and the
message ends in " at operator arguments", " in array" and " in object"
respectively; so does it inside an object after a run of complete members;
no message ends in two of these contexts. -/
theorem Parse_error_context (x lp lbrack lbrace : tokenPos)
    (items : List (List tokenPos × tokenPos)) (last : List tokenPos)
    (members : List (List tokenPos × tokenPos)) (lastMember : List tokenPos)
    (hx : x.Token = TokenIdent) (hlp : lp.Token = TokenLParen)
    (hlbrack : lbrack.Token = TokenLBrack) (hlbrace : lbrace.Token = TokenLBrace)
    (hitems : ∀ it ∈ items, it.2.Token = TokenComma ∧ ∃ v, Parse .EOF it.1 = .ok [v])
    (hlast : last = [] ∨ ∃ v, Parse .EOF last = .ok [v])
    (hmembers : ∀ it ∈ members, it.2.Token = TokenComma ∧
      ∃ wk c wv k v, it.1 = wk ++ c :: wv ∧ c.Token = TokenColon ∧
        Parse .EOF wk = .ok [k] ∧ Parse .EOF wv = .ok [v])
    (hlastMember : lastMember = [] ∨
      ∃ wk c wv k v, lastMember = wk ++ c :: wv ∧ c.Token = TokenColon ∧
        Parse .EOF wk = .ok [k] ∧ Parse .EOF wv = .ok [v]) :
    Parse .EOF (x :: lp :: (commaList items ++ last)) =
        .err (.errorString ("unexpected EOF" ++ " at operator arguments")) ∧
      Parse .EOF (lbrack :: (commaList items ++ last)) =
        .err (.errorString ("unexpected EOF" ++ " in array")) ∧
      (∃ pre, pre ∈ ["unexpected EOF", "EOF in object member",
          "expected token Colon (found Comma) in object member"] ∧
        Parse .EOF (lbrace :: (commaList items ++ last)) =
          .err (.errorString (pre ++ " in object"))) ∧
      Parse .EOF (lbrace :: (commaList members ++ lastMember)) =
        .err (.errorString ("unexpected EOF" ++ " in object")) ∧
      ∀ p q : String, p ++ " at operator arguments" ≠ q ++ " in array" ∧
        p ++ " at operator arguments" ≠ q ++ " in object" ∧
        p ++ " in array" ≠ q ++ " in object" := by
  have hitems1 : ∀ it ∈ items, it.2.Token = TokenComma ∧ ∃ v, Shape (.value v) it.1 :=
    fun it hit => ⟨(hitems it hit).1, (hitems it hit).2.imp fun _ h => Parse_single_shape h⟩
  have hlast1 : last = [] ∨ ∃ v, Shape (.value v) last :=
    hlast.imp id fun h => h.imp fun _ h => Parse_single_shape h
  have hmembers1 : ∀ it ∈ members, it.2.Token = TokenComma ∧ ∃ m, Shape (.member m) it.1 := by
    intro it hit
    obtain ⟨hc, wk, c, wv, k, v, h1, h2, h3, h4⟩ := hmembers it hit
    exact ⟨hc, Parse_member_shape h1 h2 h3 h4⟩
  have hlastMember1 : lastMember = [] ∨ ∃ m, Shape (.member m) lastMember := by
    rcases hlastMember with h | ⟨wk, c, wv, k, v, h1, h2, h3, h4⟩
    · exact Or.inl h
    · exact Or.inr (Parse_member_shape h1 h2 h3 h4)
  refine ⟨?_, ?_, ?_, ?_, fun p q => ⟨?_, ?_, ?_⟩⟩
  · apply Parse_first_err
    simp only [List.length_cons]
    rw [parseValue_ident hx]
    exact parseOperator_args_err hx hlp (parseOperatorArgs_list_err hlp
      (parseList_run_eof TokenRParen rfl items last hitems1 hlast1 _ _ [] (by omega) (by omega)))
  · apply Parse_first_err
    simp only [List.length_cons]
    rw [parseValue_array hlbrack]
    exact parseArray_list_err hlbrack
      (parseList_run_eof TokenRBrack rfl items last hitems1 hlast1 _ _ [] (by omega) (by omega))
  · cases items with
    | nil =>
      rcases hlast1 with rfl | ⟨v, hv⟩
      · refine ⟨"unexpected EOF", by simp, ?_⟩
        apply Parse_first_err
        simp only [commaList, List.nil_append]
        rw [parseValue_object hlbrace]
        exact parseObject_list_err (x := .ErrUnexpectedEOF) hlbrace
          (by simp [parseList])
      · refine ⟨"EOF in object member", by simp, ?_⟩
        apply Parse_first_err
        simp only [commaList, List.nil_append]
        rw [parseValue_object hlbrace]
        obtain ⟨e, w1, rfl, he⟩ := hv.value_head
        have h1 := hv.complete .EOF ((lbrace :: e :: w1).length) [] (by simp)
          (fun _ => ⟨by simp [NextIs], fun _ => rfl⟩)
        simp only [List.append_nil] at h1
        exact parseObject_list_err hlbrace (parseList_first_err (k := (e :: w1).length)
          (closer_ne_of_startsValue he rfl) (parseMember_colon_err h1 (consumeToken_nil _ _)))
    | cons it rest =>
      obtain ⟨w, c⟩ := it
      obtain ⟨hc, v, hv⟩ := hitems1 (w, c) (List.mem_cons_self _ _)
      refine ⟨"expected token Colon (found Comma) in object member", by simp, ?_⟩
      apply Parse_first_err
      obtain ⟨e, w1, rfl, he⟩ := hv.value_head
      simp only [commaList, List.cons_append, List.append_assoc]
      rw [parseValue_object hlbrace]
      have h1 := hv.complete .EOF ((lbrace :: e :: (w1 ++ c :: (commaList rest ++ last))).length)
        (c :: (commaList rest ++ last)) (by simp only [List.length_cons, List.length_append]; omega)
        (fun _ => OpGuard.cons (by rw [hc]; decide))
      simp only [List.cons_append] at h1
      have h2 := parseMember_colon_err h1
        (consumeToken_mismatch .EOF TokenColon (commaList rest ++ last)
          (show c.Token ≠ TokenColon by rw [hc]; decide))
      rw [hc] at h2
      exact parseObject_list_err hlbrace
        (parseList_first_err (k := (e :: (w1 ++ c :: (commaList rest ++ last))).length)
          (closer_ne_of_startsValue he rfl) h2)
  · apply Parse_first_err
    simp only [List.length_cons]
    rw [parseValue_object hlbrace]
    exact parseObject_list_err hlbrace
      (parseList_members_eof members lastMember hmembers1 hlastMember1 _ _ [] (by omega)
        (by omega))
  · exact append_ne_of_last (a := 's') (b := 'y') rfl rfl (by decide)
  · exact append_ne_of_last (a := 's') (b := 't') rfl rfl (by decide)
  · exact append_ne_of_last (a := 'y') (b := 't') rfl rfl (by decide)

/-- Claim C12 at the streams `f(1,2`, `[1,2`, `{1,2` and `{"a":1,"b":2`, each
followed by the end of the input. -/
theorem Parse_error_context_witness :
    Parse .EOF [⟨TokenIdent, 1, "f"⟩, ⟨TokenLParen, 2, "("⟩, ⟨TokenNumber, 3, "1"⟩,
        ⟨TokenComma, 4, ","⟩, ⟨TokenNumber, 5, "2"⟩] =
      .err (.errorString "unexpected EOF at operator arguments") ∧
    Parse .EOF [⟨TokenLBrack, 2, "["⟩, ⟨TokenNumber, 3, "1"⟩,
        ⟨TokenComma, 4, ","⟩, ⟨TokenNumber, 5, "2"⟩] =
      .err (.errorString "unexpected EOF in array") ∧
    (∃ pre, Parse .EOF [⟨TokenLBrace, 2, "\x7b"⟩, ⟨TokenNumber, 3, "1"⟩,
        ⟨TokenComma, 4, ","⟩, ⟨TokenNumber, 5, "2"⟩] =
      .err (.errorString (pre ++ " in object"))) ∧
    Parse .EOF [⟨TokenLBrace, 2, "\x7b"⟩, ⟨TokenString, 3, "a"⟩, ⟨TokenColon, 4, ":"⟩,
        ⟨TokenNumber, 5, "1"⟩, ⟨TokenComma, 6, ","⟩, ⟨TokenString, 7, "b"⟩,
        ⟨TokenColon, 8, ":"⟩, ⟨TokenNumber, 9, "2"⟩] =
      .err (.errorString "unexpected EOF in object") := by
  have h := Parse_error_context ⟨TokenIdent, 1, "f"⟩ ⟨TokenLParen, 2, "("⟩
    ⟨TokenLBrack, 2, "["⟩ ⟨TokenLBrace, 2, "\x7b"⟩
    [([⟨TokenNumber, 3, "1"⟩], ⟨TokenComma, 4, ","⟩)] [⟨TokenNumber, 5, "2"⟩]
    [([⟨TokenString, 3, "a"⟩, ⟨TokenColon, 4, ":"⟩, ⟨TokenNumber, 5, "1"⟩],
      ⟨TokenComma, 6, ","⟩)]
    [⟨TokenString, 7, "b"⟩, ⟨TokenColon, 8, ":"⟩, ⟨TokenNumber, 9, "2"⟩]
    rfl rfl rfl rfl
    (by intro it hit; simp only [List.mem_singleton] at hit; subst hit; exact ⟨rfl, _, rfl⟩)
    (Or.inr ⟨_, rfl⟩)
    (by
      intro it hit
      simp only [List.mem_singleton] at hit
      subst hit
      exact ⟨rfl, [⟨TokenString, 3, "a"⟩], ⟨TokenColon, 4, ":"⟩, [⟨TokenNumber, 5, "1"⟩],
        _, _, rfl, rfl, rfl, rfl⟩)
    (Or.inr ⟨[⟨TokenString, 7, "b"⟩], ⟨TokenColon, 8, ":"⟩, [⟨TokenNumber, 9, "2"⟩],
      _, _, rfl, rfl, rfl, rfl⟩)
  obtain ⟨h1, h2, ⟨pre, -, h3⟩, h4, -⟩ := h
  exact ⟨h1, h2, ⟨pre, h3⟩, h4⟩

/-! ## The bound does not matter

A run that ends within the bound ends the same way under any larger bound. -/

theorem parseList_mono {E : Type} (fin : GoError) (delim : Token)
    {pf pf' : List tokenPos → Res (E × List tokenPos)}
    (hpf : ∀ s, pf s ≠ .timeout → pf' s = pf s) :
    ∀ (k k' : Nat) (out : List (ListElem E)) (s : List tokenPos), k ≤ k' →
      parseList fin delim pf k out s ≠ .timeout →
      parseList fin delim pf' k' out s = parseList fin delim pf k out s := by
  intro k
  induction k with
  | zero => intro k' out s _ h; exact absurd rfl h
  | succ k ih =>
    intro k' out s hk h
    obtain ⟨j, rfl⟩ : ∃ j, k' = j + 1 := ⟨k' - 1, by omega⟩
    cases s with
    | nil => simp [parseList]
    | cons e0 rest =>
      simp only [parseList] at h ⊢
      by_cases hd : e0.Token = delim
      · simp [hd]
      · simp only [hd, if_false] at h ⊢
        cases hp : pf (e0 :: rest) with
        | timeout => rw [hp] at h; exact absurd rfl h
        | err e => rw [hpf _ (by rw [hp]; simp), hp]
        | ok p =>
          obtain ⟨v, s1⟩ := p
          rw [hpf _ (by rw [hp]; simp), hp]
          rw [hp] at h
          cases s1 with
          | nil => rfl
          | cons e1 rest1 =>
            simp only at h ⊢
            by_cases hc : e1.Token = TokenComma
            · simp only [hc, if_true] at h ⊢
              exact ih _ _ _ (by omega) h
            · simp only [hc, if_false]

theorem parseOperatorLoop_mono (fin : GoError)
    {pa pa' : List tokenPos → Res (OperatorArgs × List tokenPos)}
    (hpa : ∀ s, pa s ≠ .timeout → pa' s = pa s) :
    ∀ (k k' : Nat) (out : List OperatorArgs) (s : List tokenPos), k ≤ k' →
      parseOperatorLoop fin pa k out s ≠ .timeout →
      parseOperatorLoop fin pa' k' out s = parseOperatorLoop fin pa k out s := by
  intro k
  induction k with
  | zero => intro k' out s _ h; exact absurd rfl h
  | succ k ih =>
    intro k' out s hk h
    obtain ⟨j, rfl⟩ : ∃ j, k' = j + 1 := ⟨k' - 1, by omega⟩
    cases s with
    | nil => simp [parseOperatorLoop]
    | cons e0 rest =>
      simp only [parseOperatorLoop] at h ⊢
      by_cases hd : e0.Token = TokenLParen
      · simp only [hd, ne_eq, not_true_eq_false, if_false] at h ⊢
        cases hp : pa (e0 :: rest) with
        | timeout => rw [hp] at h; exact absurd rfl h
        | err e => rw [hpa _ (by rw [hp]; simp), hp]
        | ok p =>
          obtain ⟨v, s1⟩ := p
          rw [hpa _ (by rw [hp]; simp), hp]
          rw [hp] at h
          exact ih _ _ _ (by omega) h
      · simp [hd]

theorem parseArray_mono (fin : GoError) {pv pv' : List tokenPos → Res (Value × List tokenPos)}
    (hpv : ∀ s, pv s ≠ .timeout → pv' s = pv s) {k k' : Nat} (hk : k ≤ k') (s : List tokenPos)
    (h : parseArray fin k pv s ≠ .timeout) : parseArray fin k' pv' s = parseArray fin k pv s := by
  simp only [parseArray] at h ⊢
  cases hc : consumeToken fin TokenLBrack s with
  | timeout => exact absurd hc (consumeToken_ne_timeout _ _ _)
  | err e => rfl
  | ok p =>
    obtain ⟨lb, s1⟩ := p
    rw [hc] at h
    simp only at h ⊢
    have hl : parseList fin TokenRBrack pv k [] s1 ≠ .timeout := by
      intro h0; rw [h0] at h; exact h rfl
    rw [parseList_mono fin TokenRBrack hpv k k' [] s1 hk hl]

theorem parseOperatorArgs_mono (fin : GoError)
    {pv pv' : List tokenPos → Res (Value × List tokenPos)}
    (hpv : ∀ s, pv s ≠ .timeout → pv' s = pv s) {k k' : Nat} (hk : k ≤ k') (s : List tokenPos)
    (h : parseOperatorArgs fin k pv s ≠ .timeout) :
    parseOperatorArgs fin k' pv' s = parseOperatorArgs fin k pv s := by
  simp only [parseOperatorArgs] at h ⊢
  cases hc : consumeToken fin TokenLParen s with
  | timeout => exact absurd hc (consumeToken_ne_timeout _ _ _)
  | err e => rfl
  | ok p =>
    obtain ⟨lb, s1⟩ := p
    rw [hc] at h
    simp only at h ⊢
    have hl : parseList fin TokenRParen pv k [] s1 ≠ .timeout := by
      intro h0; rw [h0] at h; exact h rfl
    rw [parseList_mono fin TokenRParen hpv k k' [] s1 hk hl]

theorem parseMember_mono (fin : GoError) {pv pv' : List tokenPos → Res (Value × List tokenPos)}
    (hpv : ∀ s, pv s ≠ .timeout → pv' s = pv s) (s : List tokenPos)
    (h : parseMember fin pv s ≠ .timeout) : parseMember fin pv' s = parseMember fin pv s := by
  simp only [parseMember] at h ⊢
  cases hp : pv s with
  | timeout => rw [hp] at h; exact absurd rfl h
  | err e => rw [hpv _ (by rw [hp]; simp), hp]
  | ok p =>
    obtain ⟨key, s1⟩ := p
    rw [hpv _ (by rw [hp]; simp), hp]
    rw [hp] at h
    simp only at h ⊢
    cases hc : consumeToken fin TokenColon s1 with
    | timeout => exact absurd hc (consumeToken_ne_timeout _ _ _)
    | err e => rfl
    | ok q =>
      obtain ⟨colon, s2⟩ := q
      rw [hc] at h
      simp only at h ⊢
      cases hp2 : pv s2 with
      | timeout => rw [hp2] at h; exact absurd rfl h
      | err e => rw [hpv _ (by rw [hp2]; simp), hp2]
      | ok p2 => rw [hpv _ (by rw [hp2]; simp), hp2]

theorem parseObject_mono (fin : GoError) {pv pv' : List tokenPos → Res (Value × List tokenPos)}
    (hpv : ∀ s, pv s ≠ .timeout → pv' s = pv s) {k k' : Nat} (hk : k ≤ k') (s : List tokenPos)
    (h : parseObject fin k pv s ≠ .timeout) :
    parseObject fin k' pv' s = parseObject fin k pv s := by
  simp only [parseObject] at h ⊢
  cases hc : consumeToken fin TokenLBrace s with
  | timeout => exact absurd hc (consumeToken_ne_timeout _ _ _)
  | err e => rfl
  | ok p =>
    obtain ⟨lb, s1⟩ := p
    rw [hc] at h
    simp only at h ⊢
    have hl : parseList fin TokenRBrace (parseMember fin pv) k [] s1 ≠ .timeout := by
      intro h0; rw [h0] at h; exact h rfl
    rw [parseList_mono fin TokenRBrace (parseMember_mono fin hpv) k k' [] s1 hk hl]

theorem parseOperator_mono (fin : GoError)
    {pv pv' : List tokenPos → Res (Value × List tokenPos)}
    (hpv : ∀ s, pv s ≠ .timeout → pv' s = pv s) {k k' : Nat} (hk : k ≤ k') (s : List tokenPos)
    (h : parseOperator fin k pv s ≠ .timeout) :
    parseOperator fin k' pv' s = parseOperator fin k pv s := by
  simp only [parseOperator] at h ⊢
  cases hc : parseIdent fin s with
  | timeout => rfl
  | err e => rfl
  | ok p =>
    obtain ⟨id, s1⟩ := p
    rw [hc] at h
    simp only at h ⊢
    have hl : parseOperatorLoop fin (parseOperatorArgs fin k pv) k [] s1 ≠ .timeout := by
      intro h0; rw [h0] at h; exact h rfl
    rw [parseOperatorLoop_mono fin (fun s hs => parseOperatorArgs_mono fin hpv hk s hs)
      k k' [] s1 hk hl]

theorem parseValue_mono_succ (fin : GoError) :
    ∀ (n : Nat) (s : List tokenPos), parseValue fin n s ≠ .timeout →
      parseValue fin (n + 1) s = parseValue fin n s := by
  intro n
  induction n with
  | zero => intro s h; exact absurd rfl h
  | succ n ih =>
    intro s h
    cases s with
    | nil => simp [parseValue]
    | cons e rest =>
      unfold parseValue at h ⊢
      simp only at h ⊢
      split
      all_goals first
        | rfl
        | (rename_i he; simp only [he] at h ⊢
           first
            | exact parseObject_mono fin ih (Nat.le_succ n) _ h
            | exact parseArray_mono fin ih (Nat.le_succ n) _ h
            | exact parseOperator_mono fin ih (Nat.le_succ n) _ h)

theorem parseValue_mono (fin : GoError) {n m : Nat} (hnm : n ≤ m) (s : List tokenPos)
    (h : parseValue fin n s ≠ .timeout) : parseValue fin m s = parseValue fin n s := by
  induction m with
  | zero =>
    obtain rfl : n = 0 := by omega
    rfl
  | succ m ih =>
    rcases Nat.lt_or_ge n (m + 1) with hlt | hge
    · have h1 := ih (by omega)
      rw [parseValue_mono_succ fin m s (by rw [h1]; exact h), h1]
    · obtain rfl : n = m + 1 := by omega
      rfl

/-- Any two bounds above the number of unread tokens give the same result. -/
theorem parseValue_bound (fin : GoError) {n m : Nat} (s : List tokenPos)
    (hn : s.length < n) (hm : s.length < m) : parseValue fin n s = parseValue fin m s := by
  rcases Nat.le_total n m with h | h
  · exact (parseValue_mono fin h s (parseValue_total fin n s hn)).symm
  · exact parseValue_mono fin h s (parseValue_total fin m s hm)

/-! ## Top-level values one after another -/

theorem Shape.top_length {vs : List Value} {w : List tokenPos} (h : Shape (.top vs) w) :
    vs.length ≤ w.length := by
  induction vs generalizing w with
  | nil => simp
  | cons v vs ih =>
    cases h with
    | topCons _ _ w0 w1 hv ht =>
      obtain ⟨e, w2, rfl, -⟩ := hv.value_head
      have := ih ht
      simp only [List.length_cons, List.length_append]
      omega

theorem Shape.top_nil_iff {w : List tokenPos} : Shape (.top []) w ↔ w = [] := by
  constructor
  · intro h; cases h; rfl
  · rintro rfl; exact Shape.topNil

/-- What the value before the tokens `r` needs of them: an operator is not
followed by an opening paren. -/
theorem Shape.top_next_append {vs : List Value} {w r : List tokenPos} (h : Shape (.top vs) w)
    (hr : vs = [] → ¬ NextIs TokenLParen r) : ¬ NextIs TokenLParen (w ++ r) := by
  cases h with
  | topNil => simpa using hr rfl
  | topCons v vs w0 w1 hv ht =>
    obtain ⟨e, w2, rfl, he⟩ := hv.value_head
    intro hn
    simp only [List.cons_append, NextIs] at hn
    rw [hn] at he
    cases he

/-- The loop of `Parse` over the tokens of the values `vs`, with tokens `r`
left after them: the values are appended and the loop goes on at `r`. -/
theorem ParseLoop_prefix (fin : GoError) (n : Nat) (r : List tokenPos) (hr : r ≠ []) :
    ∀ (vs : List Value) (a : List tokenPos) (k : Nat) (out : List Value),
      Shape (.top vs) a → a.length < n →
      (∀ v, vs.getLast? = some v → isOperator v = true → ¬ NextIs TokenLParen r) →
      ParseLoop fin (parseValue fin n) (k + vs.length) out (a ++ r) =
        ParseLoop fin (parseValue fin n) k (out ++ vs) r := by
  intro vs
  induction vs with
  | nil =>
    intro a k out h _ _
    cases h
    simp
  | cons v vs ih =>
    intro a k out h hn hg
    cases h with
    | topCons _ _ w w1 hv ht =>
      obtain ⟨e, w2, rfl, he⟩ := hv.value_head
      simp only [List.length_append, List.length_cons] at hn
      have hguard : isOperator v = true → OpGuard fin (w1 ++ r) := by
        intro hop
        refine ⟨ht.top_next_append ?_, fun h0 => absurd (List.append_eq_nil.mp h0).2 hr⟩
        rintro rfl
        exact hg v rfl hop
      have h1 := hv.complete fin n (w1 ++ r) (by simp only [List.length_cons]; omega) hguard
      have h2 : ParseLoop fin (parseValue fin n) (k + (v :: vs).length) out
          ((e :: w2) ++ w1 ++ r) =
          ParseLoop fin (parseValue fin n) (k + vs.length) (out ++ [v]) (w1 ++ r) := by
        simp only [List.length_cons, List.cons_append, List.append_assoc] at h1 ⊢
        rw [show k + (vs.length + 1) = (k + vs.length) + 1 from rfl]
        simp only [ParseLoop, h1]
      rw [h2, ih w1 k (out ++ [v]) ht (by omega)]
      · simp
      · intro v1 hv1 hop
        cases vs with
        | nil => cases hv1
        | cons v2 vs2 => exact hg v1 (by simpa using hv1) hop

/-- The loop of `Parse` at a value that fails. -/
theorem ParseLoop_first_err {fin : GoError} {pv : List tokenPos → Res (Value × List tokenPos)}
    {k : Nat} {out : List Value} {e : tokenPos} {rest : List tokenPos} {x : GoError}
    (h : pv (e :: rest) = .err x) (hne : x ≠ .EOF) :
    ParseLoop fin pv (k + 1) out (e :: rest) = .err x := by
  simp [ParseLoop, h, hne]

/-! ## An error of the tokenizer after complete values -/

theorem parseOperatorLoop_fin {fin : GoError} (hf : fin ≠ .EOF) (n k : Nat) :
    ∀ (gs : List OperatorArgs) (w : List tokenPos) (j : Nat) (out : List OperatorArgs),
      Shape (.groups gs) w → w.length ≤ n → w.length ≤ k → w.length < j →
      parseOperatorLoop fin (parseOperatorArgs fin k (parseValue fin n)) j out w = .err fin := by
  intro gs
  induction gs with
  | nil =>
    intro w j out h _ _ hj
    cases h
    obtain ⟨i, rfl⟩ : ∃ i, j = i + 1 := ⟨j - 1, by omega⟩
    simp [parseOperatorLoop, hf]
  | cons a gs ih =>
    intro w j out h hn hk hj
    cases h with
    | groupsCons _ _ w0 w1 ha hgs =>
      obtain ⟨i, rfl⟩ : ∃ i, j = i + 1 := ⟨j - 1, by omega⟩
      simp only [List.length_append] at hn hk hj
      have h1 := ha.complete fin n k w1 (by omega) (by omega)
      cases ha with
      | args lp rp l w2 hlp hrp hl =>
        simp only [List.cons_append, List.length_cons] at h1 hj ⊢
        simp only [parseOperatorLoop, hlp, ne_eq, not_true_eq_false, if_false, h1]
        exact ih w1 i _ hgs (by omega) (by omega) (by omega)

/-- An operator at the end of the tokens, when the tokenizer then reports an
error: the look for a further opening paren returns that error. -/
theorem parseValue_operator_fin {fin : GoError} (hf : fin ≠ .EOF) {v : Value}
    {w : List tokenPos} (h : Shape (.value v) w) (hop : isOperator v = true) {n : Nat}
    (hn : w.length < n) : parseValue fin n w = .err fin := by
  cases h with
  | operator id gs w0 hi hs =>
    obtain ⟨m, rfl⟩ : ∃ m, n = m + 1 := ⟨n - 1, by omega⟩
    simp only [List.length_cons] at hn
    rw [parseValue_ident hi]
    simp only [parseOperator, parseIdent, hi, ne_eq, not_true_eq_false, if_false,
      parseOperatorLoop_fin hf m m gs w0 m [] hs (by omega) (by omega) (by omega)]
  | _ => cases hop

theorem ParseLoop_fin {fin : GoError} (hf : fin ≠ .EOF) (n : Nat) :
    ∀ (vs : List Value) (a : List tokenPos) (k : Nat) (out : List Value),
      Shape (.top vs) a → a.length < n → a.length < k →
      ParseLoop fin (parseValue fin n) k out a = .err fin := by
  intro vs
  induction vs with
  | nil =>
    intro a k out h _ hk
    cases h
    obtain ⟨i, rfl⟩ : ∃ i, k = i + 1 := ⟨k - 1, by omega⟩
    simp [ParseLoop, hf]
  | cons v vs ih =>
    intro a k out h hn hk
    cases h with
    | topCons _ _ w w1 hv ht =>
      obtain ⟨i, rfl⟩ : ∃ i, k = i + 1 := ⟨k - 1, by omega⟩
      obtain ⟨e, w2, rfl, he⟩ := hv.value_head
      simp only [List.length_append, List.length_cons] at hn hk
      cases ht with
      | topNil =>
        simp only [List.append_nil]
        cases hop : isOperator v with
        | true =>
          exact ParseLoop_first_err (parseValue_operator_fin hf hv hop
            (by simp only [List.length_cons]; omega)) hf
        | false =>
          have h1 := hv.complete fin n [] (by simp only [List.length_cons]; omega)
            (by rw [hop]; intro h0; cases h0)
          simp only [List.append_nil] at h1
          obtain ⟨i2, rfl⟩ : ∃ i2, i = i2 + 1 := ⟨i - 1, by simp at hk; omega⟩
          simp [ParseLoop, h1, hf]
      | topCons v1 vs1 w3 w4 hv1 ht1 =>
        have ht := Shape.topCons v1 vs1 w3 w4 hv1 ht1
        have h1 := hv.complete fin n (w3 ++ w4) (by simp only [List.length_cons]; omega)
          (fun _ => ⟨ht.top_next, fun h0 => by
            obtain ⟨e1, w5, rfl, -⟩ := hv1.value_head
            simp at h0⟩)
        simp only [List.cons_append] at h1 ⊢
        simp only [ParseLoop, h1]
        exact ih (w3 ++ w4) i _ ht (by omega) (by omega)

/-- Claim C13: `Parse` is all-or-nothing.  After the tokens `a` of complete
top-level values `vs`, when the next value fails with the error `e`, or when
the tokenizer reports the error `e` in place of a next token, `Parse` returns
`e` and none of the nodes `vs`; and whenever the tokenizer reports an error,
`Parse` returns an error and no nodes. -/
theorem Parse_all_or_nothing (fin : GoError) (a b : List tokenPos) (vs : List Value)
    (e : GoError) (ha : Parse .EOF a = .ok vs)
    (hb : (b ≠ [] ∧ parseValue fin (b.length + 1) b = .err e ∧
        (∀ v, vs.getLast? = some v → isOperator v = true → ¬ NextIs TokenLParen b)) ∨
      (b = [] ∧ fin ≠ .EOF ∧ e = fin)) :
    Parse fin (a ++ b) = .err e ∧ (∀ vs1, Parse fin (a ++ b) ≠ .ok vs1) ∧
      (fin ≠ .EOF → ∀ ts, ∃ e1, Parse fin ts = .err e1) := by
  have hsh := ((Parse_ok_iff _ _ _).mp ha).2
  have key : Parse fin (a ++ b) = .err e := by
    rcases hb with ⟨hne, he, hg⟩ | ⟨rfl, hf, rfl⟩
    · have hlen := hsh.top_length
      obtain ⟨k, hk⟩ : ∃ k, (a ++ b).length + 1 = (k + 1) + vs.length :=
        ⟨(a ++ b).length - vs.length, by simp only [List.length_append]; omega⟩
      have hab : (a ++ b).length = a.length + b.length := List.length_append _ _
      unfold Parse
      rw [hk, ParseLoop_prefix fin _ b hne vs a (k + 1) [] hsh (by omega) hg]
      obtain ⟨x, rest, rfl⟩ := List.exists_cons_of_ne_nil hne
      have he1 : parseValue fin (k + 1 + vs.length) (x :: rest) = .err e := by
        have hle : (x :: rest).length + 1 ≤ k + 1 + vs.length := by
          rw [← hk]; simp only [List.length_append]; omega
        rw [parseValue_mono fin hle (x :: rest) (by rw [he]; simp), he]
      exact ParseLoop_first_err he1 (fun h0 => parseValue_ne_EOF fin _ _ (h0 ▸ he))
    · simp only [List.append_nil]
      exact ParseLoop_fin hf _ vs a _ [] hsh (by omega) (by omega)
  refine ⟨key, fun vs1 h => ?_, fun hf ts => ?_⟩
  · rw [key] at h; cases h
  · rcases Parse_cases fin ts with ⟨vs1, h⟩ | h
    · exact absurd ((Parse_ok_iff _ _ _).mp h).1 hf
    · exact h

/-- Claim C13 at the stream `1 f ]`, where the third value fails after two
values were parsed, and at the stream `1` after which the tokenizer reports
an error. -/
theorem Parse_all_or_nothing_witness :
    Parse .EOF [⟨TokenNumber, 1, "1"⟩, ⟨TokenIdent, 2, "f"⟩, ⟨TokenRBrack, 3, "]"⟩] =
      .err (.errorString "unexpected token RBrack at beginning of Value") ∧
    Parse (.scan "invalid character") [⟨TokenNumber, 1, "1"⟩] =
      .err (.scan "invalid character") :=
  ⟨(Parse_all_or_nothing .EOF [⟨TokenNumber, 1, "1"⟩, ⟨TokenIdent, 2, "f"⟩]
      [⟨TokenRBrack, 3, "]"⟩] [.Number 1 "1", .Operator ⟨2, "f"⟩ []]
      (.errorString "unexpected token RBrack at beginning of Value") rfl
      (Or.inl ⟨by simp, rfl, fun _ _ _ => by simp [NextIs]⟩)).1,
   (Parse_all_or_nothing (.scan "invalid character") [⟨TokenNumber, 1, "1"⟩] []
      [.Number 1 "1"] (.scan "invalid character") rfl
      (Or.inr ⟨rfl, by simp, rfl⟩)).1⟩

/-! ## The comma paired with an element -/

theorem parseList_run {E : Type} (fin : GoError) (delim : Token)
    (pf : List tokenPos → Res (E × List tokenPos)) :
    ∀ (k : Nat) (out : List (ListElem E)) (s : List tokenPos) l r,
      parseList fin delim pf k out s = .ok (l, r) →
      ∃ l1, l = out ++ l1 ∧ ListRun pf l1 s r ∧ NextIs delim r := by
  intro k
  induction k with
  | zero => intro out s l r h; simp [parseList] at h
  | succ k ih =>
    intro out s l r h
    cases s with
    | nil =>
      simp only [parseList] at h
      split at h <;> cases h
    | cons e0 rest =>
      simp only [parseList] at h
      by_cases hd : e0.Token = delim
      · simp only [hd, if_true] at h
        cases h
        exact ⟨[], by simp, ListRun.done _, hd⟩
      · simp only [hd, if_false] at h
        cases hp : pf (e0 :: rest) with
        | timeout => rw [hp] at h; cases h
        | err e => rw [hp] at h; cases h
        | ok p =>
          obtain ⟨v, s1⟩ := p
          rw [hp] at h
          cases s1 with
          | nil =>
            simp only at h
            split at h <;> cases h
          | cons e1 rest1 =>
            simp only at h
            by_cases hc : e1.Token = TokenComma
            · simp only [hc, if_true] at h
              obtain ⟨l2, rfl, hrun, hnext⟩ := ih _ _ _ _ h
              exact ⟨⟨v, e1.Pos⟩ :: l2, by simp, ListRun.comma v e1 l2 _ _ _ hp hc hrun, hnext⟩
            · simp only [hc, if_false] at h
              by_cases hd1 : e1.Token = delim
              · simp only [hd1, if_true] at h
                cases h
                exact ⟨[⟨v, 0⟩], rfl, ListRun.last v _ _ hp (by simpa [NextIs] using hc), hd1⟩
              · simp only [hd1, if_false] at h
                cases h

/-- The last element of a run: it was followed by a comma and carries its
position, or it was followed by none and carries the zero position. -/
theorem ListRun.last_elem {E : Type} {pf : List tokenPos → Res (E × List tokenPos)}
    {l : List (ListElem E)} {s r : List tokenPos} (h : ListRun pf l s r) :
    ∀ el, l.getLast? = some el →
      (∃ s0 c, pf s0 = .ok (el.Value, c :: r) ∧ c.Token = TokenComma ∧ el.Comma = c.Pos) ∨
      (∃ s0, pf s0 = .ok (el.Value, r) ∧ ¬ NextIs TokenComma r ∧ el.Comma = NoPos) := by
  induction h with
  | done s => intro el hel; simp at hel
  | last v s r hp hn =>
    intro el hel
    simp only [List.getLast?_singleton, Option.some.injEq] at hel
    subst hel
    exact Or.inr ⟨s, hp, hn, rfl⟩
  | comma v c l s s1 r hp hc hrun ih =>
    intro el hel
    cases l with
    | nil =>
      cases hrun
      simp only [List.getLast?_singleton, Option.some.injEq] at hel
      subst hel
      exact Or.inl ⟨s, c, hp, hc, rfl⟩
    | cons x l2 =>
      rw [List.getLast?_cons_cons] at hel
      exact ih el hel

/-- Claim C14, as stated, fails on the list `1,` before `]`: the only element
of the list returned, hence its last, is paired with the position 3 of the
comma, not with the zero position. -/
theorem parseList_last_comma_counterexample :
    parseList .EOF TokenRBrack (parseValue .EOF 1) 2 []
        [⟨TokenNumber, 2, "1"⟩, ⟨TokenComma, 3, ","⟩, ⟨TokenRBrack, 4, "]"⟩] =
      .ok ([⟨.Number 2 "1", 3⟩], [⟨TokenRBrack, 4, "]"⟩]) ∧
    Parse .EOF [⟨TokenLBrack, 1, "["⟩, ⟨TokenNumber, 2, "1"⟩, ⟨TokenComma, 3, ","⟩,
        ⟨TokenRBrack, 4, "]"⟩] = .ok [.Array 1 [⟨.Number 2 "1", 3⟩] 4] ∧
    (3 : Pos) ≠ NoPos :=
  ⟨rfl, rfl, by decide⟩

/-- Claim C14, amended.  In every list returned by `parseList`, an element
after which a comma was read is paired with the position of that comma, and an
element after which none was read is paired with the zero position and ends
the list.  So each element other than the last carries the position of its
comma, and the last carries the position of the trailing comma when the list
has one, and the zero position when the delimiter follows it directly. -/
theorem parseList_comma_positions {E : Type} (fin : GoError) (delim : Token)
    (pf : List tokenPos → Res (E × List tokenPos)) (k : Nat) (s r : List tokenPos)
    (l : List (ListElem E)) (h : parseList fin delim pf k [] s = .ok (l, r)) :
    ListRun pf l s r ∧
      ∀ el, l.getLast? = some el →
        (∃ s0 c, pf s0 = .ok (el.Value, c :: r) ∧ c.Token = TokenComma ∧ el.Comma = c.Pos) ∨
        (∃ s0, pf s0 = .ok (el.Value, r) ∧ ¬ NextIs TokenComma r ∧ el.Comma = NoPos) := by
  obtain ⟨l1, hl, hrun, -⟩ := parseList_run fin delim pf k [] s l r h
  simp only [List.nil_append] at hl
  subst hl
  exact ⟨hrun, hrun.last_elem⟩

/-- Claim C14, amended, at the lists `1,2` and `1,2,` before `]`. -/
theorem parseList_comma_positions_witness :
    ListRun (parseValue .EOF 1) [⟨.Number 2 "1", 3⟩, ⟨.Number 4 "2", NoPos⟩]
        [⟨TokenNumber, 2, "1"⟩, ⟨TokenComma, 3, ","⟩, ⟨TokenNumber, 4, "2"⟩,
          ⟨TokenRBrack, 6, "]"⟩] [⟨TokenRBrack, 6, "]"⟩] ∧
    ListRun (parseValue .EOF 1) [⟨.Number 2 "1", 3⟩, ⟨.Number 4 "2", 5⟩]
        [⟨TokenNumber, 2, "1"⟩, ⟨TokenComma, 3, ","⟩, ⟨TokenNumber, 4, "2"⟩,
          ⟨TokenComma, 5, ","⟩, ⟨TokenRBrack, 6, "]"⟩] [⟨TokenRBrack, 6, "]"⟩] :=
  ⟨(parseList_comma_positions .EOF TokenRBrack (parseValue .EOF 1) 3
      [⟨TokenNumber, 2, "1"⟩, ⟨TokenComma, 3, ","⟩, ⟨TokenNumber, 4, "2"⟩,
        ⟨TokenRBrack, 6, "]"⟩] [⟨TokenRBrack, 6, "]"⟩] _ rfl).1,
   (parseList_comma_positions .EOF TokenRBrack (parseValue .EOF 1) 3
      [⟨TokenNumber, 2, "1"⟩, ⟨TokenComma, 3, ","⟩, ⟨TokenNumber, 4, "2"⟩,
        ⟨TokenComma, 5, ","⟩, ⟨TokenRBrack, 6, "]"⟩] [⟨TokenRBrack, 6, "]"⟩] _ rfl).1⟩

/-! ## The end of the stream between values, and concatenation -/

theorem Shape.top_append {xs ys : List Value} {a b : List tokenPos}
    (ha : Shape (.top xs) a) (hb : Shape (.top ys) b) : Shape (.top (xs ++ ys)) (a ++ b) := by
  induction xs generalizing a with
  | nil =>
    cases ha
    simpa using hb
  | cons x xs ih =>
    cases ha with
    | topCons _ _ w w1 hv ht =>
      rw [List.cons_append, List.append_assoc]
      exact Shape.topCons x _ w _ hv (ih ht)

theorem ParseLoop_end (pv : List tokenPos → Res (Value × List tokenPos)) (k : Nat)
    (out : List Value) : ParseLoop .EOF pv (k + 1) out [] = .ok out := by
  simp [ParseLoop]

/-- Claim C15: the end of the stream where a top-level value could begin is
normal completion.  On the empty stream `Parse` returns the empty list and no
error; the loop of `Parse`, finding the stream at its end, returns the values
`out` parsed so far; and on a stream that ends right after a complete value
`w`, which follows the tokens `a` of the values `xs`, `Parse` returns `xs` and
the value of `w`, and no error. -/
theorem Parse_end_of_stream (a w : List tokenPos) (xs : List Value) (v : Value)
    (ha : Parse .EOF a = .ok xs) (hw : Parse .EOF w = .ok [v]) :
    Parse .EOF [] = .ok [] ∧
      (∀ pv k out, ParseLoop .EOF pv (k + 1) out [] = .ok out) ∧
      Parse .EOF (a ++ w) = .ok (xs ++ [v]) :=
  ⟨rfl, ParseLoop_end,
    (Parse_ok_iff _ _ _).mpr ⟨rfl, Shape.top_append ((Parse_ok_iff _ _ _).mp ha).2
      ((Parse_ok_iff _ _ _).mp hw).2⟩⟩

/-- Claim C15 at the stream `1 f`, which ends after the operator `f`. -/
theorem Parse_end_of_stream_witness :
    Parse .EOF [] = .ok [] ∧
    Parse .EOF [⟨TokenNumber, 1, "1"⟩, ⟨TokenIdent, 2, "f"⟩] =
      .ok [.Number 1 "1", .Operator ⟨2, "f"⟩ []] :=
  have h := Parse_end_of_stream [⟨TokenNumber, 1, "1"⟩] [⟨TokenIdent, 2, "f"⟩]
    [.Number 1 "1"] (.Operator ⟨2, "f"⟩ []) rfl rfl
  ⟨h.1, h.2.2⟩

/-- Claim C16: top-level parsing is concatenative and keeps the order.  When
`Parse` succeeds on `a` with the nodes `xs` and on `b` with the nodes `ys`, it
succeeds on `a` followed by `b` with `xs` followed by `ys`.  The look one token
ahead after an operator at the end of `a` takes nothing of `b`: `b` does not
start with an opening paren, and the values of `a` are read from `a ++ b` with
`b` left unread. -/
theorem Parse_append (fin : GoError) (a b : List tokenPos) (xs ys : List Value)
    (ha : Parse fin a = .ok xs) (hb : Parse fin b = .ok ys) :
    Parse fin (a ++ b) = .ok (xs ++ ys) ∧ ¬ NextIs TokenLParen b ∧
      (b ≠ [] → ∀ k out, ParseLoop fin (parseValue fin (a.length + 1)) (k + xs.length) out
        (a ++ b) = ParseLoop fin (parseValue fin (a.length + 1)) k (out ++ xs) b) := by
  obtain ⟨hf, hsa⟩ := (Parse_ok_iff _ _ _).mp ha
  obtain ⟨-, hsb⟩ := (Parse_ok_iff _ _ _).mp hb
  refine ⟨(Parse_ok_iff _ _ _).mpr ⟨hf, hsa.top_append hsb⟩, hsb.top_next, fun hne k out => ?_⟩
  exact ParseLoop_prefix fin _ b hne xs a k out hsa (by omega) (fun _ _ _ => hsb.top_next)

/-- Claim C16 at the streams `1 f` and `[2] g(3)`. -/
theorem Parse_append_witness :
    Parse .EOF [⟨TokenNumber, 1, "1"⟩, ⟨TokenIdent, 2, "f"⟩, ⟨TokenLBrack, 3, "["⟩,
        ⟨TokenNumber, 4, "2"⟩, ⟨TokenRBrack, 5, "]"⟩, ⟨TokenIdent, 6, "g"⟩,
        ⟨TokenLParen, 7, "("⟩, ⟨TokenNumber, 8, "3"⟩, ⟨TokenRParen, 9, ")"⟩] =
      .ok [.Number 1 "1", .Operator ⟨2, "f"⟩ [], .Array 3 [⟨.Number 4 "2", 0⟩] 5,
        .Operator ⟨6, "g"⟩ [.mk 7 [⟨.Number 8 "3", 0⟩] 9]] :=
  (Parse_append .EOF [⟨TokenNumber, 1, "1"⟩, ⟨TokenIdent, 2, "f"⟩]
    [⟨TokenLBrack, 3, "["⟩, ⟨TokenNumber, 4, "2"⟩, ⟨TokenRBrack, 5, "]"⟩,
      ⟨TokenIdent, 6, "g"⟩, ⟨TokenLParen, 7, "("⟩, ⟨TokenNumber, 8, "3"⟩,
      ⟨TokenRParen, 9, ")"⟩]
    [.Number 1 "1", .Operator ⟨2, "f"⟩ []]
    [.Array 3 [⟨.Number 4 "2", 0⟩] 5, .Operator ⟨6, "g"⟩ [.mk 7 [⟨.Number 8 "3", 0⟩] 9]]
    rfl rfl).1

/-! ## The delimiter is left unread -/

/-- Claim C17: `parseList` leaves its delimiter unread.  When `parseList`
returns a list of values (for an array or an argument list) or a list of
members (for an object), from the tokens `s` with the tokens `r` left, the
first token of `r` is the delimiter, and what was consumed, `w` with
`s = w ++ r`, is the tokens of the elements with their commas: it has the
shape of the list, and reading the list back gives `w`. -/
theorem parseList_leaves_delim (fin : GoError) (dv dm : Token) (n kv km : Nat)
    (sv rv sm rm : List tokenPos) (lv : List (ListElem Value)) (lm : List (ListElem Member))
    (hv : parseList fin dv (parseValue fin n) kv [] sv = .ok (lv, rv))
    (hm : parseList fin dm (parseMember fin (parseValue fin n)) km [] sm = .ok (lm, rm)) :
    (NextIs dv rv ∧ ∃ w, sv = w ++ rv ∧ Shape (.values lv) w ∧
        ((∀ e ∈ w, e.Pos ≠ NoPos) → valuesTokens lv = w.map tokenPos.kept)) ∧
      (NextIs dm rm ∧ ∃ w, sm = w ++ rm ∧ Shape (.members lm) w ∧
        ((∀ e ∈ w, e.Pos ≠ NoPos) → membersTokens lm = w.map tokenPos.kept)) := by
  have hpv := parseValue_sound fin n
  constructor
  · obtain ⟨l1, w, hl, hs, hsh, hnext⟩ := parseList_sound fin dv (parseValue fin n)
      Node.value Node.values
      (fun s v r hh => by
        obtain ⟨w, h1, h2, -⟩ := hpv s v r hh
        exact ⟨w, h1, h2⟩)
      Shape.valuesNil Shape.valuesLast Shape.valuesCons _ _ _ _ _ hv
    simp only [List.nil_append] at hl
    subst hl
    exact ⟨hnext, w, hs, hsh, fun hpos => hsh.tokens hpos⟩
  · obtain ⟨l1, w, hl, hs, hsh, hnext⟩ := parseList_sound fin dm
      (parseMember fin (parseValue fin n)) Node.member Node.members
      (fun s v r hh => parseMember_sound hpv hh)
      Shape.membersNil Shape.membersLast Shape.membersCons _ _ _ _ _ hm
    simp only [List.nil_append] at hl
    subst hl
    exact ⟨hnext, w, hs, hsh, fun hpos => hsh.tokens hpos⟩

/-- Claim C17 at the list `1, f(),` before `)` with `2` after it, and at the
list `"a": 1` before the closing brace. -/
theorem parseList_leaves_delim_witness :
    NextIs TokenRParen [⟨TokenRParen, 7, ")"⟩, ⟨TokenNumber, 8, "2"⟩] ∧
    NextIs TokenRBrace [⟨TokenRBrace, 4, "\x7d"⟩] :=
  have h := parseList_leaves_delim .EOF TokenRParen TokenRBrace 3 5 2
    [⟨TokenNumber, 1, "1"⟩, ⟨TokenComma, 2, ","⟩, ⟨TokenIdent, 3, "f"⟩, ⟨TokenLParen, 4, "("⟩,
      ⟨TokenRParen, 5, ")"⟩, ⟨TokenComma, 6, ","⟩, ⟨TokenRParen, 7, ")"⟩, ⟨TokenNumber, 8, "2"⟩]
    [⟨TokenRParen, 7, ")"⟩, ⟨TokenNumber, 8, "2"⟩]
    [⟨TokenString, 1, "a"⟩, ⟨TokenColon, 2, ":"⟩, ⟨TokenNumber, 3, "1"⟩,
      ⟨TokenRBrace, 4, "\x7d"⟩]
    [⟨TokenRBrace, 4, "\x7d"⟩]
    [⟨.Number 1 "1", 2⟩, ⟨.Operator ⟨3, "f"⟩ [.mk 4 [] 5], 6⟩]
    [⟨.mk (.String 1 "a") 2 (.Number 3 "1"), 0⟩] rfl rfl
  ⟨h.1.1, h.2.1⟩

/-! ## Termination -/

theorem parseList_iter {E : Type} (fin : GoError) (delim : Token)
    (pf : List tokenPos → Res (E × List tokenPos)) (k : Nat) (out : List (ListElem E))
    (s : List tokenPos) :
    parseList fin delim pf (k + 1) out s =
      match parseListIter fin delim pf out s with
      | .next st => parseList fin delim pf k st.1 st.2
      | .ret res => res := by
  cases s with
  | nil => simp only [parseList, parseListIter]
  | cons e0 rest =>
    simp only [parseList, parseListIter]
    by_cases hd : e0.Token = delim
    · simp only [hd, if_true]
    · simp only [hd, if_false]
      cases hp : pf (e0 :: rest) with
      | timeout => rfl
      | err e => rfl
      | ok p =>
        obtain ⟨v, s1⟩ := p
        cases s1 with
        | nil => rfl
        | cons e1 rest1 =>
          simp only
          by_cases hc : e1.Token = TokenComma
          · simp only [hc, if_true]
          · simp only [hc, if_false]
            by_cases hd1 : e1.Token = delim
            · simp only [hd1, if_true]
            · simp only [hd1, if_false]

theorem parseOperatorLoop_iter (fin : GoError)
    (pa : List tokenPos → Res (OperatorArgs × List tokenPos)) (k : Nat)
    (out : List OperatorArgs) (s : List tokenPos) :
    parseOperatorLoop fin pa (k + 1) out s =
      match parseOperatorIter fin pa out s with
      | .next st => parseOperatorLoop fin pa k st.1 st.2
      | .ret res => res := by
  cases s with
  | nil => simp only [parseOperatorLoop, parseOperatorIter]
  | cons e0 rest =>
    simp only [parseOperatorLoop, parseOperatorIter]
    by_cases hd : e0.Token = TokenLParen
    · simp only [hd, ne_eq, not_true_eq_false, if_false]
      cases hp : pa (e0 :: rest) with
      | timeout => rfl
      | err e => rfl
      | ok p => rfl
    · simp only [ne_eq, hd, not_false_eq_true, if_true]

theorem ParseLoop_iter (fin : GoError) (pv : List tokenPos → Res (Value × List tokenPos))
    (k : Nat) (out : List Value) (s : List tokenPos) :
    ParseLoop fin pv (k + 1) out s =
      match ParseIter fin pv out s with
      | .next st => ParseLoop fin pv k st.1 st.2
      | .ret res => res := by
  cases s with
  | nil => simp only [ParseLoop, ParseIter]
  | cons e0 rest =>
    simp only [ParseLoop, ParseIter]
    cases hp : pv (e0 :: rest) with
    | timeout => rfl
    | err e => rfl
    | ok p => rfl

theorem parseListIter_progress {E : Type} {fin : GoError} {delim : Token}
    {pf : List tokenPos → Res (E × List tokenPos)}
    (hprog : ∀ s v r, pf s = .ok (v, r) → r.length < s.length)
    {out out1 : List (ListElem E)} {s s1 : List tokenPos}
    (h : parseListIter fin delim pf out s = .next (out1, s1)) : s1.length + 1 < s.length := by
  unfold parseListIter at h
  split at h
  · cases h
  · split at h
    · cases h
    · split at h
      · cases h
      · cases h
      · rename_i v s2 hp
        have := hprog _ _ _ hp
        split at h
        · cases h
        · split at h
          · cases h
            simp only [List.length_cons] at this ⊢
            omega
          · split at h <;> cases h

theorem parseOperatorIter_progress {fin : GoError}
    {pa : List tokenPos → Res (OperatorArgs × List tokenPos)}
    (hprog : ∀ s a r, pa s = .ok (a, r) → r.length < s.length)
    {out out1 : List OperatorArgs} {s s1 : List tokenPos}
    (h : parseOperatorIter fin pa out s = .next (out1, s1)) : s1.length < s.length := by
  unfold parseOperatorIter at h
  split at h
  · cases h
  · split at h
    · cases h
    · split at h
      · cases h
      · cases h
      · rename_i a s2 hp
        cases h
        exact hprog _ _ _ hp

theorem ParseIter_progress {fin : GoError} {pv : List tokenPos → Res (Value × List tokenPos)}
    (hprog : ∀ s v r, pv s = .ok (v, r) → r.length < s.length)
    {out out1 : List Value} {s s1 : List tokenPos}
    (h : ParseIter fin pv out s = .next (out1, s1)) : s1.length < s.length := by
  unfold ParseIter at h
  split at h
  · cases h
  · split at h
    · cases h
    · cases h
    · rename_i v s2 hp
      cases h
      exact hprog _ _ _ hp

/-- Claim C18: `Parse` terminates on every finite token stream.  It returns
nodes or an error under the bound of one more than the number of tokens; a
successful call of `parseValue` consumes at least one token; an iteration of
the loop of `parseList`, of `parseOperator` and of `Parse` after which the loop
goes on has consumed at least one token; so `parseValue` returns under every
bound above the number of unread tokens, and what it returns is the same under
all of them. -/
theorem Parse_terminates (fin : GoError) (ts : List tokenPos) :
    ((∃ vs, Parse fin ts = .ok vs) ∨ (∃ e, Parse fin ts = .err e)) ∧
      (∀ n s v r, parseValue fin n s = .ok (v, r) → r.length < s.length) ∧
      (∀ n s m r, parseMember fin (parseValue fin n) s = .ok (m, r) → r.length < s.length) ∧
      (∀ n delim out s out1 s1,
        parseListIter fin delim (parseValue fin n) out s = .next (out1, s1) →
          s1.length < s.length) ∧
      (∀ n delim out s out1 s1,
        parseListIter fin delim (parseMember fin (parseValue fin n)) out s = .next (out1, s1) →
          s1.length < s.length) ∧
      (∀ n k out s out1 s1,
        parseOperatorIter fin (parseOperatorArgs fin k (parseValue fin n)) out s =
          .next (out1, s1) → s1.length < s.length) ∧
      (∀ n out s out1 s1,
        ParseIter fin (parseValue fin n) out s = .next (out1, s1) → s1.length < s.length) ∧
      (∀ n s, s.length < n → parseValue fin n s ≠ .timeout) ∧
      (∀ n m s, s.length < n → s.length < m → parseValue fin n s = parseValue fin m s) := by
  have hs := parseValue_sound fin
  refine ⟨Parse_cases fin ts, fun n s v r h => (hs n).progress h,
    fun n s m r h => parseMember_progress (hs n) h, ?_, ?_, ?_, ?_,
    fun n s h => parseValue_total fin n s h, fun n m s hn hm => parseValue_bound fin s hn hm⟩
  · intro n delim out s out1 s1 h
    have := parseListIter_progress (fun s v r hh => (hs n).progress hh) h
    omega
  · intro n delim out s out1 s1 h
    have := parseListIter_progress (fun s v r hh => parseMember_progress (hs n) hh) h
    omega
  · intro n k out s out1 s1 h
    exact parseOperatorIter_progress (fun s a r hh => parseOperatorArgs_progress (hs n) hh) h
  · intro n out s out1 s1 h
    exact ParseIter_progress (fun s v r hh => (hs n).progress hh) h

/-! ## The delimiter checks around a list -/

theorem consumeToken_of_next (fin : GoError) {t : Token} {s : List tokenPos}
    (h : NextIs t s) : ∃ e r, s = e :: r ∧ consumeToken fin t s = .ok (e.Pos, r) := by
  cases s with
  | nil => cases h
  | cons e r => exact ⟨e, r, rfl, by simp only [NextIs] at h; simp [consumeToken, h]⟩

theorem consumeToken_reported {fin : GoError} {t : Token} {s : List tokenPos} {e : GoError}
    (h : consumeToken fin t s = .err e) : Reported fin e := by
  cases s with
  | nil => cases h; exact Reported.signal
  | cons x r =>
    simp only [consumeToken] at h
    split at h
    · cases h; exact Reported.expected _ _
    · cases h

theorem parseList_reported {E : Type} {fin : GoError} {delim : Token}
    {pf : List tokenPos → Res (E × List tokenPos)}
    (hpf : ∀ s e, pf s = .err e → Reported fin e) :
    ∀ (k : Nat) (out : List (ListElem E)) (s : List tokenPos) (e : GoError),
      parseList fin delim pf k out s = .err e → Reported fin e := by
  intro k
  induction k with
  | zero => intro out s e h; cases h
  | succ k ih =>
    intro out s e h
    rw [parseList_iter] at h
    cases hi : parseListIter fin delim pf out s with
    | next st =>
      rw [hi] at h
      exact ih _ _ _ h
    | ret res =>
      rw [hi] at h
      simp only at h
      subst h
      unfold parseListIter at hi
      split at hi
      · split at hi <;> cases hi
        · exact Reported.unexpectedEOF
        · exact Reported.signal
      · split at hi
        · cases hi
        · split at hi
          · cases hi
          · rename_i e1 hp
            cases hi
            exact hpf _ _ hp
          · split at hi
            · split at hi <;> cases hi
              · exact Reported.unexpectedEOF
              · exact Reported.signal
            · split at hi
              · cases hi
              · split at hi <;> cases hi
                exact Reported.expected _ _

theorem parseArray_reported {fin : GoError} {k : Nat}
    {pv : List tokenPos → Res (Value × List tokenPos)}
    (hpv : ∀ s e, pv s = .err e → Reported fin e) {s : List tokenPos} {e : GoError}
    (hs : NextIs TokenLBrack s) (h : parseArray fin k pv s = .err e) : Reported fin e := by
  obtain ⟨x, r, rfl, hc⟩ := consumeToken_of_next fin hs
  simp only [parseArray, hc] at h
  cases hl : parseList fin TokenRBrack pv k [] r with
  | timeout => rw [hl] at h; cases h
  | err e1 =>
    rw [hl] at h
    cases h
    exact Reported.wrap _ _ (parseList_reported hpv _ _ _ _ hl) (by simp [listContexts])
  | ok p =>
    obtain ⟨l, r1⟩ := p
    obtain ⟨-, -, -, hn⟩ := parseList_run fin TokenRBrack pv k [] r l r1 hl
    obtain ⟨y, r2, rfl, hc2⟩ := consumeToken_of_next fin hn
    rw [hl] at h
    simp only [hc2] at h
    cases h

theorem parseOperatorArgs_reported {fin : GoError} {k : Nat}
    {pv : List tokenPos → Res (Value × List tokenPos)}
    (hpv : ∀ s e, pv s = .err e → Reported fin e) {s : List tokenPos} {e : GoError}
    (hs : NextIs TokenLParen s) (h : parseOperatorArgs fin k pv s = .err e) :
    Reported fin e := by
  obtain ⟨x, r, rfl, hc⟩ := consumeToken_of_next fin hs
  simp only [parseOperatorArgs, hc] at h
  cases hl : parseList fin TokenRParen pv k [] r with
  | timeout => rw [hl] at h; cases h
  | err e1 =>
    rw [hl] at h
    cases h
    exact Reported.wrap _ _ (parseList_reported hpv _ _ _ _ hl) (by simp [listContexts])
  | ok p =>
    obtain ⟨l, r1⟩ := p
    obtain ⟨-, -, -, hn⟩ := parseList_run fin TokenRParen pv k [] r l r1 hl
    obtain ⟨y, r2, rfl, hc2⟩ := consumeToken_of_next fin hn
    rw [hl] at h
    simp only [hc2] at h
    cases h

theorem parseMember_reported {fin : GoError}
    {pv : List tokenPos → Res (Value × List tokenPos)}
    (hpv : ∀ s e, pv s = .err e → Reported fin e) {s : List tokenPos} {e : GoError}
    (h : parseMember fin pv s = .err e) : Reported fin e := by
  simp only [parseMember] at h
  cases hp : pv s with
  | timeout => rw [hp] at h; cases h
  | err e1 =>
    rw [hp] at h
    cases h
    exact Reported.wrap _ _ (hpv _ _ hp) (by simp [listContexts])
  | ok p =>
    obtain ⟨key, s1⟩ := p
    rw [hp] at h
    simp only at h
    cases hc : consumeToken fin TokenColon s1 with
    | timeout => rw [hc] at h; cases h
    | err e1 =>
      rw [hc] at h
      cases h
      exact Reported.wrap _ _ (consumeToken_reported hc) (by simp [listContexts])
    | ok q =>
      obtain ⟨colon, s2⟩ := q
      rw [hc] at h
      simp only at h
      cases hp2 : pv s2 with
      | timeout => rw [hp2] at h; cases h
      | err e1 =>
        rw [hp2] at h
        cases h
        exact Reported.wrap _ _ (hpv _ _ hp2) (by simp [listContexts])
      | ok p2 => rw [hp2] at h; cases h

theorem parseObject_reported {fin : GoError} {k : Nat}
    {pv : List tokenPos → Res (Value × List tokenPos)}
    (hpv : ∀ s e, pv s = .err e → Reported fin e) {s : List tokenPos} {e : GoError}
    (hs : NextIs TokenLBrace s) (h : parseObject fin k pv s = .err e) : Reported fin e := by
  obtain ⟨x, r, rfl, hc⟩ := consumeToken_of_next fin hs
  simp only [parseObject, hc] at h
  cases hl : parseList fin TokenRBrace (parseMember fin pv) k [] r with
  | timeout => rw [hl] at h; cases h
  | err e1 =>
    rw [hl] at h
    cases h
    exact Reported.wrap _ _
      (parseList_reported (fun s e hh => parseMember_reported hpv hh) _ _ _ _ hl)
      (by simp [listContexts])
  | ok p =>
    obtain ⟨l, r1⟩ := p
    obtain ⟨-, -, -, hn⟩ := parseList_run fin TokenRBrace (parseMember fin pv) k [] r l r1 hl
    obtain ⟨y, r2, rfl, hc2⟩ := consumeToken_of_next fin hn
    rw [hl] at h
    simp only [hc2] at h
    cases h

theorem parseOperatorLoop_reported {fin : GoError}
    {pa : List tokenPos → Res (OperatorArgs × List tokenPos)}
    (hpa : ∀ s e, NextIs TokenLParen s → pa s = .err e → Reported fin e) :
    ∀ (k : Nat) (out : List OperatorArgs) (s : List tokenPos) (e : GoError),
      parseOperatorLoop fin pa k out s = .err e → Reported fin e := by
  intro k
  induction k with
  | zero => intro out s e h; cases h
  | succ k ih =>
    intro out s e h
    rw [parseOperatorLoop_iter] at h
    cases hi : parseOperatorIter fin pa out s with
    | next st =>
      rw [hi] at h
      exact ih _ _ _ h
    | ret res =>
      rw [hi] at h
      simp only at h
      subst h
      unfold parseOperatorIter at hi
      split at hi
      · split at hi <;> cases hi
        exact Reported.signal
      · rename_i x r
        split at hi
        · cases hi
        · rename_i hx
          split at hi
          · cases hi
          · rename_i e1 hp
            cases hi
            exact hpa _ _ (by simpa [NextIs] using hx) hp
          · cases hi

theorem parseOperator_reported {fin : GoError} {k : Nat}
    {pv : List tokenPos → Res (Value × List tokenPos)}
    (hpv : ∀ s e, pv s = .err e → Reported fin e) {s : List tokenPos} {e : GoError}
    (hs : NextIs TokenIdent s) (h : parseOperator fin k pv s = .err e) : Reported fin e := by
  cases s with
  | nil => cases hs
  | cons x r =>
    simp only [NextIs] at hs
    simp only [parseOperator, parseIdent, hs, ne_eq, not_true_eq_false, if_false] at h
    cases hl : parseOperatorLoop fin (parseOperatorArgs fin k pv) k [] r with
    | timeout => rw [hl] at h; cases h
    | err e1 =>
      rw [hl] at h
      cases h
      exact parseOperatorLoop_reported
        (fun s e hn hh => parseOperatorArgs_reported hpv hn hh) _ _ _ _ hl
    | ok p => rw [hl] at h; cases h

theorem parseValue_reported (fin : GoError) :
    ∀ (n : Nat) (s : List tokenPos) (e : GoError),
      parseValue fin n s = .err e → Reported fin e := by
  intro n
  induction n with
  | zero => intro s e h; cases h
  | succ n ih =>
    intro s e h
    cases s with
    | nil =>
      simp only [parseValue] at h
      split at h <;> cases h
      · exact Reported.unexpectedEOF
      · exact Reported.signal
    | cons x r =>
      unfold parseValue at h
      simp only at h
      split at h
      all_goals first
        | (cases h; done)
        | (cases h; exact Reported.invalid)
        | (cases h; exact Reported.unexpected _)
        | (cases h; exact Reported.unknown _)
        | (rename_i hx; exact parseObject_reported ih (by simpa [NextIs] using hx) h)
        | (rename_i hx; exact parseArray_reported ih (by simpa [NextIs] using hx) h)
        | (rename_i hx; exact parseOperator_reported ih (by simpa [NextIs] using hx) h)
        | (rename_i hx; simp [parseString, hx] at h)

theorem ParseLoop_reported {fin : GoError} {pv : List tokenPos → Res (Value × List tokenPos)}
    (hpv : ∀ s e, pv s = .err e → Reported fin e) :
    ∀ (k : Nat) (out : List Value) (s : List tokenPos) (e : GoError),
      ParseLoop fin pv k out s = .err e → Reported fin e := by
  intro k
  induction k with
  | zero => intro out s e h; cases h
  | succ k ih =>
    intro out s e h
    rw [ParseLoop_iter] at h
    cases hi : ParseIter fin pv out s with
    | next st =>
      rw [hi] at h
      exact ih _ _ _ h
    | ret res =>
      rw [hi] at h
      simp only at h
      subst h
      unfold ParseIter at hi
      split at hi
      · split at hi <;> cases hi
        exact Reported.signal
      · split at hi
        · cases hi
        · rename_i e1 hp
          split at hi <;> cases hi
          exact hpv _ _ hp
        · cases hi

/-! ## No delimiter context in a message -/

theorem Clean.cons_iff (a : Char) (w : List Char) :
    Clean (a :: w) ↔
      (¬ ['s', 't'] <+: a :: w ∧ ¬ ['t', ' ', 'e'] <+: a :: w ∧ ¬ ['f', ' ', 'o'] <+: a :: w) ∧
        Clean w := by
  simp only [Clean, List.infix_cons_iff]
  tauto

theorem Clean.append_context {u : List Char} (c : Char) (v : List Char) (hu : Clean u)
    (hv : Clean (' ' :: c :: v)) (he : c ≠ 'e') (ho : c ≠ 'o') :
    Clean (u ++ ' ' :: c :: v) := by
  induction u with
  | nil => simpa using hv
  | cons a u ih =>
    rw [Clean.cons_iff] at hu
    obtain ⟨⟨h1, h2, h3⟩, hu1⟩ := hu
    rw [List.cons_append, Clean.cons_iff]
    refine ⟨?_, ih hu1⟩
    cases u with
    | nil =>
      simp only [List.nil_append, List.cons_prefix_cons, List.nil_prefix, and_true]
      refine ⟨?_, ?_, ?_⟩
      · rintro ⟨-, h⟩; exact absurd h (by decide)
      · rintro ⟨-, -, h⟩; exact he h.symm
      · rintro ⟨-, -, h⟩; exact ho h.symm
    | cons b u =>
      cases u with
      | nil =>
        simp only [List.cons_append, List.nil_append, List.cons_prefix_cons, List.nil_prefix,
          and_true] at h1 h2 h3 ⊢
        refine ⟨h1, ?_, ?_⟩
        · rintro ⟨-, -, h⟩; exact absurd h (by decide)
        · rintro ⟨-, -, h⟩; exact absurd h (by decide)
      | cons d u =>
        simp only [List.cons_append, List.cons_prefix_cons, List.nil_prefix,
          and_true] at h1 h2 h3 ⊢
        exact ⟨h1, h2, h3⟩

theorem Clean.of_infix {d w : List Char} (hw : Clean w) (hd : ¬ Clean d) : ¬ d <:+: w := by
  intro h
  apply hd
  exact ⟨fun h1 => hw.1 (h1.trans h), fun h1 => hw.2.1 (h1.trans h),
    fun h1 => hw.2.2 (h1.trans h)⟩

theorem Clean.expectedToken (t f : Token) :
    Clean ("expected token " ++ t.String ++ " (found " ++ f.String ++ ")").data := by
  cases t <;> cases f <;> decide

theorem Clean.unexpectedToken (t : Token) :
    Clean ("unexpected token " ++ t.String ++ " at beginning of Value").data := by
  cases t <;> decide

theorem Clean.unknownToken (t : Token) :
    Clean ("unknown token " ++ t.String ++ " returned during scan").data := by
  cases t <;> decide

theorem Clean.context {ctx : String} (h : ctx ∈ listContexts) :
    Clean ctx.data ∧ ∃ c v, ctx.data = ' ' :: c :: v ∧ c ≠ 'e' ∧ c ≠ 'o' := by
  simp only [listContexts, List.mem_cons, List.mem_singleton, List.not_mem_nil, or_false] at h
  rcases h with rfl | rfl | rfl | rfl | rfl | rfl
  all_goals exact ⟨by decide, _, _, rfl, by decide, by decide⟩

/-- The message of an error built without a delimiter context, when the
tokenizer ended with `io.EOF`, has none of the marks of a delimiter context. -/
theorem Reported.clean {e : GoError} (h : Reported .EOF e) : Clean e.Error.data := by
  induction h with
  | signal => decide
  | unexpectedEOF => decide
  | expected t f => exact Clean.expectedToken t f
  | invalid => decide
  | unexpected t => exact Clean.unexpectedToken t
  | unknown t => exact Clean.unknownToken t
  | wrap e ctx _ hctx ih =>
    obtain ⟨hc, c, v, hcv, he, ho⟩ := Clean.context hctx
    show Clean (e.Error ++ ctx).data
    rw [String.data_append, hcv]
    rw [hcv] at hc
    exact Clean.append_context c v ih hc he ho

theorem delimiterContexts_not_clean : ∀ d ∈ delimiterContexts, ¬ Clean d.data := by
  decide

theorem Parse_reported {fin : GoError} {ts : List tokenPos} {e : GoError}
    (h : Parse fin ts = .err e) : Reported fin e :=
  ParseLoop_reported (parseValue_reported fin _) _ _ _ _ h

/-- Claim C19: the delimiter checks around a list never fail.  Every error
`Parse` returns is built from the signal of the tokenizer and the messages of
`consumeToken`, `parseList` and `parseValue`, wrapped in contexts of
`listContexts` only, none of which is one of the six contexts of a delimiter
check; when the tokenizer ended with `io.EOF`, no part of the message reads as
one of the six.  The reason: `parseArray`, `parseObject` and `parseOperatorArgs` are
run only where the next token is their opening delimiter, on which the
`consumeToken` call for it succeeds; and where `parseList` has returned a
list, the next token is the closing delimiter, on which the `consumeToken`
call for it succeeds. -/
theorem Parse_delimiter_checks (fin : GoError) (ts : List tokenPos) (e : GoError)
    (h : Parse fin ts = .err e) :
    Reported fin e ∧
      (∀ c ∈ delimiterContexts, c ∉ listContexts) ∧
      (fin = .EOF → ∀ d ∈ delimiterContexts, ¬ d.data <:+: e.Error.data) ∧
      (∀ s : List tokenPos,
        (∀ t, NextIs t s → ∃ x r, s = x :: r ∧ consumeToken fin t s = .ok (x.Pos, r)) ∧
        (¬ NextIs TokenLBrack s → ∀ pO pA pA1 pOp pS,
          parseValueBody fin pO pA pOp pS s = parseValueBody fin pO pA1 pOp pS s) ∧
        (¬ NextIs TokenLBrace s → ∀ pO pO1 pA pOp pS,
          parseValueBody fin pO pA pOp pS s = parseValueBody fin pO1 pA pOp pS s) ∧
        (¬ NextIs TokenLParen s → ∀ pa pa1 out,
          parseOperatorIter fin pa out s = parseOperatorIter fin pa1 out s)) ∧
      (∀ (E : Type) (pf : List tokenPos → Res (E × List tokenPos)) delim k s l r,
        parseList fin delim pf k [] s = .ok (l, r) →
          ∃ x r1, r = x :: r1 ∧ consumeToken fin delim r = .ok (x.Pos, r1)) := by
  refine ⟨Parse_reported h, by decide, fun hf d hd => ?_,
    fun s => ⟨fun t ht => consumeToken_of_next fin ht, ?_, ?_, ?_⟩, fun E pf delim k s l r hl => ?_⟩
  · subst hf
    exact (Parse_reported h).clean.of_infix (delimiterContexts_not_clean d hd)
  · intro hn pO pA pA1 pOp pS
    cases s with
    | nil => rfl
    | cons x r =>
      simp only [NextIs] at hn
      unfold parseValueBody
      simp only
      split <;> first | rfl | (rename_i hx; exact absurd hx hn)
  · intro hn pO pO1 pA pOp pS
    cases s with
    | nil => rfl
    | cons x r =>
      simp only [NextIs] at hn
      unfold parseValueBody
      simp only
      split <;> first | rfl | (rename_i hx; exact absurd hx hn)
  · intro hn pa pa1 out
    cases s with
    | nil => rfl
    | cons x r =>
      simp only [NextIs] at hn
      simp [parseOperatorIter, hn]
  · obtain ⟨-, -, -, hn⟩ := parseList_run fin delim pf k [] s l r hl
    exact consumeToken_of_next fin hn

/-- Claim C19 at the stream `[1`: the error carries the context of the list,
not one of a delimiter check. -/
theorem Parse_delimiter_checks_witness :
    Reported .EOF (.errorString "unexpected EOF in array") ∧
    ∀ d ∈ delimiterContexts, ¬ d.data <:+: "unexpected EOF in array".data :=
  have h := Parse_delimiter_checks .EOF [⟨TokenLBrack, 1, "["⟩, ⟨TokenNumber, 2, "1"⟩]
    (.errorString "unexpected EOF in array") rfl
  ⟨h.1, h.2.2.1 rfl⟩

end Jsondsl
